import Mathlib

/-!
Verification of the space-filling-curve and convex-polygon core of the
sphgeom library.  Machine integers are modelled as `Nat`; wherever the C
code relies on wrap-around (casts, overflowing multiplies) the model
applies an explicit `% 2^w`.
-/

/-- Lookup table of log2(uint64_t), from curve.h. -/
def PERFECT_HASH_TABLE_64 : List Nat :=
  [0, 1, 2, 7, 3, 13, 8, 19, 4, 25, 14, 28, 9, 34, 20, 40,
   5, 17, 26, 38, 15, 46, 29, 48, 10, 31, 35, 54, 21, 50, 41, 57,
   63, 6, 12, 18, 24, 27, 33, 39, 16, 37, 45, 47, 30, 53, 49, 56,
   62, 11, 23, 32, 36, 44, 52, 55, 61, 22, 43, 51, 60, 42, 59, 58]

/-- De Bruijn constant of log2(uint64_t), from curve.h. -/
def DE_BRUIJN_SEQUENCE_64 : Nat := 0x0218a392cd3d5dbf

/-- Embedding of log2(uint64_t): smear the bits below the most significant
one bit, isolate the MSB by subtraction, and recover its index through a
de Bruijn perfect hash.  The C multiplication wraps modulo 2^64. -/
def log2u64 (x : Nat) : Nat :=
  let x := x ||| (x >>> 1)
  let x := x ||| (x >>> 2)
  let x := x ||| (x >>> 4)
  let x := x ||| (x >>> 8)
  let x := x ||| (x >>> 16)
  let x := x ||| (x >>> 32)
  let x := x - (x >>> 1)
  PERFECT_HASH_TABLE_64.getD ((DE_BRUIJN_SEQUENCE_64 * x % 2 ^ 64) >>> 58) 0

/-- Lookup table of log2(uint32_t), from curve.h. -/
def PERFECT_HASH_TABLE_32 : List Nat :=
  [0, 9, 1, 10, 13, 21, 2, 29, 11, 14, 16, 18, 22, 25, 3, 30,
   8, 12, 20, 28, 15, 17, 24, 7, 19, 27, 23, 6, 26, 5, 4, 31]

/-- De Bruijn constant of log2(uint32_t), from curve.h. -/
def DE_BRUIJN_SEQUENCE_32 : Nat := 0x07c4acdd

/-- Embedding of log2(uint32_t): the 32-bit variant smears and then feeds the
smeared value (not the isolated MSB) to the de Bruijn multiply, wrapping
modulo 2^32. -/
def log2u32 (x : Nat) : Nat :=
  let x := x ||| (x >>> 1)
  let x := x ||| (x >>> 2)
  let x := x ||| (x >>> 4)
  let x := x ||| (x >>> 8)
  let x := x ||| (x >>> 16)
  PERFECT_HASH_TABLE_32.getD ((DE_BRUIJN_SEQUENCE_32 * x % 2 ^ 32) >>> 27) 0

/-- One coordinate chain of mortonIndex (the portable path of curve.h):
spread the 32 bits of the argument over the even bit positions of a 64-bit
word.  The source interleaves the chains of its arguments a and b line by
line; both chains are this same transformation. -/
def mortonSpread (a : Nat) : Nat :=
  let a := (a ||| (a <<< 16)) &&& 0x0000ffff0000ffff
  let a := (a ||| (a <<< 8)) &&& 0x00ff00ff00ff00ff
  let a := (a ||| (a <<< 4)) &&& 0x0f0f0f0f0f0f0f0f
  let a := (a ||| (a <<< 2)) &&& 0x3333333333333333
  (a ||| (a <<< 1)) &&& 0x5555555555555555

/-- Embedding of mortonIndex(uint32_t, uint32_t): interleave the bits of x
and y, x in the even positions and y in the odd ones. -/
def mortonIndex (x y : Nat) : Nat :=
  mortonSpread x ||| (mortonSpread y <<< 1)

/-- One coordinate chain of mortonIndexInverse: gather the even bits of a
64-bit word into a 32-bit result.  The final cast to uint32_t is the
explicit mod 2^32. -/
def mortonUnspread (x : Nat) : Nat :=
  let x := (x ||| (x >>> 1)) &&& 0x3333333333333333
  let x := (x ||| (x >>> 2)) &&& 0x0f0f0f0f0f0f0f0f
  let x := (x ||| (x >>> 4)) &&& 0x00ff00ff00ff00ff
  let x := (x ||| (x >>> 8)) &&& 0x0000ffff0000ffff
  (x ||| (x >>> 16)) % 2 ^ 32

/-- Embedding of mortonIndexInverse(uint64_t): separate the even and the odd
bits of z. -/
def mortonIndexInverse (z : Nat) : Nat × Nat :=
  (mortonUnspread (z &&& 0x5555555555555555),
   mortonUnspread ((z >>> 1) &&& 0x5555555555555555))

/-- The 16-entry one-pair-per-step Hilbert lookup table of curve.h, packed
into a 64-bit constant. -/
def HILBERT_LUT_1 : Nat := 0x8d3ec79a6b5021f4

/-- The 16-entry inverse Hilbert lookup table of curve.h. -/
def HILBERT_INVERSE_LUT_1 : Nat := 0x1ceb689fa750d324

/-- The 256-entry three-pairs-per-step Hilbert lookup table of
mortonToHilbert. -/
def HILBERT_LUT_3 : List Nat :=
  [0x40, 0xc3, 0x01, 0x02, 0x04, 0x45, 0x87, 0x46,
   0x8e, 0x8d, 0x4f, 0xcc, 0x08, 0x49, 0x8b, 0x4a,
   0xfa, 0x3b, 0xf9, 0xb8, 0x7c, 0xff, 0x3d, 0x3e,
   0xf6, 0x37, 0xf5, 0xb4, 0xb2, 0xb1, 0x73, 0xf0,
   0x10, 0x51, 0x93, 0x52, 0xde, 0x1f, 0xdd, 0x9c,
   0x54, 0xd7, 0x15, 0x16, 0x58, 0xdb, 0x19, 0x1a,
   0x20, 0x61, 0xa3, 0x62, 0xee, 0x2f, 0xed, 0xac,
   0x64, 0xe7, 0x25, 0x26, 0x68, 0xeb, 0x29, 0x2a,
   0x00, 0x41, 0x83, 0x42, 0xce, 0x0f, 0xcd, 0x8c,
   0x44, 0xc7, 0x05, 0x06, 0x48, 0xcb, 0x09, 0x0a,
   0x50, 0xd3, 0x11, 0x12, 0x14, 0x55, 0x97, 0x56,
   0x9e, 0x9d, 0x5f, 0xdc, 0x18, 0x59, 0x9b, 0x5a,
   0xba, 0xb9, 0x7b, 0xf8, 0xb6, 0xb5, 0x77, 0xf4,
   0x3c, 0x7d, 0xbf, 0x7e, 0xf2, 0x33, 0xf1, 0xb0,
   0x60, 0xe3, 0x21, 0x22, 0x24, 0x65, 0xa7, 0x66,
   0xae, 0xad, 0x6f, 0xec, 0x28, 0x69, 0xab, 0x6a,
   0xaa, 0xa9, 0x6b, 0xe8, 0xa6, 0xa5, 0x67, 0xe4,
   0x2c, 0x6d, 0xaf, 0x6e, 0xe2, 0x23, 0xe1, 0xa0,
   0x9a, 0x99, 0x5b, 0xd8, 0x96, 0x95, 0x57, 0xd4,
   0x1c, 0x5d, 0x9f, 0x5e, 0xd2, 0x13, 0xd1, 0x90,
   0x70, 0xf3, 0x31, 0x32, 0x34, 0x75, 0xb7, 0x76,
   0xbe, 0xbd, 0x7f, 0xfc, 0x38, 0x79, 0xbb, 0x7a,
   0xca, 0x0b, 0xc9, 0x88, 0x4c, 0xcf, 0x0d, 0x0e,
   0xc6, 0x07, 0xc5, 0x84, 0x82, 0x81, 0x43, 0xc0,
   0xea, 0x2b, 0xe9, 0xa8, 0x6c, 0xef, 0x2d, 0x2e,
   0xe6, 0x27, 0xe5, 0xa4, 0xa2, 0xa1, 0x63, 0xe0,
   0x30, 0x71, 0xb3, 0x72, 0xfe, 0x3f, 0xfd, 0xbc,
   0x74, 0xf7, 0x35, 0x36, 0x78, 0xfb, 0x39, 0x3a,
   0xda, 0x1b, 0xd9, 0x98, 0x5c, 0xdf, 0x1d, 0x1e,
   0xd6, 0x17, 0xd5, 0x94, 0x92, 0x91, 0x53, 0xd0,
   0x8a, 0x89, 0x4b, 0xc8, 0x86, 0x85, 0x47, 0xc4,
   0x0c, 0x4d, 0x8f, 0x4e, 0xc2, 0x03, 0xc1, 0x80]

/-- The 256-entry inverse Hilbert lookup table of hilbertToMorton. -/
def HILBERT_INVERSE_LUT_3 : List Nat :=
  [0x40, 0x02, 0x03, 0xc1, 0x04, 0x45, 0x47, 0x86,
   0x0c, 0x4d, 0x4f, 0x8e, 0xcb, 0x89, 0x88, 0x4a,
   0x20, 0x61, 0x63, 0xa2, 0x68, 0x2a, 0x2b, 0xe9,
   0x6c, 0x2e, 0x2f, 0xed, 0xa7, 0xe6, 0xe4, 0x25,
   0x30, 0x71, 0x73, 0xb2, 0x78, 0x3a, 0x3b, 0xf9,
   0x7c, 0x3e, 0x3f, 0xfd, 0xb7, 0xf6, 0xf4, 0x35,
   0xdf, 0x9d, 0x9c, 0x5e, 0x9b, 0xda, 0xd8, 0x19,
   0x93, 0xd2, 0xd0, 0x11, 0x54, 0x16, 0x17, 0xd5,
   0x00, 0x41, 0x43, 0x82, 0x48, 0x0a, 0x0b, 0xc9,
   0x4c, 0x0e, 0x0f, 0xcd, 0x87, 0xc6, 0xc4, 0x05,
   0x50, 0x12, 0x13, 0xd1, 0x14, 0x55, 0x57, 0x96,
   0x1c, 0x5d, 0x5f, 0x9e, 0xdb, 0x99, 0x98, 0x5a,
   0x70, 0x32, 0x33, 0xf1, 0x34, 0x75, 0x77, 0xb6,
   0x3c, 0x7d, 0x7f, 0xbe, 0xfb, 0xb9, 0xb8, 0x7a,
   0xaf, 0xee, 0xec, 0x2d, 0xe7, 0xa5, 0xa4, 0x66,
   0xe3, 0xa1, 0xa0, 0x62, 0x28, 0x69, 0x6b, 0xaa,
   0xff, 0xbd, 0xbc, 0x7e, 0xbb, 0xfa, 0xf8, 0x39,
   0xb3, 0xf2, 0xf0, 0x31, 0x74, 0x36, 0x37, 0xf5,
   0x9f, 0xde, 0xdc, 0x1d, 0xd7, 0x95, 0x94, 0x56,
   0xd3, 0x91, 0x90, 0x52, 0x18, 0x59, 0x5b, 0x9a,
   0x8f, 0xce, 0xcc, 0x0d, 0xc7, 0x85, 0x84, 0x46,
   0xc3, 0x81, 0x80, 0x42, 0x08, 0x49, 0x4b, 0x8a,
   0x60, 0x22, 0x23, 0xe1, 0x24, 0x65, 0x67, 0xa6,
   0x2c, 0x6d, 0x6f, 0xae, 0xeb, 0xa9, 0xa8, 0x6a,
   0xbf, 0xfe, 0xfc, 0x3d, 0xf7, 0xb5, 0xb4, 0x76,
   0xf3, 0xb1, 0xb0, 0x72, 0x38, 0x79, 0x7b, 0xba,
   0xef, 0xad, 0xac, 0x6e, 0xab, 0xea, 0xe8, 0x29,
   0xa3, 0xe2, 0xe0, 0x21, 0x64, 0x26, 0x27, 0xe5,
   0xcf, 0x8d, 0x8c, 0x4e, 0x8b, 0xca, 0xc8, 0x09,
   0x83, 0xc2, 0xc0, 0x01, 0x44, 0x06, 0x07, 0xc5,
   0x10, 0x51, 0x53, 0x92, 0x58, 0x1a, 0x1b, 0xd9,
   0x5c, 0x1e, 0x1f, 0xdd, 0x97, 0xd6, 0xd4, 0x15]

/-- Loop of mortonToHilbert, recursing on the remaining bit count n = 2m.
Each full step consumes 6 Morton bits through HILBERT_LUT_3; a final
partial group of 2 or 4 bits is handled by shifting, exactly as in the
source. -/
def mtHgo (z : Nat) : Nat → Nat → Nat → Nat
  | n + 6, i, h =>
    let j := HILBERT_LUT_3.getD (i ||| (z >>> n &&& 0x3f)) 0
    mtHgo z n (j &&& 0xc0) ((h <<< 6) ||| (j &&& 0x3f))
  | n, i, h =>
    if n = 0 then h
    else
      let r := 6 - n
      let j := HILBERT_LUT_3.getD (i ||| (z <<< r &&& 0x3f)) 0
      (h <<< n) ||| ((j &&& 0x3f) >>> r)

/-- Embedding of mortonToHilbert(uint64_t, int). -/
def mortonToHilbert (z : Nat) (m : Nat) : Nat := mtHgo z (2 * m) 0 0

/-- Loop of hilbertToMorton, the inverse transform driven by
HILBERT_INVERSE_LUT_3. -/
def htMgo (h : Nat) : Nat → Nat → Nat → Nat
  | n + 6, i, z =>
    let j := HILBERT_INVERSE_LUT_3.getD (i ||| (h >>> n &&& 0x3f)) 0
    htMgo h n (j &&& 0xc0) ((z <<< 6) ||| (j &&& 0x3f))
  | n, i, z =>
    if n = 0 then z
    else
      let r := 6 - n
      let j := HILBERT_INVERSE_LUT_3.getD (i ||| (h <<< r &&& 0x3f)) 0
      (z <<< n) ||| ((j &&& 0x3f) >>> r)

/-- Embedding of hilbertToMorton(uint64_t, int). -/
def hilbertToMorton (h : Nat) (m : Nat) : Nat := htMgo h (2 * m) 0 0

/-- Embedding of hilbertIndex(uint32_t, uint32_t, int). -/
def hilbertIndex (x y : Nat) (m : Nat) : Nat :=
  mortonToHilbert (mortonIndex x y) m

/-- Embedding of hilbertIndexInverse(uint64_t, int). -/
def hilbertIndexInverse (h : Nat) (m : Nat) : Nat × Nat :=
  mortonIndexInverse (hilbertToMorton h m)

/-- Loop of the one-pair-per-step reference implementation of hilbertIndex
given in the header comment of curve.h: each iteration consumes one 2-bit
Morton group through HILBERT_LUT_1. -/
def refGo (z : Nat) : Nat → Nat → Nat → Nat
  | n + 2, i, h =>
    let i := HILBERT_LUT_1 >>> (((i &&& 0xc) ||| (z >>> n &&& 3)) * 4)
    refGo z n i ((h <<< 2) ||| (i &&& 3))
  | _, _, h => h

/-- The reference hilbertIndex from the curve.h header comment, applied to a
precomputed Morton index. -/
def refMortonToHilbert (z : Nat) (m : Nat) : Nat := refGo z (2 * m) 0 0

/-- One-pair inverse step through HILBERT_INVERSE_LUT_1, the inverse
counterpart of the reference loop (proof vehicle for locality). -/
def inv1step (i b : Nat) : Nat :=
  HILBERT_INVERSE_LUT_1 >>> (((i &&& 0xc) ||| b) * 4)

/-- One-pair-per-step inverse loop mirroring refGo. -/
def inv2go (h : Nat) : Nat → Nat → Nat → Nat
  | n + 2, i, z =>
    let i := inv1step i (h >>> n &&& 3)
    inv2go h n i ((z <<< 2) ||| (i &&& 3))
  | _, _, z => z

/-- Quadrant-recursive grid point of the order-m Hilbert curve in state i:
the semantic counterpart of deinterleaving inv2go (proof vehicle for
locality). -/
def hilbertPt : Nat → Nat → Nat → Nat × Nat
  | 0, _, _ => (0, 0)
  | m + 1, i, h =>
    let j := inv1step i (h >>> (2 * m) &&& 3)
    let p := hilbertPt m (j &&& 0xc) h
    ((j &&& 1) * 2 ^ m + p.1, (j >>> 1 &&& 1) * 2 ^ m + p.2)

/-- Bytes of a lookup table packed little-endian into a single natural
number (proof-side companion of the byte tables, for fast evaluation). -/
def ofBytes : List Nat → Nat
  | [] => 0
  | b :: t => b + 256 * ofBytes t

/-- HILBERT_LUT_3 packed into one natural number. -/
def HILBERT_LUT_3P : Nat := 0x80c103c24e8f4d0cc4478586c84b898ad053919294d517d61e1ddf5c98d91bda3a39fb783635f774bcfd3ffe72b37130e063a1a2a4e527e62e2def6ca8e92beac043818284c507c60e0dcf4c88c90bca7abb7938fc7fbdbe76b775343231f37090d113d25e9f5d1cd4579596d85b999aa0e123e26eaf6d2ce467a5a6e86ba9aa6aab6928ec6fadae66a765242221e360b0f133f27ebf7d3cf477b5b6f87bb9ba5a9b5918dc5f9d9e569755141211d3500a09cb480605c7448ccd0fce428341002a29eb682625e764aced2fee62a361201a19db581615d7549cdd1fde52935110f073b1b2b4f537f63e3dff7cb8f93bfa4a8b4908cc4f8d8e468745040201c340

/-- HILBERT_INVERSE_LUT_3 packed into one natural number. -/
def HILBERT_INVERSE_LUT_3P : Nat := 0x15d4d697dd1f1e5cd91b1a5892535110c507064401c0c28309c8ca8b4e8c8dcfe527266421e0e2a329e8eaab6eacadefba7b793872b0b1f376b4b5f73dfcfebf6aa8a9ebae6f6d2ca6676524e12322608a4b4908428081c3468485c70dccce8f9a5b5918529091d3569495d71ddcde9ff537367431f0f2b339f8fabb7ebcbdffaa6b692862a0a1e366a4a5e72deceeaf7ab8b9fbbe7f7d3cb6777534f13332705a9899db9e5f5d1c96575514d113125005c4c687cd0f0e4cc90b0a4882434100d517165411d0d29319d8da9b5e9c9ddf35f4f6b7fd3f3e7cf93b3a78b273713025e4e6a7ed2f2e6ce92b2a68a26361204a8889cb8e4f4d0c86474504c1030240

/-- PERFECT_HASH_TABLE_64 packed into one natural number. -/
def PERFECT_HASH_TABLE_64P : Nat := 0x3a3b2a3c332b163d37342c2420170b3e3831351e2f2d251027211b18120c063f3929321536231f0a301d2e0f261a1105281422091c0e190413080d0307020100

/-- PERFECT_HASH_TABLE_32 packed into one natural number. -/
def PERFECT_HASH_TABLE_32P : Nat := 0x1f04051a06171b130718110f1c140c081e03191612100e0b1d02150d0a010900


/-! Chunk-sum toolkit: a number viewed as chunks c 0, c 1, ... of s bits
laid out at stride s.  All the mask-and-shift stages of curve.h act
chunkwise on such sums. -/

/-- Value of the chunk sequence c 0, ..., c (n-1) at stride s bits. -/
def csum (s : Nat) (c : Nat → Nat) : Nat → Nat
  | 0 => 0
  | n + 1 => csum s c n + c n * 2 ^ (s * n)

/-- States of the 256-entry Hilbert transducer (bits 6 and 7 of a LUT entry). -/
def isState6 (i : Nat) : Prop := i = 0 ∨ i = 64 ∨ i = 128 ∨ i = 192

/-- States of the 16-entry Hilbert transducer (bits 2 and 3 of a LUT entry). -/
def isState2 (i : Nat) : Prop := i = 0 ∨ i = 4 ∨ i = 8 ∨ i = 12

/-- One step of the reference loop: lookup of HILBERT_LUT_1 keyed on the
2-bit state of i and a 2-bit Morton group. -/
def lut1step (i b : Nat) : Nat := HILBERT_LUT_1 >>> (((i &&& 0xc) ||| b) * 4)

/-- Packed lookup into HILBERT_LUT_3 (proof-side fast form). -/
def lut3p (k : Nat) : Nat := HILBERT_LUT_3P >>> (8 * k) &&& 255

/-- Packed lookup into HILBERT_INVERSE_LUT_3 (proof-side fast form). -/
def ilut3p (k : Nat) : Nat := HILBERT_INVERSE_LUT_3P >>> (8 * k) &&& 255

/-- Chebyshev-distance-1 adjacency: the two grid cells differ by exactly 1
in exactly one coordinate. -/
def cheb1 (p q : Nat × Nat) : Prop :=
  (p.1 = q.1 ∧ (p.2 + 1 = q.2 ∨ q.2 + 1 = p.2)) ∨
  (p.2 = q.2 ∧ (p.1 + 1 = q.1 ∨ q.1 + 1 = p.1))

instance cheb1Dec (p q : Nat × Nat) : Decidable (cheb1 p q) := by
  unfold cheb1
  infer_instance

/-- Modelled from the spec: the qualitative spatial relation between two
regions (Region.h itself is not among the staged sources). -/
inductive Relationship where
  | disjoint
  | intersects
  | contains
  | within
  deriving DecidableEq

/-- Modelled from the spec: invert maps DISJOINT to DISJOINT, INTERSECTS to
INTERSECTS, CONTAINS to WITHIN and WITHIN to CONTAINS. -/
def invert : Relationship → Relationship
  | .disjoint => .disjoint
  | .intersects => .intersects
  | .contains => .within
  | .within => .contains

/-- Modelled from the spec: a unit vector's three coordinates, kept as their
8-byte IEEE-754 bit patterns (decode reproduces them verbatim, so only the
bit patterns matter here). -/
structure UnitVector3d where
  x : Nat
  y : Nat
  z : Nat
  deriving DecidableEq

/-- Modelled from the spec: a convex polygon is carried by its vertex
sequence. -/
structure ConvexPolygon where
  vertices : List UnitVector3d
  deriving DecidableEq

/-- ConvexPolygon::TYPE_CODE = 'p' (ASCII 112), from the header. -/
def TYPE_CODE : Nat := 112

/-- Little-endian serialization of a w-byte unsigned field. -/
def bytesLE : Nat → Nat → List Nat
  | 0, _ => []
  | w + 1, v => v % 256 :: bytesLE w (v / 256)

/-- Modelled from the spec: a vertex is three consecutive 8-byte fields. -/
def encodeVertex (v : UnitVector3d) : List Nat :=
  bytesLE 8 v.x ++ (bytesLE 8 v.y ++ bytesLE 8 v.z)

/-- Modelled from the spec: vertices are serialized back to back. -/
def encodeVertices : List UnitVector3d → List Nat
  | [] => []
  | v :: t => encodeVertex v ++ encodeVertices t

/-- Modelled from the spec: encode emits
[type_code:1][vertex_count:4][(x:8,y:8,z:8) per vertex]. -/
def ConvexPolygon.encode (p : ConvexPolygon) : List Nat :=
  TYPE_CODE :: (bytesLE 4 p.vertices.length ++ encodeVertices p.vertices)

/-- Modelled from the spec: the ways decode fails (truncated buffer,
type-code mismatch, vertex-count/length mismatch). -/
inductive DecodeError where
  | truncated
  | typeCodeMismatch
  | countMismatch
  deriving DecidableEq

/-- Modelled from the spec: read n vertices of 24 bytes each, verbatim. -/
def parseVertices : Nat → List Nat → List UnitVector3d
  | 0, _ => []
  | n + 1, bs =>
    ⟨ofBytes (bs.take 8), ofBytes ((bs.drop 8).take 8),
      ofBytes ((bs.drop 16).take 8)⟩ :: parseVertices n (bs.drop 24)

/-- Modelled from the spec: decode validates the length, the leading type
code and the count/length consistency, then rebuilds the vertex sequence;
a failure returns a DecodeError and no polygon. -/
def ConvexPolygon.decode (bs : List Nat) : Except DecodeError ConvexPolygon :=
  if bs.length < 5 then .error .truncated
  else if bs.getD 0 0 ≠ TYPE_CODE then .error .typeCodeMismatch
  else
    let n := ofBytes ((bs.drop 1).take 4)
    if bs.length = 5 + 24 * n then .ok ⟨parseVertices n (bs.drop 5)⟩
    else .error .countMismatch

/-- Modelled from the spec: a Region exposed through the one capability the
generic relate overload uses, relating itself to a given polygon. -/
structure Region where
  relateToPolygon : ConvexPolygon → Relationship

/-- ConvexPolygon::relate(Region const &) from the header: ask the other
region and invert the answer. -/
def ConvexPolygon.relate (p : ConvexPolygon) (r : Region) : Relationship :=
  invert (r.relateToPolygon p)

theorem split_lor {L b d : Nat} (hb : b < 2 ^ L) (hd : d < 2 ^ L) (a c : Nat) :
    (b + 2 ^ L * a) ||| (d + 2 ^ L * c) = (b ||| d) + 2 ^ L * (a ||| c) := by
  apply Nat.eq_of_testBit_eq
  intro j
  rw [Nat.add_comm b, Nat.add_comm d, Nat.add_comm (b ||| d), Nat.testBit_lor,
    Nat.testBit_mul_pow_two_add _ hb, Nat.testBit_mul_pow_two_add _ hd,
    Nat.testBit_mul_pow_two_add _ (Nat.or_lt_two_pow hb hd)]
  by_cases hj : j < L <;> simp [hj, Nat.testBit_lor]

theorem split_land {L b d : Nat} (hb : b < 2 ^ L) (hd : d < 2 ^ L) (a c : Nat) :
    (b + 2 ^ L * a) &&& (d + 2 ^ L * c) = (b &&& d) + 2 ^ L * (a &&& c) := by
  apply Nat.eq_of_testBit_eq
  intro j
  rw [Nat.add_comm b, Nat.add_comm d, Nat.add_comm (b &&& d), Nat.testBit_land,
    Nat.testBit_mul_pow_two_add _ hb, Nat.testBit_mul_pow_two_add _ hd,
    Nat.testBit_mul_pow_two_add _ (Nat.and_lt_two_pow _ hd)]
  by_cases hj : j < L <;> simp [hj, Nat.testBit_land]

theorem csum_lt {s n : Nat} {c : Nat → Nat} (h : ∀ i, i < n → c i < 2 ^ s) :
    csum s c n < 2 ^ (s * n) := by
  induction n with
  | zero => simp [csum]
  | succ n ih =>
    have h1 : csum s c n < 2 ^ (s * n) := ih fun i hi => h i (Nat.lt_succ_of_lt hi)
    have h2 : c n + 1 ≤ 2 ^ s := h n (Nat.lt_succ_self n)
    have h3 : csum s c n + c n * 2 ^ (s * n) + 1 ≤ 2 ^ (s * n) + c n * 2 ^ (s * n) := by
      omega
    have h4 : 2 ^ (s * n) + c n * 2 ^ (s * n) = (c n + 1) * 2 ^ (s * n) := by ring
    have h5 : (c n + 1) * 2 ^ (s * n) ≤ 2 ^ s * 2 ^ (s * n) :=
      Nat.mul_le_mul_right _ h2
    have h6 : 2 ^ s * 2 ^ (s * n) = 2 ^ (s * (n + 1)) := by
      rw [← pow_add]; ring_nf
    simp only [csum]
    omega

theorem csum_congr {s n : Nat} {c d : Nat → Nat} (h : ∀ i, i < n → c i = d i) :
    csum s c n = csum s d n := by
  induction n with
  | zero => rfl
  | succ n ih =>
    simp only [csum, ih fun i hi => h i (Nat.lt_succ_of_lt hi), h n (Nat.lt_succ_self n)]

theorem csum_lor {s n : Nat} {c d : Nat → Nat} (hc : ∀ i, i < n → c i < 2 ^ s)
    (hd : ∀ i, i < n → d i < 2 ^ s) :
    csum s c n ||| csum s d n = csum s (fun i => c i ||| d i) n := by
  induction n with
  | zero => simp [csum]
  | succ n ih =>
    have hc' : ∀ i, i < n → c i < 2 ^ s := fun i hi => hc i (Nat.lt_succ_of_lt hi)
    have hd' : ∀ i, i < n → d i < 2 ^ s := fun i hi => hd i (Nat.lt_succ_of_lt hi)
    simp only [csum, Nat.mul_comm _ (2 ^ (s * n))]
    rw [split_lor (csum_lt hc') (csum_lt hd'), ih hc' hd']

theorem csum_land {s n : Nat} {c d : Nat → Nat} (hc : ∀ i, i < n → c i < 2 ^ s)
    (hd : ∀ i, i < n → d i < 2 ^ s) :
    csum s c n &&& csum s d n = csum s (fun i => c i &&& d i) n := by
  induction n with
  | zero => simp [csum]
  | succ n ih =>
    have hc' : ∀ i, i < n → c i < 2 ^ s := fun i hi => hc i (Nat.lt_succ_of_lt hi)
    have hd' : ∀ i, i < n → d i < 2 ^ s := fun i hi => hd i (Nat.lt_succ_of_lt hi)
    simp only [csum, Nat.mul_comm _ (2 ^ (s * n))]
    rw [split_land (csum_lt hc') (csum_lt hd'), ih hc' hd']

theorem csum_shiftLeft (s n g : Nat) (c : Nat → Nat) :
    csum s c n <<< g = csum s (fun i => c i <<< g) n := by
  induction n with
  | zero => simp [csum]
  | succ n ih =>
    simp only [csum, Nat.shiftLeft_eq] at *
    rw [Nat.add_mul, ih]; ring

theorem csum_mul (s n g : Nat) (c : Nat → Nat) :
    2 ^ g * csum s c n = csum s (fun i => 2 ^ g * c i) n := by
  induction n with
  | zero => rfl
  | succ n ih => simp only [csum, Nat.mul_add, ih]; ring

theorem csum_pair (s n : Nat) (c : Nat → Nat) :
    csum s c (2 * n) = csum (2 * s) (fun j => c (2 * j) + 2 ^ s * c (2 * j + 1)) n := by
  induction n with
  | zero => rfl
  | succ n ih =>
    have h2 : 2 * (n + 1) = 2 * n + 1 + 1 := by ring
    rw [h2]
    simp only [csum, ih]
    have e1 : s * (2 * n + 1) = s + 2 * s * n := by ring
    have e2 : s * (2 * n) = 2 * s * n := by ring
    rw [e1, e2, pow_add]
    ring

theorem csum_digit {s n k : Nat} {c : Nat → Nat} (h : ∀ i, i < n → c i < 2 ^ s)
    (hk : k < n) : csum s c n / 2 ^ (s * k) % 2 ^ s = c k := by
  induction n with
  | zero => omega
  | succ n ih =>
    rcases Nat.lt_or_ge k n with hkn | hkn
    · have h' : ∀ i, i < n → c i < 2 ^ s := fun i hi => h i (Nat.lt_succ_of_lt hi)
      have hsplit : s * (n - k) + s * k = s * n := by
        rw [← Nat.mul_add, Nat.sub_add_cancel (Nat.le_of_lt hkn)]
      have hpow : 2 ^ (s * n) = 2 ^ (s * (n - k)) * 2 ^ (s * k) := by
        rw [← pow_add, hsplit]
      simp only [csum, hpow, ← Nat.mul_assoc]
      rw [Nat.add_mul_div_right _ _ (Nat.two_pow_pos (s * k))]
      have hdvd : 2 ^ s ∣ c n * 2 ^ (s * (n - k)) := by
        apply Dvd.dvd.mul_left
        apply pow_dvd_pow
        have : 1 ≤ n - k := by omega
        calc s = s * 1 := by ring
          _ ≤ s * (n - k) := Nat.mul_le_mul_left s this
      obtain ⟨t, ht⟩ := hdvd
      rw [ht, Nat.add_mul_mod_self_left]
      exact ih h' hkn
    · have hk' : k = n := by omega
      subst hk'
      simp only [csum]
      rw [Nat.add_mul_div_right _ _ (Nat.two_pow_pos (s * k)),
        Nat.div_eq_of_lt (csum_lt fun i hi => h i (Nat.lt_succ_of_lt hi)),
        Nat.zero_add, Nat.mod_eq_of_lt (h k (Nat.lt_succ_self k))]

theorem csum_recon (s n x : Nat) :
    csum s (fun i => x / 2 ^ (s * i) % 2 ^ s) n = x % 2 ^ (s * n) := by
  induction n with
  | zero => simp [csum, Nat.mod_one]
  | succ n ih =>
    simp only [csum, ih]
    have h1 : 2 ^ (s * (n + 1)) = 2 ^ (s * n) * 2 ^ s := by
      rw [← pow_add]; ring_nf
    rw [h1, Nat.mod_mul]
    ring

theorem csum_dropHigh {s n m : Nat} {c : Nat → Nat}
    (h : ∀ i, m ≤ i → i < n → c i = 0) (hmn : m ≤ n) :
    csum s c n = csum s c m := by
  induction n with
  | zero =>
    have : m = 0 := by omega
    subst this
    rfl
  | succ n ih =>
    rcases Nat.lt_or_ge m (n + 1) with hlt | hge
    · have hmn' : m ≤ n := by omega
      simp only [csum, h n hmn' (Nat.lt_succ_self n),
        ih (fun i h1 h2 => h i h1 (Nat.lt_succ_of_lt h2)) hmn']
      ring
    · have : m = n + 1 := by omega
      subst this
      rfl

theorem csum_mod {s n k : Nat} {c : Nat → Nat} (h : ∀ i, i < n → c i < 2 ^ s)
    (hk : k ≤ n) : csum s c n % 2 ^ (s * k) = csum s c k := by
  induction n with
  | zero =>
    have : k = 0 := by omega
    subst this; rfl
  | succ n ih =>
    rcases Nat.lt_or_ge k (n + 1) with hlt | hge
    · have hk' : k ≤ n := by omega
      have hdvd : 2 ^ (s * k) ∣ c n * 2 ^ (s * n) := by
        apply Dvd.dvd.mul_left
        exact pow_dvd_pow 2 (Nat.mul_le_mul_left s hk')
      obtain ⟨t, ht⟩ := hdvd
      simp only [csum, ht, Nat.add_mul_mod_self_left]
      exact ih (fun i hi => h i (Nat.lt_succ_of_lt hi)) hk'
    · have : k = n + 1 := by omega
      subst this
      exact Nat.mod_eq_of_lt (csum_lt h)

theorem lor_shiftRight (a b g : Nat) : (a >>> g) ||| (b >>> g) = (a ||| b) >>> g := by
  apply Nat.eq_of_testBit_eq
  intro j
  simp [Nat.testBit_lor, Nat.testBit_shiftRight]

theorem shiftLeft_shiftRight_self (x g : Nat) : (x <<< g) >>> g = x := by
  rw [Nat.shiftLeft_eq, Nat.shiftRight_eq_div_pow,
    Nat.mul_div_cancel x (Nat.two_pow_pos g)]

theorem land_shiftRight (x m g : Nat) : (x >>> g) &&& m = (x &&& m <<< g) >>> g := by
  apply Nat.eq_of_testBit_eq
  intro j
  simp [Nat.testBit_land, Nat.testBit_shiftRight, Nat.testBit_shiftLeft,
    Nat.le_add_right, Nat.add_sub_cancel_left]

theorem lor_shiftRight_self (a g : Nat) : a ||| (a >>> g) = ((a <<< g) ||| a) >>> g := by
  rw [← lor_shiftRight, shiftLeft_shiftRight_self]

theorem spread_chunk (g : Nat) {c : Nat} (hc : c < 2 ^ (2 * g)) :
    (c ||| c <<< g) &&& (2 ^ g - 1 + 2 ^ (2 * g) * (2 ^ g - 1)) =
      c % 2 ^ g + 2 ^ (2 * g) * (c / 2 ^ g) := by
  have hgle : (2:Nat) ^ g ≤ 2 ^ (2 * g) := Nat.pow_le_pow_right (by norm_num) (by omega)
  have hg1 : (2:Nat) ^ g - 1 < 2 ^ (2 * g) := by
    have := Nat.two_pow_pos g
    omega
  have hcm : c % 2 ^ g < 2 ^ (2 * g) := lt_of_lt_of_le (Nat.mod_lt c (Nat.two_pow_pos g)) hgle
  have hdiv : ∀ k, Nat.testBit (c / 2 ^ g) k = Nat.testBit c (g + k) := fun k => by
    rw [← Nat.shiftRight_eq_div_pow, Nat.testBit_shiftRight]
  apply Nat.eq_of_testBit_eq
  intro j
  rw [Nat.add_comm (2 ^ g - 1), Nat.add_comm (c % 2 ^ g), Nat.testBit_land, Nat.testBit_lor,
    Nat.testBit_shiftLeft, Nat.testBit_mul_pow_two_add _ hg1, Nat.testBit_mul_pow_two_add _ hcm]
  by_cases h1 : j < g
  · simp [h1, show j < 2 * g by omega, Nat.testBit_mod_two_pow,
      Nat.testBit_two_pow_sub_one, show ¬ (j ≥ g) by omega]
  · by_cases h2 : j < 2 * g
    · simp [h1, h2, Nat.testBit_mod_two_pow, Nat.testBit_two_pow_sub_one]
    · by_cases h3 : j < 3 * g
      · have hcj : Nat.testBit c j = false :=
          Nat.testBit_lt_two_pow
            (lt_of_lt_of_le hc (Nat.pow_le_pow_right (by norm_num) (by omega)))
        simp [h2, h3, hcj, hdiv, Nat.testBit_two_pow_sub_one,
          show g + (j - 2 * g) = j - g by omega, show j ≥ g by omega,
          show j - 2 * g < g by omega]
      · have hcj : Nat.testBit c (g + (j - 2 * g)) = false :=
          Nat.testBit_lt_two_pow
            (lt_of_lt_of_le hc (Nat.pow_le_pow_right (by norm_num) (by omega)))
        simp [h2, hdiv, hcj, Nat.testBit_two_pow_sub_one, show ¬ (j - 2 * g < g) by omega]

theorem compress_chunk (g : Nat) {d e : Nat} (hd : d < 2 ^ g) (he : e < 2 ^ g) :
    ((d + 2 ^ (2 * g) * e) <<< g ||| (d + 2 ^ (2 * g) * e)) &&& ((2 ^ (2 * g) - 1) <<< g) =
      2 ^ g * (d + 2 ^ g * e) := by
  have hgle : (2:Nat) ^ g ≤ 2 ^ (2 * g) := Nat.pow_le_pow_right (by norm_num) (by omega)
  have hdd : d < 2 ^ (2 * g) := lt_of_lt_of_le hd hgle
  have hv : ∀ k, Nat.testBit (d + 2 ^ (2 * g) * e) k =
      if k < 2 * g then Nat.testBit d k else Nat.testBit e (k - 2 * g) := fun k => by
    rw [Nat.add_comm d, Nat.testBit_mul_pow_two_add _ hdd]
  have hw : ∀ k, Nat.testBit (d + 2 ^ g * e) k =
      if k < g then Nat.testBit d k else Nat.testBit e (k - g) := fun k => by
    rw [Nat.add_comm d, Nat.testBit_mul_pow_two_add _ hd]
  apply Nat.eq_of_testBit_eq
  intro j
  rw [Nat.testBit_land, Nat.testBit_lor, Nat.testBit_shiftLeft, Nat.testBit_shiftLeft,
    Nat.testBit_mul_pow_two]
  by_cases h1 : j < g
  · simp [show ¬ (j ≥ g) by omega]
  · have hge : j ≥ g := by omega
    rw [hv j, hv (j - g), hw (j - g), Nat.testBit_two_pow_sub_one]
    by_cases h2 : j < 2 * g
    · have hdj : Nat.testBit d j = false :=
        Nat.testBit_lt_two_pow
          (lt_of_lt_of_le hd (Nat.pow_le_pow_right (by norm_num) (by omega)))
      simp [hge, h2, show j - g < 2 * g by omega, show j - g < g by omega, hdj]
    · by_cases h3 : j < 3 * g
      · have hdjg : Nat.testBit d (j - g) = false :=
          Nat.testBit_lt_two_pow
            (lt_of_lt_of_le hd (Nat.pow_le_pow_right (by norm_num) (by omega)))
        simp [hge, h2, h3, show j - g < 2 * g by omega, show ¬ (j - g < g) by omega,
          hdjg, show j - g - g = j - 2 * g by omega]
      · have hejg : Nat.testBit e (j - g - g) = false :=
          Nat.testBit_lt_two_pow
            (lt_of_lt_of_le he (Nat.pow_le_pow_right (by norm_num) (by omega)))
        simp [show ¬ (j - g < 2 * g) by omega, show ¬ (j - g < g) by omega, hejg]

theorem spread_stage (g n : Nat) {c : Nat → Nat} (hc : ∀ i, i < n → c i < 2 ^ (2 * g)) :
    (csum (4 * g) c n ||| csum (4 * g) c n <<< g) &&&
      csum (2 * g) (fun _ => 2 ^ g - 1) (2 * n) =
      csum (4 * g) (fun i => c i % 2 ^ g + 2 ^ (2 * g) * (c i / 2 ^ g)) n := by
  have h24 : (2:Nat) ^ (2 * g) ≤ 2 ^ (4 * g) := Nat.pow_le_pow_right (by norm_num) (by omega)
  have hc4 : ∀ i, i < n → c i < 2 ^ (4 * g) := fun i hi => lt_of_lt_of_le (hc i hi) h24
  have hcs : ∀ i, i < n → c i <<< g < 2 ^ (4 * g) := by
    intro i hi
    rw [Nat.shiftLeft_eq]
    calc c i * 2 ^ g < 2 ^ (2 * g) * 2 ^ g :=
          Nat.mul_lt_mul_of_lt_of_le (hc i hi) (Nat.le_refl _) (Nat.two_pow_pos g)
      _ = 2 ^ (2 * g + g) := by rw [pow_add]
      _ ≤ 2 ^ (4 * g) := Nat.pow_le_pow_right (by norm_num) (by omega)
  have hmask : (2:Nat) ^ g - 1 + 2 ^ (2 * g) * (2 ^ g - 1) < 2 ^ (4 * g) := by
    have h1 : (2:Nat) ^ g ≤ 2 ^ (2 * g) := Nat.pow_le_pow_right (by norm_num) (by omega)
    have h5 := Nat.two_pow_pos g
    have hP : (2:Nat) ^ g - 1 + 1 = 2 ^ g := by omega
    have hK : (2:Nat) ^ (2 * g) * (2 ^ g - 1) + 2 ^ (2 * g) = 2 ^ (2 * g + g) := by
      calc (2:Nat) ^ (2 * g) * (2 ^ g - 1) + 2 ^ (2 * g)
          = 2 ^ (2 * g) * (2 ^ g - 1 + 1) := by ring
        _ = 2 ^ (2 * g) * 2 ^ g := by rw [hP]
        _ = 2 ^ (2 * g + g) := (pow_add 2 (2 * g) g).symm
    have h4 : (2:Nat) ^ (2 * g + g) ≤ 2 ^ (4 * g) := Nat.pow_le_pow_right (by norm_num) (by omega)
    omega
  rw [csum_shiftLeft, csum_lor hc4 hcs,
    csum_pair (2 * g) n (fun _ => 2 ^ g - 1),
    show 2 * (2 * g) = 4 * g from by ring,
    csum_land (fun i hi => Nat.or_lt_two_pow (hc4 i hi) (hcs i hi)) (fun i _ => hmask)]
  exact csum_congr fun i hi => spread_chunk g (hc i hi)

theorem spread_step (g n a : Nat) :
    (csum (4 * g) (fun i => a / 2 ^ (2 * g * i) % 2 ^ (2 * g)) n |||
      csum (4 * g) (fun i => a / 2 ^ (2 * g * i) % 2 ^ (2 * g)) n <<< g) &&&
      csum (2 * g) (fun _ => 2 ^ g - 1) (2 * n) =
      csum (2 * g) (fun i => a / 2 ^ (g * i) % 2 ^ g) (2 * n) := by
  rw [spread_stage g n (fun i _ => Nat.mod_lt _ (Nat.two_pow_pos (2 * g))),
    csum_pair (2 * g) n (fun i => a / 2 ^ (g * i) % 2 ^ g),
    show 2 * (2 * g) = 4 * g from by ring]
  apply csum_congr
  intro i _
  have hdvd : (2:Nat) ^ g ∣ 2 ^ (2 * g) := pow_dvd_pow 2 (by omega)
  have e1 : a / 2 ^ (2 * g * i) % 2 ^ (2 * g) % 2 ^ g = a / 2 ^ (g * (2 * i)) % 2 ^ g := by
    rw [Nat.mod_mod_of_dvd _ hdvd, show g * (2 * i) = 2 * g * i from by ring]
  have e2 : a / 2 ^ (2 * g * i) % 2 ^ (2 * g) / 2 ^ g = a / 2 ^ (g * (2 * i + 1)) % 2 ^ g := by
    rw [show (2:Nat) ^ (2 * g) = 2 ^ g * 2 ^ g from by rw [← pow_add]; ring_nf,
      Nat.mod_mul_right_div_self, Nat.div_div_eq_div_mul, ← pow_add,
      show 2 * g * i + g = g * (2 * i + 1) from by ring]
  rw [e1, e2]

theorem mortonSpread_eq (a : Nat) (ha : a < 2 ^ 32) :
    mortonSpread a = csum 2 (fun i => a / 2 ^ i % 2) 32 := by
  have e0 : a = csum 64 (fun i => a / 2 ^ (32 * i) % 2 ^ 32) 1 := by
    simp [csum]
    omega
  have h16 := spread_step 16 1 a
  have h8 := spread_step 8 2 a
  have h4 := spread_step 4 4 a
  have h2 := spread_step 2 8 a
  have h1 := spread_step 1 16 a
  simp only [show (4:Nat) * 16 = 64 from rfl, show (2:Nat) * 16 = 32 from rfl,
    show (2:Nat) * 1 = 2 from rfl] at h16
  simp only [show (4:Nat) * 8 = 32 from rfl, show (2:Nat) * 8 = 16 from rfl,
    show (2:Nat) * 2 = 4 from rfl] at h8
  simp only [show (4:Nat) * 4 = 16 from rfl, show (2:Nat) * 4 = 8 from rfl] at h4
  simp only [show (4:Nat) * 2 = 8 from rfl, show (2:Nat) * 2 = 4 from rfl,
    show (2:Nat) * 8 = 16 from rfl] at h2
  simp only [show (4:Nat) * 1 = 4 from rfl, show (2:Nat) * 1 = 2 from rfl,
    show (2:Nat) * 16 = 32 from rfl] at h1
  have st16 : (a ||| a <<< 16) &&& 0x0000ffff0000ffff =
      csum 32 (fun i => a / 2 ^ (16 * i) % 2 ^ 16) 2 := by
    conv_lhs => rw [e0]
    rw [show (0x0000ffff0000ffff:Nat) = csum 32 (fun _ => 2 ^ 16 - 1) 2 from by decide]
    exact h16
  have st8 : (csum 32 (fun i => a / 2 ^ (16 * i) % 2 ^ 16) 2 |||
      csum 32 (fun i => a / 2 ^ (16 * i) % 2 ^ 16) 2 <<< 8) &&& 0x00ff00ff00ff00ff =
      csum 16 (fun i => a / 2 ^ (8 * i) % 2 ^ 8) 4 := by
    rw [show (0x00ff00ff00ff00ff:Nat) = csum 16 (fun _ => 2 ^ 8 - 1) 4 from by decide]
    exact h8
  have st4 : (csum 16 (fun i => a / 2 ^ (8 * i) % 2 ^ 8) 4 |||
      csum 16 (fun i => a / 2 ^ (8 * i) % 2 ^ 8) 4 <<< 4) &&& 0x0f0f0f0f0f0f0f0f =
      csum 8 (fun i => a / 2 ^ (4 * i) % 2 ^ 4) 8 := by
    rw [show (0x0f0f0f0f0f0f0f0f:Nat) = csum 8 (fun _ => 2 ^ 4 - 1) 8 from by decide]
    exact h4
  have st2 : (csum 8 (fun i => a / 2 ^ (4 * i) % 2 ^ 4) 8 |||
      csum 8 (fun i => a / 2 ^ (4 * i) % 2 ^ 4) 8 <<< 2) &&& 0x3333333333333333 =
      csum 4 (fun i => a / 2 ^ (2 * i) % 2 ^ 2) 16 := by
    rw [show (0x3333333333333333:Nat) = csum 4 (fun _ => 2 ^ 2 - 1) 16 from by decide]
    exact h2
  have st1 : (csum 4 (fun i => a / 2 ^ (2 * i) % 2 ^ 2) 16 |||
      csum 4 (fun i => a / 2 ^ (2 * i) % 2 ^ 2) 16 <<< 1) &&& 0x5555555555555555 =
      csum 2 (fun i => a / 2 ^ (1 * i) % 2 ^ 1) 32 := by
    rw [show (0x5555555555555555:Nat) = csum 2 (fun _ => 2 ^ 1 - 1) 32 from by decide]
    exact h1
  simp only [mortonSpread]
  rw [st16, st8, st4, st2, st1]
  simp only [one_mul, pow_one]

theorem compress_stage (g n : Nat) {d : Nat → Nat} (hd : ∀ i, i < 2 * n → d i < 2 ^ g) :
    (csum (2 * g) d (2 * n) ||| csum (2 * g) d (2 * n) >>> g) &&&
      csum (4 * g) (fun _ => 2 ^ (2 * g) - 1) n =
      csum (4 * g) (fun j => d (2 * j) + 2 ^ g * d (2 * j + 1)) n := by
  have h34 : (2:Nat) ^ (2 * g + g) ≤ 2 ^ (4 * g) := Nat.pow_le_pow_right (by norm_num) (by omega)
  have hE : ∀ j, j < n → d (2 * j) + 2 ^ (2 * g) * d (2 * j + 1) < 2 ^ (4 * g) := by
    intro j hj
    have h1 : d (2 * j) < 2 ^ g := hd _ (by omega)
    have h2 : d (2 * j + 1) + 1 ≤ 2 ^ g := hd _ (by omega)
    have h3 : 2 ^ (2 * g) * (d (2 * j + 1) + 1) ≤ 2 ^ (2 * g) * 2 ^ g :=
      Nat.mul_le_mul_left _ h2
    have h4 : (2:Nat) ^ (2 * g) * 2 ^ g = 2 ^ (2 * g + g) := (pow_add 2 (2 * g) g).symm
    have h5 : (2:Nat) ^ g ≤ 2 ^ (2 * g + g) := Nat.pow_le_pow_right (by norm_num) (by omega)
    have h6 : 2 ^ (2 * g) * (d (2 * j + 1) + 1) =
        2 ^ (2 * g) * d (2 * j + 1) + 2 ^ (2 * g) := by ring
    have h7 := Nat.two_pow_pos (2 * g)
    have h8 : (2:Nat) ^ g ≤ 2 ^ (2 * g) := Nat.pow_le_pow_right (by norm_num) (by omega)
    omega
  have hEs : ∀ j, j < n →
      (d (2 * j) + 2 ^ (2 * g) * d (2 * j + 1)) <<< g < 2 ^ (4 * g) := by
    intro j hj
    rw [Nat.shiftLeft_eq]
    have h1 : d (2 * j) < 2 ^ g := hd _ (by omega)
    have h2 : d (2 * j + 1) + 1 ≤ 2 ^ g := hd _ (by omega)
    have hE3 : d (2 * j) + 2 ^ (2 * g) * d (2 * j + 1) < 2 ^ (2 * g + g) := by
      have h3 : 2 ^ (2 * g) * (d (2 * j + 1) + 1) ≤ 2 ^ (2 * g) * 2 ^ g :=
        Nat.mul_le_mul_left _ h2
      have h4 : (2:Nat) ^ (2 * g) * 2 ^ g = 2 ^ (2 * g + g) := (pow_add 2 (2 * g) g).symm
      have h5 : (2:Nat) ^ g ≤ 2 ^ (2 * g) := Nat.pow_le_pow_right (by norm_num) (by omega)
      have h6 : 2 ^ (2 * g) * (d (2 * j + 1) + 1) =
          2 ^ (2 * g) * d (2 * j + 1) + 2 ^ (2 * g) := by ring
      have h7 := Nat.two_pow_pos (2 * g)
      have h8 : (2:Nat) ^ (2 * g) ≤ 2 ^ (2 * g + g) := Nat.pow_le_pow_right (by norm_num) (by omega)
      omega
    calc (d (2 * j) + 2 ^ (2 * g) * d (2 * j + 1)) * 2 ^ g
        < 2 ^ (2 * g + g) * 2 ^ g :=
          Nat.mul_lt_mul_of_lt_of_le hE3 (Nat.le_refl _) (Nat.two_pow_pos g)
      _ = 2 ^ (2 * g + g + g) := (pow_add 2 (2 * g + g) g).symm
      _ ≤ 2 ^ (4 * g) := Nat.pow_le_pow_right (by norm_num) (by omega)
  have hmask : ((2:Nat) ^ (2 * g) - 1) <<< g < 2 ^ (4 * g) := by
    rw [Nat.shiftLeft_eq]
    have h1 := Nat.two_pow_pos (2 * g)
    calc ((2:Nat) ^ (2 * g) - 1) * 2 ^ g < 2 ^ (2 * g) * 2 ^ g :=
          Nat.mul_lt_mul_of_lt_of_le (by omega) (Nat.le_refl _) (Nat.two_pow_pos g)
      _ = 2 ^ (2 * g + g) := (pow_add 2 (2 * g) g).symm
      _ ≤ 2 ^ (4 * g) := h34
  rw [lor_shiftRight_self, land_shiftRight,
    csum_pair (2 * g) n d, show 2 * (2 * g) = 4 * g from by ring,
    csum_shiftLeft, csum_shiftLeft,
    csum_lor hEs hE, csum_land (fun j hj => Nat.or_lt_two_pow (hEs j hj) (hE j hj))
      (fun j _ => hmask)]
  have hcongr : csum (4 * g)
      (fun j => ((d (2 * j) + 2 ^ (2 * g) * d (2 * j + 1)) <<< g |||
        (d (2 * j) + 2 ^ (2 * g) * d (2 * j + 1))) &&& (2 ^ (2 * g) - 1) <<< g) n =
      csum (4 * g) (fun j => 2 ^ g * (d (2 * j) + 2 ^ g * d (2 * j + 1))) n :=
    csum_congr fun j hj => compress_chunk g (hd _ (by omega)) (hd _ (by omega))
  rw [hcongr, ← csum_mul, Nat.shiftRight_eq_div_pow,
    Nat.mul_div_cancel_left _ (Nat.two_pow_pos g)]

theorem compress_step (g n u : Nat) :
    (csum (2 * g) (fun i => u / 2 ^ (g * i) % 2 ^ g) (2 * n) |||
      csum (2 * g) (fun i => u / 2 ^ (g * i) % 2 ^ g) (2 * n) >>> g) &&&
      csum (4 * g) (fun _ => 2 ^ (2 * g) - 1) n =
      csum (4 * g) (fun i => u / 2 ^ (2 * g * i) % 2 ^ (2 * g)) n := by
  rw [compress_stage g n (fun i _ => Nat.mod_lt _ (Nat.two_pow_pos g))]
  apply csum_congr
  intro j _
  have e1 : (2:Nat) ^ (2 * g) = 2 ^ g * 2 ^ g := by rw [← pow_add]; ring_nf
  have e2 : u / 2 ^ (2 * g * j) / 2 ^ g = u / 2 ^ (g * (2 * j + 1)) := by
    rw [Nat.div_div_eq_div_mul, ← pow_add, show 2 * g * j + g = g * (2 * j + 1) from by ring]
  rw [e1, Nat.mod_mul, ← e2, show g * (2 * j) = 2 * g * j from by ring]

theorem morton_final_step (c : Nat → Nat) (hc : ∀ i, i < 2 → c i < 2 ^ 16) :
    (csum 32 c 2 ||| csum 32 c 2 >>> 16) % 2 ^ 32 = c 0 + 2 ^ 16 * c 1 := by
  have h0 : c 0 < 2 ^ 16 := hc 0 (by omega)
  have h1 : c 1 < 2 ^ 16 := hc 1 (by omega)
  have hX : csum 32 c 2 = c 0 + 2 ^ 16 * (2 ^ 16 * c 1) := by
    simp [csum]
    ring
  have hshift : csum 32 c 2 >>> 16 = 0 + 2 ^ 16 * c 1 := by
    rw [Nat.shiftRight_eq_div_pow, hX,
      show (2:Nat) ^ 16 * (2 ^ 16 * c 1) = 2 ^ 16 * c 1 * 2 ^ 16 from by ring,
      Nat.add_mul_div_right _ _ (Nat.two_pow_pos 16), Nat.div_eq_of_lt h0]
  rw [hshift, hX, split_lor h0 (Nat.two_pow_pos 16) (2 ^ 16 * c 1) (c 1)]
  have hor1 : c 0 ||| 0 = c 0 := Nat.or_zero _
  have hor2 : 2 ^ 16 * c 1 ||| c 1 = 2 ^ 16 * c 1 + c 1 := (Nat.mul_add_lt_is_or h1 _).symm
  rw [hor1, hor2]
  have hlt : c 0 + 2 ^ 16 * c 1 < 2 ^ 32 := by
    have : 2 ^ 16 * (c 1 + 1) ≤ 2 ^ 16 * 2 ^ 16 := Nat.mul_le_mul_left _ (by omega)
    have e : (2:Nat) ^ 16 * 2 ^ 16 = 2 ^ 32 := by norm_num
    have e2 : 2 ^ 16 * (c 1 + 1) = 2 ^ 16 * c 1 + 2 ^ 16 := by ring
    omega
  calc (c 0 + 2 ^ 16 * (2 ^ 16 * c 1 + c 1)) % 2 ^ 32
      = (c 0 + 2 ^ 16 * c 1 + 2 ^ 32 * c 1) % 2 ^ 32 := by
        congr 1
        have : (2:Nat) ^ 16 * 2 ^ 16 = 2 ^ 32 := by norm_num
        calc c 0 + 2 ^ 16 * (2 ^ 16 * c 1 + c 1)
            = c 0 + 2 ^ 16 * c 1 + 2 ^ 16 * 2 ^ 16 * c 1 := by ring
          _ = c 0 + 2 ^ 16 * c 1 + 2 ^ 32 * c 1 := by rw [this]
    _ = (c 0 + 2 ^ 16 * c 1) % 2 ^ 32 := by
        rw [Nat.mul_comm (2 ^ 32) (c 1), Nat.add_mul_mod_self_right]
    _ = c 0 + 2 ^ 16 * c 1 := Nat.mod_eq_of_lt hlt

theorem bit_or_pair {b1 b2 : Nat} (h1 : b1 < 2) (h2 : b2 < 2) :
    b1 ||| b2 <<< 1 = b1 + 2 * b2 := by
  interval_cases b1 <;> interval_cases b2 <;> decide

theorem mortonIndex_eq (x y : Nat) (hx : x < 2 ^ 32) (hy : y < 2 ^ 32) :
    mortonIndex x y = csum 2 (fun i => x / 2 ^ i % 2 + 2 * (y / 2 ^ i % 2)) 32 := by
  have hb : ∀ (a : Nat) i, a / 2 ^ i % 2 < 2 ^ 2 := fun a i => by
    have := Nat.mod_lt (a / 2 ^ i) (show 0 < 2 from by norm_num)
    omega
  have hbs : ∀ i, i < 32 → (y / 2 ^ i % 2) <<< 1 < 2 ^ 2 := fun i _ => by
    rw [Nat.shiftLeft_eq]
    have := Nat.mod_lt (y / 2 ^ i) (show 0 < 2 from by norm_num)
    omega
  rw [mortonIndex, mortonSpread_eq x hx, mortonSpread_eq y hy, csum_shiftLeft,
    csum_lor (fun i _ => hb x i) hbs]
  exact csum_congr fun i _ => bit_or_pair
    (Nat.mod_lt _ (by norm_num)) (Nat.mod_lt _ (by norm_num))

theorem mortonUnspread_eq (u : Nat) (hu : u < 2 ^ 32) :
    mortonUnspread (csum 2 (fun i => u / 2 ^ i % 2) 32) = u := by
  have h1 := compress_step 1 16 u
  have h2 := compress_step 2 8 u
  have h4 := compress_step 4 4 u
  have h8 := compress_step 8 2 u
  simp only [show (2:Nat) * 1 = 2 from rfl, show (4:Nat) * 1 = 4 from rfl,
    show (2:Nat) * 16 = 32 from rfl, one_mul, pow_one] at h1
  simp only [show (2:Nat) * 2 = 4 from rfl, show (4:Nat) * 2 = 8 from rfl,
    show (2:Nat) * 8 = 16 from rfl] at h2
  simp only [show (2:Nat) * 4 = 8 from rfl, show (4:Nat) * 4 = 16 from rfl,
    show (2:Nat) * 2 = 4 from rfl] at h4
  simp only [show (2:Nat) * 8 = 16 from rfl, show (4:Nat) * 8 = 32 from rfl,
    show (2:Nat) * 2 = 4 from rfl] at h8
  simp only [mortonUnspread]
  rw [show (0x3333333333333333:Nat) = csum 4 (fun _ => 2 ^ 2 - 1) 16 from by decide, h1,
    show (0x0f0f0f0f0f0f0f0f:Nat) = csum 8 (fun _ => 2 ^ 4 - 1) 8 from by decide, h2,
    show (0x00ff00ff00ff00ff:Nat) = csum 16 (fun _ => 2 ^ 8 - 1) 4 from by decide, h4,
    show (0x0000ffff0000ffff:Nat) = csum 32 (fun _ => 2 ^ 16 - 1) 2 from by decide, h8,
    morton_final_step _ (fun i _ => Nat.mod_lt _ (Nat.two_pow_pos 16))]
  have e : (2:Nat) ^ 32 = 2 ^ 16 * 2 ^ 16 := by norm_num
  rw [show (2:Nat) ^ (16 * 0) = 1 from rfl, show (16:Nat) * 1 = 16 from rfl,
    Nat.div_one, ← Nat.mod_mul, ← e, Nat.mod_eq_of_lt hu]

theorem extract_even (z : Nat) (hz : z < 2 ^ 64) :
    z &&& 0x5555555555555555 = csum 2 (fun i => z / 2 ^ (2 * i) % 2) 32 := by
  have hrec : z = csum 2 (fun i => z / 2 ^ (2 * i) % 2 ^ 2) 32 := by
    rw [csum_recon]
    exact (Nat.mod_eq_of_lt hz).symm
  conv_lhs => rw [hrec, show (0x5555555555555555:Nat) = csum 2 (fun _ => 1) 32 from by decide]
  rw [csum_land (fun i _ => Nat.mod_lt _ (by norm_num)) (fun i _ => by norm_num)]
  exact csum_congr fun i _ => by
    rw [Nat.and_one_is_mod, Nat.mod_mod_of_dvd _ (by norm_num : (2:Nat) ∣ 2 ^ 2)]

theorem extract_odd (z : Nat) (hz : z < 2 ^ 64) :
    (z >>> 1) &&& 0x5555555555555555 = csum 2 (fun i => z / 2 ^ (2 * i) / 2 % 2) 32 := by
  have hz2 : z / 2 < 2 ^ 64 := lt_of_le_of_lt (Nat.div_le_self z 2) hz
  rw [Nat.shiftRight_eq_div_pow, pow_one, extract_even (z / 2) hz2]
  exact csum_congr fun i _ => by
    rw [Nat.div_div_eq_div_mul, Nat.div_div_eq_div_mul, Nat.mul_comm]

theorem mortonIndexInverse_eq (z : Nat) (hz : z < 2 ^ 64) :
    mortonIndexInverse z =
      (csum 1 (fun i => z / 2 ^ (2 * i) % 2) 32,
       csum 1 (fun i => z / 2 ^ (2 * i) / 2 % 2) 32) := by
  have hcomp : ∀ b : Nat → Nat, (∀ i, i < 32 → b i < 2) →
      mortonUnspread (csum 2 b 32) = csum 1 b 32 := by
    intro b hb
    have hu : csum 1 b 32 < 2 ^ 32 := csum_lt fun i hi => by
      have := hb i hi
      omega
    have hdig : ∀ i, i < 32 → csum 1 b 32 / 2 ^ i % 2 = b i := fun i hi => by
      have h := csum_digit (s := 1) (c := b) (fun k hk => by have := hb k hk; omega) hi
      simpa using h
    have : csum 2 b 32 = csum 2 (fun i => csum 1 b 32 / 2 ^ i % 2) 32 :=
      csum_congr fun i hi => (hdig i hi).symm
    rw [this, mortonUnspread_eq _ hu]
  rw [mortonIndexInverse, extract_even z hz, extract_odd z hz]
  have hb1 : ∀ i, i < 32 → z / 2 ^ (2 * i) % 2 < 2 := fun i _ => Nat.mod_lt _ (by norm_num)
  have hb2 : ∀ i, i < 32 → z / 2 ^ (2 * i) / 2 % 2 < 2 := fun i _ => Nat.mod_lt _ (by norm_num)
  rw [hcomp _ hb1, hcomp _ hb2]

theorem morton_roundtrip (x y : Nat) (hx : x < 2 ^ 32) (hy : y < 2 ^ 32) :
    mortonIndexInverse (mortonIndex x y) = (x, y) := by
  have hc : ∀ i, i < 32 → x / 2 ^ i % 2 + 2 * (y / 2 ^ i % 2) < 2 ^ 2 := fun i _ => by
    have h1 : x / 2 ^ i % 2 < 2 := Nat.mod_lt _ (by norm_num)
    have h2 : y / 2 ^ i % 2 < 2 := Nat.mod_lt _ (by norm_num)
    omega
  have hz : mortonIndex x y < 2 ^ 64 := by
    rw [mortonIndex_eq x y hx hy]
    exact csum_lt hc
  have hdig : ∀ i, i < 32 →
      mortonIndex x y / 2 ^ (2 * i) % 4 = x / 2 ^ i % 2 + 2 * (y / 2 ^ i % 2) := fun i hi => by
    rw [mortonIndex_eq x y hx hy]
    exact csum_digit (s := 2) hc hi
  rw [mortonIndexInverse_eq _ hz]
  have e1 : ∀ i, i < 32 → mortonIndex x y / 2 ^ (2 * i) % 2 = x / 2 ^ i % 2 := fun i hi => by
    have h := hdig i hi
    have h1 : x / 2 ^ i % 2 < 2 := Nat.mod_lt _ (by norm_num)
    have h2 : y / 2 ^ i % 2 < 2 := Nat.mod_lt _ (by norm_num)
    have : mortonIndex x y / 2 ^ (2 * i) % 2 = mortonIndex x y / 2 ^ (2 * i) % 4 % 2 :=
      (Nat.mod_mod_of_dvd _ (by norm_num)).symm
    rw [this, h]
    omega
  have e2 : ∀ i, i < 32 →
      mortonIndex x y / 2 ^ (2 * i) / 2 % 2 = y / 2 ^ i % 2 := fun i hi => by
    have h := hdig i hi
    have h1 : x / 2 ^ i % 2 < 2 := Nat.mod_lt _ (by norm_num)
    have h2 : y / 2 ^ i % 2 < 2 := Nat.mod_lt _ (by norm_num)
    have hm : mortonIndex x y / 2 ^ (2 * i) / 2 % 2 =
        mortonIndex x y / 2 ^ (2 * i) % 4 / 2 := by
      rw [show (4:Nat) = 2 * 2 from rfl, Nat.mod_mul_right_div_self]
    rw [hm, h]
    omega
  have r1 : csum 1 (fun i => mortonIndex x y / 2 ^ (2 * i) % 2) 32 = x := by
    rw [csum_congr e1]
    have := csum_recon 1 32 x
    simp only [one_mul, pow_one] at this
    rw [this, Nat.mod_eq_of_lt hx]
  have r2 : csum 1 (fun i => mortonIndex x y / 2 ^ (2 * i) / 2 % 2) 32 = y := by
    rw [csum_congr e2]
    have := csum_recon 1 32 y
    simp only [one_mul, pow_one] at this
    rw [this, Nat.mod_eq_of_lt hy]
  rw [r1, r2]

theorem morton_of_inverse (z : Nat) (hz : z < 2 ^ 64) :
    mortonIndex (mortonIndexInverse z).1 (mortonIndexInverse z).2 = z := by
  rw [mortonIndexInverse_eq z hz]
  have hb1 : ∀ i, i < 32 → z / 2 ^ (2 * i) % 2 < 2 := fun i _ => Nat.mod_lt _ (by norm_num)
  have hb2 : ∀ i, i < 32 → z / 2 ^ (2 * i) / 2 % 2 < 2 := fun i _ => Nat.mod_lt _ (by norm_num)
  have hu : csum 1 (fun i => z / 2 ^ (2 * i) % 2) 32 < 2 ^ 32 := csum_lt fun i hi => by
    have := hb1 i hi; omega
  have hv : csum 1 (fun i => z / 2 ^ (2 * i) / 2 % 2) 32 < 2 ^ 32 := csum_lt fun i hi => by
    have := hb2 i hi; omega
  rw [mortonIndex_eq _ _ hu hv]
  have d1 : ∀ i, i < 32 →
      csum 1 (fun k => z / 2 ^ (2 * k) % 2) 32 / 2 ^ i % 2 = z / 2 ^ (2 * i) % 2 := fun i hi => by
    have h := csum_digit (s := 1) (c := fun k => z / 2 ^ (2 * k) % 2)
      (fun k hk => by simpa using hb1 k hk) hi
    simpa using h
  have d2 : ∀ i, i < 32 →
      csum 1 (fun k => z / 2 ^ (2 * k) / 2 % 2) 32 / 2 ^ i % 2 =
        z / 2 ^ (2 * i) / 2 % 2 := fun i hi => by
    have h := csum_digit (s := 1) (c := fun k => z / 2 ^ (2 * k) / 2 % 2)
      (fun k hk => by simpa using hb2 k hk) hi
    simpa using h
  have hfin : csum 2 (fun i => csum 1 (fun k => z / 2 ^ (2 * k) % 2) 32 / 2 ^ i % 2 +
      2 * (csum 1 (fun k => z / 2 ^ (2 * k) / 2 % 2) 32 / 2 ^ i % 2)) 32 =
      csum 2 (fun i => z / 2 ^ (2 * i) % 2 ^ 2) 32 := by
    apply csum_congr
    intro i hi
    rw [d1 i hi, d2 i hi]
    omega
  rw [hfin, csum_recon, Nat.mod_eq_of_lt hz]

theorem morton_lt_pow {x y m : Nat} (hm : m ≤ 32) (hx : x < 2 ^ m) (hy : y < 2 ^ m) :
    mortonIndex x y < 2 ^ (2 * m) := by
  have hx32 : x < 2 ^ 32 := lt_of_lt_of_le hx (Nat.pow_le_pow_right (by norm_num) hm)
  have hy32 : y < 2 ^ 32 := lt_of_lt_of_le hy (Nat.pow_le_pow_right (by norm_num) hm)
  rw [mortonIndex_eq x y hx32 hy32]
  have hzero : ∀ i, m ≤ i → i < 32 →
      x / 2 ^ i % 2 + 2 * (y / 2 ^ i % 2) = 0 := by
    intro i hmi _
    have hpm : (2:Nat) ^ m ≤ 2 ^ i := Nat.pow_le_pow_right (by norm_num) hmi
    rw [Nat.div_eq_of_lt (lt_of_lt_of_le hx hpm), Nat.div_eq_of_lt (lt_of_lt_of_le hy hpm)]
  rw [csum_dropHigh hzero hm]
  exact csum_lt fun i _ => by
    have h1 : x / 2 ^ i % 2 < 2 := Nat.mod_lt _ (by norm_num)
    have h2 : y / 2 ^ i % 2 < 2 := Nat.mod_lt _ (by norm_num)
    omega

theorem morton_digit_mod {x m i : Nat} (hx : x < 2 ^ 32) (hi : i < m) :
    x % 2 ^ m / 2 ^ i % 2 = x / 2 ^ i % 2 := by
  have e : (2:Nat) ^ m = 2 ^ i * 2 ^ (m - i) := by
    rw [← pow_add, Nat.add_sub_cancel' (Nat.le_of_lt hi)]
  rw [e, Nat.mod_mul_right_div_self,
    Nat.mod_mod_of_dvd _ (dvd_pow_self 2 (by omega : m - i ≠ 0))]

theorem morton_mod {x y m : Nat} (hm : m ≤ 32) (hx : x < 2 ^ 32) (hy : y < 2 ^ 32) :
    mortonIndex x y % 2 ^ (2 * m) = mortonIndex (x % 2 ^ m) (y % 2 ^ m) := by
  have hxm : x % 2 ^ m < 2 ^ 32 :=
    lt_of_lt_of_le (Nat.mod_lt x (Nat.two_pow_pos m)) (Nat.pow_le_pow_right (by norm_num) hm)
  have hym : y % 2 ^ m < 2 ^ 32 :=
    lt_of_lt_of_le (Nat.mod_lt y (Nat.two_pow_pos m)) (Nat.pow_le_pow_right (by norm_num) hm)
  have hc : ∀ i, i < 32 → x / 2 ^ i % 2 + 2 * (y / 2 ^ i % 2) < 2 ^ 2 := fun i _ => by
    have h1 : x / 2 ^ i % 2 < 2 := Nat.mod_lt _ (by norm_num)
    have h2 : y / 2 ^ i % 2 < 2 := Nat.mod_lt _ (by norm_num)
    omega
  rw [mortonIndex_eq x y hx hy, mortonIndex_eq _ _ hxm hym, csum_mod hc hm]
  have hzero : ∀ i, m ≤ i → i < 32 →
      x % 2 ^ m / 2 ^ i % 2 + 2 * (y % 2 ^ m / 2 ^ i % 2) = 0 := by
    intro i hmi _
    have hpm : (2:Nat) ^ m ≤ 2 ^ i := Nat.pow_le_pow_right (by norm_num) hmi
    rw [Nat.div_eq_of_lt (lt_of_lt_of_le (Nat.mod_lt x (Nat.two_pow_pos m)) hpm),
      Nat.div_eq_of_lt (lt_of_lt_of_le (Nat.mod_lt y (Nat.two_pow_pos m)) hpm)]
  rw [csum_dropHigh hzero hm]
  exact csum_congr fun i hi => by
    rw [morton_digit_mod hx hi, morton_digit_mod hy hi]

theorem mortonInverse_comp_lt {z m : Nat} (hm : m ≤ 32) (hz : z < 2 ^ (2 * m)) :
    (mortonIndexInverse z).1 < 2 ^ m ∧ (mortonIndexInverse z).2 < 2 ^ m := by
  have hz64 : z < 2 ^ 64 :=
    lt_of_lt_of_le hz (Nat.pow_le_pow_right (by norm_num) (by omega))
  rw [mortonIndexInverse_eq z hz64]
  have hzero1 : ∀ i, m ≤ i → i < 32 → z / 2 ^ (2 * i) % 2 = 0 := by
    intro i hmi _
    rw [Nat.div_eq_of_lt
      (lt_of_lt_of_le hz (Nat.pow_le_pow_right (by norm_num) (by omega)))]
  have hzero2 : ∀ i, m ≤ i → i < 32 → z / 2 ^ (2 * i) / 2 % 2 = 0 := by
    intro i hmi _
    rw [Nat.div_eq_of_lt
      (lt_of_lt_of_le hz (Nat.pow_le_pow_right (by norm_num) (by omega)))]
  constructor
  · simp only [csum_dropHigh hzero1 hm]
    have h := csum_lt (s := 1) (n := m) (c := fun i => z / 2 ^ (2 * i) % 2)
      (fun i _ => by simpa using Nat.mod_lt (z / 2 ^ (2 * i)) (by norm_num : (0:Nat) < 2))
    simpa using h
  · simp only [csum_dropHigh hzero2 hm]
    have h := csum_lt (s := 1) (n := m) (c := fun i => z / 2 ^ (2 * i) / 2 % 2)
      (fun i _ => by simpa using Nat.mod_lt (z / 2 ^ (2 * i) / 2) (by norm_num : (0:Nat) < 2))
    simpa using h

theorem and_mask_block (x a g : Nat) :
    x &&& (2 ^ g - 1) <<< a = x / 2 ^ a % 2 ^ g * 2 ^ a := by
  apply Nat.eq_of_testBit_eq
  intro j
  rw [Nat.testBit_land, Nat.testBit_shiftLeft, Nat.testBit_two_pow_sub_one,
    Nat.mul_comm, Nat.testBit_mul_pow_two]
  by_cases h1 : j < a
  · simp [show ¬ (j ≥ a) from by omega]
  · have hge : j ≥ a := by omega
    rw [Nat.testBit_mod_two_pow]
    by_cases h2 : j - a < g
    · simp only [hge, h2, decide_True, Bool.true_and, Bool.and_true]
      rw [← Nat.shiftRight_eq_div_pow, Nat.testBit_shiftRight,
        Nat.add_sub_cancel' hge]
    · simp [h2]

theorem and12_eq (x : Nat) : x &&& 12 = x / 4 % 4 * 4 := by
  have h := and_mask_block x 2 2
  norm_num at h
  exact h

theorem and12_state (x : Nat) : isState2 (x &&& 12) := by
  rw [and12_eq]
  have : x / 4 % 4 < 4 := Nat.mod_lt _ (by norm_num)
  unfold isState2
  omega

theorem and192_eq (x : Nat) : x &&& 192 = x / 64 % 4 * 64 := by
  have h := and_mask_block x 6 2
  norm_num at h
  exact h

theorem and192_state (x : Nat) : isState6 (x &&& 192) := by
  rw [and192_eq]
  have : x / 64 % 4 < 4 := Nat.mod_lt _ (by norm_num)
  unfold isState6
  omega

theorem and_63_lt (x : Nat) : x &&& 63 < 64 :=
  Nat.and_lt_two_pow x (by norm_num : (63:Nat) < 2 ^ 6)

theorem and_3_lt (x : Nat) : x &&& 3 < 4 :=
  Nat.and_lt_two_pow x (by norm_num : (3:Nat) < 2 ^ 2)

theorem lut1step_mask (i b : Nat) : lut1step i b = lut1step (i &&& 12) b := by
  simp [lut1step, Nat.and_assoc]

theorem inv1step_mask (i b : Nat) : inv1step i b = inv1step (i &&& 12) b := by
  simp [inv1step, Nat.and_assoc]

theorem or_shift_acc {p n : Nat} (hp : p < 2 ^ n) (h : Nat) :
    h <<< n ||| p = h * 2 ^ n + p := by
  rw [Nat.shiftLeft_eq, Nat.mul_comm h, ← Nat.mul_add_lt_is_or hp]

theorem mtHgo_acc (z : Nat) : ∀ n, 2 ∣ n → ∀ i h,
    mtHgo z n i h = h * 2 ^ n + mtHgo z n i 0 := by
  intro n
  induction n using Nat.strong_induction_on with
  | _ n ih =>
    intro hdvd i h
    rcases Nat.lt_or_ge n 6 with h6 | h6
    · interval_cases n
      · simp [mtHgo]
      · omega
      · have hp : (HILBERT_LUT_3.getD (i ||| z <<< 4 &&& 63) 0 &&& 63) >>> 4 < 2 ^ 2 := by
          have h1 := and_63_lt (HILBERT_LUT_3.getD (i ||| z <<< 4 &&& 63) 0)
          rw [Nat.shiftRight_eq_div_pow]
          omega
        have e : mtHgo z 2 i h =
            h <<< 2 ||| (HILBERT_LUT_3.getD (i ||| z <<< 4 &&& 63) 0 &&& 63) >>> 4 := rfl
        have e0 : mtHgo z 2 i 0 =
            (0:Nat) <<< 2 ||| (HILBERT_LUT_3.getD (i ||| z <<< 4 &&& 63) 0 &&& 63) >>> 4 := rfl
        rw [e, e0, or_shift_acc hp, or_shift_acc hp]
        ring
      · omega
      · have hp : (HILBERT_LUT_3.getD (i ||| z <<< 2 &&& 63) 0 &&& 63) >>> 2 < 2 ^ 4 := by
          have h1 := and_63_lt (HILBERT_LUT_3.getD (i ||| z <<< 2 &&& 63) 0)
          rw [Nat.shiftRight_eq_div_pow]
          omega
        have e : mtHgo z 4 i h =
            h <<< 4 ||| (HILBERT_LUT_3.getD (i ||| z <<< 2 &&& 63) 0 &&& 63) >>> 2 := rfl
        have e0 : mtHgo z 4 i 0 =
            (0:Nat) <<< 4 ||| (HILBERT_LUT_3.getD (i ||| z <<< 2 &&& 63) 0 &&& 63) >>> 2 := rfl
        rw [e, e0, or_shift_acc hp, or_shift_acc hp]
        ring
      · omega
    · obtain ⟨k, rfl⟩ : ∃ k, n = k + 6 := ⟨n - 6, by omega⟩
      have hk : 2 ∣ k := by omega
      have hkl : k < k + 6 := by omega
      simp only [mtHgo]
      set j := HILBERT_LUT_3.getD (i ||| z >>> k &&& 63) 0 with hj
      have h63 : j &&& 63 < 2 ^ 6 := by
        have := and_63_lt j
        omega
      rw [ih k hkl hk (j &&& 192) ((h <<< 6) ||| (j &&& 63)),
        ih k hkl hk (j &&& 192) ((0 <<< 6) ||| (j &&& 63)),
        or_shift_acc h63, or_shift_acc h63, pow_add]
      ring

theorem shiftl_and63 {r : Nat} (z : Nat) (hr : r ≤ 6) :
    (z <<< r) &&& 63 = z % 2 ^ (6 - r) * 2 ^ r := by
  rw [Nat.shiftLeft_eq, show (63:Nat) = 2 ^ 6 - 1 from rfl,
    Nat.and_pow_two_sub_one_eq_mod, show (2:Nat) ^ 6 = 2 ^ (6 - r) * 2 ^ r from by
      rw [← pow_add, Nat.sub_add_cancel hr],
    Nat.mul_mod_mul_right]

theorem shiftr_and63 (z k : Nat) : (z >>> k) &&& 63 = z / 2 ^ k % 64 := by
  rw [Nat.shiftRight_eq_div_pow, show (63:Nat) = 2 ^ 6 - 1 from rfl,
    Nat.and_pow_two_sub_one_eq_mod]

theorem div_mod_of_mod_eq {z z' k g : Nat} (h : z % 2 ^ (k + g) = z' % 2 ^ (k + g)) :
    z / 2 ^ k % 2 ^ g = z' / 2 ^ k % 2 ^ g := by
  have e : ∀ w : Nat, w / 2 ^ k % 2 ^ g = w % 2 ^ (k + g) / 2 ^ k := fun w => by
    rw [pow_add, Nat.mod_mul_right_div_self]
  rw [e z, e z', h]

theorem mtHgo_lt (z : Nat) : ∀ n, 2 ∣ n → ∀ i, mtHgo z n i 0 < 2 ^ n := by
  intro n
  induction n using Nat.strong_induction_on with
  | _ n ih =>
    intro hdvd i
    rcases Nat.lt_or_ge n 6 with h6 | h6
    · interval_cases n
      · simp [mtHgo]
      · omega
      · have hp : (HILBERT_LUT_3.getD (i ||| z <<< 4 &&& 63) 0 &&& 63) >>> 4 < 2 ^ 2 := by
          have h1 := and_63_lt (HILBERT_LUT_3.getD (i ||| z <<< 4 &&& 63) 0)
          rw [Nat.shiftRight_eq_div_pow]
          omega
        have e0 : mtHgo z 2 i 0 =
            (0:Nat) <<< 2 ||| (HILBERT_LUT_3.getD (i ||| z <<< 4 &&& 63) 0 &&& 63) >>> 4 := rfl
        rw [e0]
        simpa using hp
      · omega
      · have hp : (HILBERT_LUT_3.getD (i ||| z <<< 2 &&& 63) 0 &&& 63) >>> 2 < 2 ^ 4 := by
          have h1 := and_63_lt (HILBERT_LUT_3.getD (i ||| z <<< 2 &&& 63) 0)
          rw [Nat.shiftRight_eq_div_pow]
          omega
        have e0 : mtHgo z 4 i 0 =
            (0:Nat) <<< 4 ||| (HILBERT_LUT_3.getD (i ||| z <<< 2 &&& 63) 0 &&& 63) >>> 2 := rfl
        rw [e0]
        simpa using hp
      · omega
    · obtain ⟨k, rfl⟩ : ∃ k, n = k + 6 := ⟨n - 6, by omega⟩
      have hk : 2 ∣ k := by omega
      simp only [mtHgo]
      set j := HILBERT_LUT_3.getD (i ||| z >>> k &&& 63) 0 with hj
      have h63 : j &&& 63 < 2 ^ 6 := by
        have := and_63_lt j
        omega
      rw [mtHgo_acc z k hk, or_shift_acc h63]
      have hC := ih k (by omega) hk (j &&& 192)
      have hpow : (2:Nat) ^ (k + 6) = 2 ^ k * 64 := by
        rw [pow_add]
        norm_num
      have h64 : j &&& 63 < 64 := and_63_lt j
      have hm : ((j &&& 63) * 2 ^ k + 2 ^ k : Nat) ≤ 64 * 2 ^ k := by
        calc (j &&& 63) * 2 ^ k + 2 ^ k = ((j &&& 63) + 1) * 2 ^ k := by ring
          _ ≤ 64 * 2 ^ k := Nat.mul_le_mul_right _ (by omega)
      simp only [Nat.zero_mul, Nat.zero_add]
      omega

theorem mtHgo_low (z z' : Nat) : ∀ n, 2 ∣ n → ∀ i, z % 2 ^ n = z' % 2 ^ n →
    mtHgo z n i 0 = mtHgo z' n i 0 := by
  intro n
  induction n using Nat.strong_induction_on with
  | _ n ih =>
    intro hdvd i hzz
    rcases Nat.lt_or_ge n 6 with h6 | h6
    · interval_cases n
      · have e0 : ∀ w : Nat, mtHgo w 0 i 0 = 0 := fun w => rfl
        rw [e0 z, e0 z']
      · omega
      · have e : ∀ w : Nat, mtHgo w 2 i 0 =
            (0:Nat) <<< 2 ||| (HILBERT_LUT_3.getD (i ||| w <<< 4 &&& 63) 0 &&& 63) >>> 4 :=
          fun w => rfl
        have harg : z <<< 4 &&& 63 = z' <<< 4 &&& 63 := by
          rw [shiftl_and63 z (by omega), shiftl_and63 z' (by omega)]
          omega
        rw [e z, e z', harg]
      · omega
      · have e : ∀ w : Nat, mtHgo w 4 i 0 =
            (0:Nat) <<< 4 ||| (HILBERT_LUT_3.getD (i ||| w <<< 2 &&& 63) 0 &&& 63) >>> 2 :=
          fun w => rfl
        have harg : z <<< 2 &&& 63 = z' <<< 2 &&& 63 := by
          rw [shiftl_and63 z (by omega), shiftl_and63 z' (by omega)]
          omega
        rw [e z, e z', harg]
      · omega
    · obtain ⟨k, rfl⟩ : ∃ k, n = k + 6 := ⟨n - 6, by omega⟩
      have hk : 2 ∣ k := by omega
      simp only [mtHgo]
      rw [shiftr_and63 z k, shiftr_and63 z' k,
        show z / 2 ^ k % 64 = z' / 2 ^ k % 64 from div_mod_of_mod_eq hzz,
        mtHgo_acc z k hk, mtHgo_acc z' k hk]
      congr 1
      apply ih k (by omega) hk
      have hdvd6 : (2:Nat) ^ k ∣ 2 ^ (k + 6) := pow_dvd_pow 2 (by omega)
      calc z % 2 ^ k = z % 2 ^ (k + 6) % 2 ^ k := (Nat.mod_mod_of_dvd z hdvd6).symm
        _ = z' % 2 ^ (k + 6) % 2 ^ k := by rw [hzz]
        _ = z' % 2 ^ k := Nat.mod_mod_of_dvd z' hdvd6

theorem htMgo_acc (z : Nat) : ∀ n, 2 ∣ n → ∀ i h,
    htMgo z n i h = h * 2 ^ n + htMgo z n i 0 := by
  intro n
  induction n using Nat.strong_induction_on with
  | _ n ih =>
    intro hdvd i h
    rcases Nat.lt_or_ge n 6 with h6 | h6
    · interval_cases n
      · simp [htMgo]
      · omega
      · have hp : (HILBERT_INVERSE_LUT_3.getD (i ||| z <<< 4 &&& 63) 0 &&& 63) >>> 4 < 2 ^ 2 := by
          have h1 := and_63_lt (HILBERT_INVERSE_LUT_3.getD (i ||| z <<< 4 &&& 63) 0)
          rw [Nat.shiftRight_eq_div_pow]
          omega
        have e : htMgo z 2 i h =
            h <<< 2 ||| (HILBERT_INVERSE_LUT_3.getD (i ||| z <<< 4 &&& 63) 0 &&& 63) >>> 4 := rfl
        have e0 : htMgo z 2 i 0 =
            (0:Nat) <<< 2 ||| (HILBERT_INVERSE_LUT_3.getD (i ||| z <<< 4 &&& 63) 0 &&& 63) >>> 4 := rfl
        rw [e, e0, or_shift_acc hp, or_shift_acc hp]
        ring
      · omega
      · have hp : (HILBERT_INVERSE_LUT_3.getD (i ||| z <<< 2 &&& 63) 0 &&& 63) >>> 2 < 2 ^ 4 := by
          have h1 := and_63_lt (HILBERT_INVERSE_LUT_3.getD (i ||| z <<< 2 &&& 63) 0)
          rw [Nat.shiftRight_eq_div_pow]
          omega
        have e : htMgo z 4 i h =
            h <<< 4 ||| (HILBERT_INVERSE_LUT_3.getD (i ||| z <<< 2 &&& 63) 0 &&& 63) >>> 2 := rfl
        have e0 : htMgo z 4 i 0 =
            (0:Nat) <<< 4 ||| (HILBERT_INVERSE_LUT_3.getD (i ||| z <<< 2 &&& 63) 0 &&& 63) >>> 2 := rfl
        rw [e, e0, or_shift_acc hp, or_shift_acc hp]
        ring
      · omega
    · obtain ⟨k, rfl⟩ : ∃ k, n = k + 6 := ⟨n - 6, by omega⟩
      have hk : 2 ∣ k := by omega
      have hkl : k < k + 6 := by omega
      simp only [htMgo]
      set j := HILBERT_INVERSE_LUT_3.getD (i ||| z >>> k &&& 63) 0 with hj
      have h63 : j &&& 63 < 2 ^ 6 := by
        have := and_63_lt j
        omega
      rw [ih k hkl hk (j &&& 192) ((h <<< 6) ||| (j &&& 63)),
        ih k hkl hk (j &&& 192) ((0 <<< 6) ||| (j &&& 63)),
        or_shift_acc h63, or_shift_acc h63, pow_add]
      ring

theorem htMgo_lt (z : Nat) : ∀ n, 2 ∣ n → ∀ i, htMgo z n i 0 < 2 ^ n := by
  intro n
  induction n using Nat.strong_induction_on with
  | _ n ih =>
    intro hdvd i
    rcases Nat.lt_or_ge n 6 with h6 | h6
    · interval_cases n
      · simp [htMgo]
      · omega
      · have hp : (HILBERT_INVERSE_LUT_3.getD (i ||| z <<< 4 &&& 63) 0 &&& 63) >>> 4 < 2 ^ 2 := by
          have h1 := and_63_lt (HILBERT_INVERSE_LUT_3.getD (i ||| z <<< 4 &&& 63) 0)
          rw [Nat.shiftRight_eq_div_pow]
          omega
        have e0 : htMgo z 2 i 0 =
            (0:Nat) <<< 2 ||| (HILBERT_INVERSE_LUT_3.getD (i ||| z <<< 4 &&& 63) 0 &&& 63) >>> 4 := rfl
        rw [e0]
        simpa using hp
      · omega
      · have hp : (HILBERT_INVERSE_LUT_3.getD (i ||| z <<< 2 &&& 63) 0 &&& 63) >>> 2 < 2 ^ 4 := by
          have h1 := and_63_lt (HILBERT_INVERSE_LUT_3.getD (i ||| z <<< 2 &&& 63) 0)
          rw [Nat.shiftRight_eq_div_pow]
          omega
        have e0 : htMgo z 4 i 0 =
            (0:Nat) <<< 4 ||| (HILBERT_INVERSE_LUT_3.getD (i ||| z <<< 2 &&& 63) 0 &&& 63) >>> 2 := rfl
        rw [e0]
        simpa using hp
      · omega
    · obtain ⟨k, rfl⟩ : ∃ k, n = k + 6 := ⟨n - 6, by omega⟩
      have hk : 2 ∣ k := by omega
      simp only [htMgo]
      set j := HILBERT_INVERSE_LUT_3.getD (i ||| z >>> k &&& 63) 0 with hj
      have h63 : j &&& 63 < 2 ^ 6 := by
        have := and_63_lt j
        omega
      rw [htMgo_acc z k hk, or_shift_acc h63]
      have hC := ih k (by omega) hk (j &&& 192)
      have hpow : (2:Nat) ^ (k + 6) = 2 ^ k * 64 := by
        rw [pow_add]
        norm_num
      have h64 : j &&& 63 < 64 := and_63_lt j
      have hm : ((j &&& 63) * 2 ^ k + 2 ^ k : Nat) ≤ 64 * 2 ^ k := by
        calc (j &&& 63) * 2 ^ k + 2 ^ k = ((j &&& 63) + 1) * 2 ^ k := by ring
          _ ≤ 64 * 2 ^ k := Nat.mul_le_mul_right _ (by omega)
      simp only [Nat.zero_mul, Nat.zero_add]
      omega

theorem htMgo_low (z z' : Nat) : ∀ n, 2 ∣ n → ∀ i, z % 2 ^ n = z' % 2 ^ n →
    htMgo z n i 0 = htMgo z' n i 0 := by
  intro n
  induction n using Nat.strong_induction_on with
  | _ n ih =>
    intro hdvd i hzz
    rcases Nat.lt_or_ge n 6 with h6 | h6
    · interval_cases n
      · have e0 : ∀ w : Nat, htMgo w 0 i 0 = 0 := fun w => rfl
        rw [e0 z, e0 z']
      · omega
      · have e : ∀ w : Nat, htMgo w 2 i 0 =
            (0:Nat) <<< 2 ||| (HILBERT_INVERSE_LUT_3.getD (i ||| w <<< 4 &&& 63) 0 &&& 63) >>> 4 :=
          fun w => rfl
        have harg : z <<< 4 &&& 63 = z' <<< 4 &&& 63 := by
          rw [shiftl_and63 z (by omega), shiftl_and63 z' (by omega)]
          omega
        rw [e z, e z', harg]
      · omega
      · have e : ∀ w : Nat, htMgo w 4 i 0 =
            (0:Nat) <<< 4 ||| (HILBERT_INVERSE_LUT_3.getD (i ||| w <<< 2 &&& 63) 0 &&& 63) >>> 2 :=
          fun w => rfl
        have harg : z <<< 2 &&& 63 = z' <<< 2 &&& 63 := by
          rw [shiftl_and63 z (by omega), shiftl_and63 z' (by omega)]
          omega
        rw [e z, e z', harg]
      · omega
    · obtain ⟨k, rfl⟩ : ∃ k, n = k + 6 := ⟨n - 6, by omega⟩
      have hk : 2 ∣ k := by omega
      simp only [htMgo]
      rw [shiftr_and63 z k, shiftr_and63 z' k,
        show z / 2 ^ k % 64 = z' / 2 ^ k % 64 from div_mod_of_mod_eq hzz,
        htMgo_acc z k hk, htMgo_acc z' k hk]
      congr 1
      apply ih k (by omega) hk
      have hdvd6 : (2:Nat) ^ k ∣ 2 ^ (k + 6) := pow_dvd_pow 2 (by omega)
      calc z % 2 ^ k = z % 2 ^ (k + 6) % 2 ^ k := (Nat.mod_mod_of_dvd z hdvd6).symm
        _ = z' % 2 ^ (k + 6) % 2 ^ k := by rw [hzz]
        _ = z' % 2 ^ k := Nat.mod_mod_of_dvd z' hdvd6

theorem ofBytes_getD (l : List Nat) (hb : ∀ b ∈ l, b < 256) :
    ∀ k, k < l.length → l.getD k 0 = ofBytes l >>> (8 * k) &&& 255 := by
  induction l with
  | nil =>
    intro k hk
    simp at hk
  | cons b t ih =>
    intro k hk
    have hb0 : b < 256 := hb b (by simp)
    cases k with
    | zero =>
      rw [List.getD_cons_zero, Nat.mul_zero, Nat.shiftRight_zero,
        show (255:Nat) = 2 ^ 8 - 1 from rfl, Nat.and_pow_two_sub_one_eq_mod]
      simp only [ofBytes]
      have h28 : (256:Nat) = 2 ^ 8 := rfl
      rw [h28] at hb0
      rw [h28, Nat.add_mul_mod_self_left, Nat.mod_eq_of_lt hb0]
    | succ k =>
      rw [List.getD_cons_succ,
        show 8 * (k + 1) = 8 + 8 * k from by ring, Nat.shiftRight_add]
      simp only [ofBytes]
      rw [show (b + 256 * ofBytes t) >>> 8 = ofBytes t from by
        rw [Nat.shiftRight_eq_div_pow, show (2:Nat) ^ 8 = 256 from rfl,
          Nat.mul_comm 256, Nat.add_mul_div_right _ _ (by norm_num : (0:Nat) < 256),
          Nat.div_eq_of_lt hb0, Nat.zero_add]]
      exact ih (fun x hx => hb x (by simp [hx])) k (by simpa using hk)

set_option maxRecDepth 4000 in
theorem lut3_getD {k : Nat} (hk : k < 256) :
    HILBERT_LUT_3.getD k 0 = lut3p k := by
  have hb : ∀ b ∈ HILBERT_LUT_3, b < 256 := by decide
  have hv : ofBytes HILBERT_LUT_3 = HILBERT_LUT_3P := by decide
  have hl : HILBERT_LUT_3.length = 256 := by decide
  rw [ofBytes_getD _ hb k (by rw [hl]; exact hk), hv]
  rfl

set_option maxRecDepth 4000 in
theorem ilut3_getD {k : Nat} (hk : k < 256) :
    HILBERT_INVERSE_LUT_3.getD k 0 = ilut3p k := by
  have hb : ∀ b ∈ HILBERT_INVERSE_LUT_3, b < 256 := by decide
  have hv : ofBytes HILBERT_INVERSE_LUT_3 = HILBERT_INVERSE_LUT_3P := by decide
  have hl : HILBERT_INVERSE_LUT_3.length = 256 := by decide
  rw [ofBytes_getD _ hb k (by rw [hl]; exact hk), hv]
  rfl

set_option maxRecDepth 4000 in
theorem pht64_getD {k : Nat} (hk : k < 64) :
    PERFECT_HASH_TABLE_64.getD k 0 = PERFECT_HASH_TABLE_64P >>> (8 * k) &&& 255 := by
  have hb : ∀ b ∈ PERFECT_HASH_TABLE_64, b < 256 := by decide
  have hv : ofBytes PERFECT_HASH_TABLE_64 = PERFECT_HASH_TABLE_64P := by decide
  have hl : PERFECT_HASH_TABLE_64.length = 64 := by decide
  rw [ofBytes_getD _ hb k (by rw [hl]; exact hk), hv]

set_option maxRecDepth 4000 in
theorem pht32_getD {k : Nat} (hk : k < 32) :
    PERFECT_HASH_TABLE_32.getD k 0 = PERFECT_HASH_TABLE_32P >>> (8 * k) &&& 255 := by
  have hb : ∀ b ∈ PERFECT_HASH_TABLE_32, b < 256 := by decide
  have hv : ofBytes PERFECT_HASH_TABLE_32 = PERFECT_HASH_TABLE_32P := by decide
  have hl : PERFECT_HASH_TABLE_32.length = 32 := by decide
  rw [ofBytes_getD _ hb k (by rw [hl]; exact hk), hv]

theorem lutp_fwdinv : ∀ s, s < 4 → ∀ w, w < 64 →
    ilut3p (64 * s ||| (lut3p (64 * s ||| w) &&& 63)) &&& 63 = w ∧
    ilut3p (64 * s ||| (lut3p (64 * s ||| w) &&& 63)) &&& 192 =
      lut3p (64 * s ||| w) &&& 192 := by decide

theorem lutp_invfwd : ∀ s, s < 4 → ∀ w, w < 64 →
    lut3p (64 * s ||| (ilut3p (64 * s ||| w) &&& 63)) &&& 63 = w ∧
    lut3p (64 * s ||| (ilut3p (64 * s ||| w) &&& 63)) &&& 192 =
      ilut3p (64 * s ||| w) &&& 192 := by decide

theorem lutp_partial2 : ∀ s, s < 4 → ∀ w, w < 4 →
    (ilut3p (64 * s ||| ((lut3p (64 * s ||| w * 16) &&& 63) >>> 4) * 16) &&& 63) >>> 4 = w ∧
    (lut3p (64 * s ||| ((ilut3p (64 * s ||| w * 16) &&& 63) >>> 4) * 16) &&& 63) >>> 4 = w := by
  decide

theorem lutp_partial4 : ∀ s, s < 4 → ∀ w, w < 16 →
    (ilut3p (64 * s ||| ((lut3p (64 * s ||| w * 4) &&& 63) >>> 2) * 4) &&& 63) >>> 2 = w ∧
    (lut3p (64 * s ||| ((ilut3p (64 * s ||| w * 4) &&& 63) >>> 2) * 4) &&& 63) >>> 2 = w := by
  decide

theorem lutp_comp3 : ∀ s, s < 4 → ∀ b2, b2 < 4 → ∀ b1, b1 < 4 → ∀ b0, b0 < 4 →
    lut3p (64 * s ||| (b2 * 16 + b1 * 4 + b0)) &&& 63 =
      (lut1step (4 * s) b2 &&& 3) * 16 + (lut1step (lut1step (4 * s) b2) b1 &&& 3) * 4 +
        (lut1step (lut1step (lut1step (4 * s) b2) b1) b0 &&& 3) ∧
    lut3p (64 * s ||| (b2 * 16 + b1 * 4 + b0)) &&& 192 =
      (lut1step (lut1step (lut1step (4 * s) b2) b1) b0 &&& 12) * 16 := by decide

theorem lutp_icomp3 : ∀ s, s < 4 → ∀ b2, b2 < 4 → ∀ b1, b1 < 4 → ∀ b0, b0 < 4 →
    ilut3p (64 * s ||| (b2 * 16 + b1 * 4 + b0)) &&& 63 =
      (inv1step (4 * s) b2 &&& 3) * 16 + (inv1step (inv1step (4 * s) b2) b1 &&& 3) * 4 +
        (inv1step (inv1step (inv1step (4 * s) b2) b1) b0 &&& 3) ∧
    ilut3p (64 * s ||| (b2 * 16 + b1 * 4 + b0)) &&& 192 =
      (inv1step (inv1step (inv1step (4 * s) b2) b1) b0 &&& 12) * 16 := by decide

theorem lutp_c2 : ∀ s, s < 4 → ∀ w, w < 4 →
    (lut3p (64 * s ||| w * 16) &&& 63) >>> 4 = lut1step (4 * s) w &&& 3 ∧
    (ilut3p (64 * s ||| w * 16) &&& 63) >>> 4 = inv1step (4 * s) w &&& 3 := by decide

theorem lutp_c4 : ∀ s, s < 4 → ∀ b1, b1 < 4 → ∀ b0, b0 < 4 →
    (lut3p (64 * s ||| (b1 * 4 + b0) * 4) &&& 63) >>> 2 =
      (lut1step (4 * s) b1 &&& 3) * 4 + (lut1step (lut1step (4 * s) b1) b0 &&& 3) ∧
    (ilut3p (64 * s ||| (b1 * 4 + b0) * 4) &&& 63) >>> 2 =
      (inv1step (4 * s) b1 &&& 3) * 4 + (inv1step (inv1step (4 * s) b1) b0 &&& 3) := by decide

theorem and63_of_lt {x : Nat} (h : x < 64) : x &&& 63 = x := by
  rw [show (63:Nat) = 2 ^ 6 - 1 from rfl]
  exact Nat.and_pow_two_sub_one_of_lt_two_pow (by omega)

theorem shiftr_and3 (z k : Nat) : (z >>> k) &&& 3 = z / 2 ^ k % 4 := by
  rw [Nat.shiftRight_eq_div_pow, show (3:Nat) = 2 ^ 2 - 1 from rfl,
    Nat.and_pow_two_sub_one_eq_mod]

theorem or64_lt {s w : Nat} (hs : s < 4) (hw : w < 256) : 64 * s ||| w < 256 := by
  have := Nat.or_lt_two_pow (show 64 * s < 2 ^ 8 by omega) (show w < 2 ^ 8 by omega)
  omega

theorem hilbert_rt1 (z : Nat) : ∀ n, 2 ∣ n → ∀ s, s < 4 →
    htMgo (mtHgo z n (64 * s) 0) n (64 * s) 0 = z % 2 ^ n := by
  intro n
  induction n using Nat.strong_induction_on with
  | _ n ih =>
    intro hdvd s hs
    rcases Nat.lt_or_ge n 6 with h6 | h6
    · have hn : n = 0 ∨ n = 2 ∨ n = 4 := by omega
      rcases hn with rfl | rfl | rfl
      · have e1 : ∀ (w i : Nat), mtHgo w 0 i 0 = 0 := fun w i => rfl
        have e2 : ∀ (w i : Nat), htMgo w 0 i 0 = 0 := fun w i => rfl
        rw [e1, e2, Nat.pow_zero, Nat.mod_one]
      · have e1 : ∀ (w i : Nat), mtHgo w 2 i 0 =
            (0:Nat) <<< 2 ||| (HILBERT_LUT_3.getD (i ||| w <<< 4 &&& 63) 0 &&& 63) >>> 4 :=
          fun w i => rfl
        have e2 : ∀ (w i : Nat), htMgo w 2 i 0 =
            (0:Nat) <<< 2 |||
              (HILBERT_INVERSE_LUT_3.getD (i ||| w <<< 4 &&& 63) 0 &&& 63) >>> 4 :=
          fun w i => rfl
        have hz4 : z % 4 < 4 := Nat.mod_lt z (by norm_num)
        have hzw : z <<< 4 &&& 63 = z % 4 * 16 := by
          rw [shiftl_and63 z (by omega)]
          norm_num
        rw [e1, e2]
        simp only [Nat.zero_shiftLeft, Nat.zero_or]
        rw [hzw, lut3_getD (or64_lt hs (by omega))]
        have hclt : (lut3p (64 * s ||| z % 4 * 16) &&& 63) >>> 4 < 4 := by
          have h1 := and_63_lt (lut3p (64 * s ||| z % 4 * 16))
          rw [Nat.shiftRight_eq_div_pow]
          omega
        have hcw : (lut3p (64 * s ||| z % 4 * 16) &&& 63) >>> 4 <<< 4 &&& 63 =
            (lut3p (64 * s ||| z % 4 * 16) &&& 63) >>> 4 * 16 := by
          rw [Nat.shiftLeft_eq, show (2:Nat) ^ 4 = 16 from rfl, and63_of_lt (by omega)]
        rw [hcw, ilut3_getD (or64_lt hs (by omega)),
          (lutp_partial2 s hs (z % 4) hz4).1, show (2:Nat) ^ 2 = 4 from rfl]
      · have e1 : ∀ (w i : Nat), mtHgo w 4 i 0 =
            (0:Nat) <<< 4 ||| (HILBERT_LUT_3.getD (i ||| w <<< 2 &&& 63) 0 &&& 63) >>> 2 :=
          fun w i => rfl
        have e2 : ∀ (w i : Nat), htMgo w 4 i 0 =
            (0:Nat) <<< 4 |||
              (HILBERT_INVERSE_LUT_3.getD (i ||| w <<< 2 &&& 63) 0 &&& 63) >>> 2 :=
          fun w i => rfl
        have hz16 : z % 16 < 16 := Nat.mod_lt z (by norm_num)
        have hzw : z <<< 2 &&& 63 = z % 16 * 4 := by
          rw [shiftl_and63 z (by omega)]
          norm_num
        rw [e1, e2]
        simp only [Nat.zero_shiftLeft, Nat.zero_or]
        rw [hzw, lut3_getD (or64_lt hs (by omega))]
        have hclt : (lut3p (64 * s ||| z % 16 * 4) &&& 63) >>> 2 < 16 := by
          have h1 := and_63_lt (lut3p (64 * s ||| z % 16 * 4))
          rw [Nat.shiftRight_eq_div_pow]
          omega
        have hcw : (lut3p (64 * s ||| z % 16 * 4) &&& 63) >>> 2 <<< 2 &&& 63 =
            (lut3p (64 * s ||| z % 16 * 4) &&& 63) >>> 2 * 4 := by
          rw [Nat.shiftLeft_eq, show (2:Nat) ^ 2 = 4 from rfl, and63_of_lt (by omega)]
        rw [hcw, ilut3_getD (or64_lt hs (by omega)),
          (lutp_partial4 s hs (z % 16) hz16).1, show (2:Nat) ^ 4 = 16 from rfl]
    · obtain ⟨k, rfl⟩ : ∃ k, n = k + 6 := ⟨n - 6, by omega⟩
      have hk : 2 ∣ k := by omega
      have hb : z / 2 ^ k % 64 < 64 := Nat.mod_lt _ (by norm_num)
      simp only [mtHgo]
      rw [shiftr_and63 z k, lut3_getD (or64_lt hs (by omega)), mtHgo_acc z k hk]
      simp only [Nat.zero_shiftLeft, Nat.zero_or]
      have hAlt : lut3p (64 * s ||| z / 2 ^ k % 64) &&& 63 < 64 := and_63_lt _
      have htlt : mtHgo z k (lut3p (64 * s ||| z / 2 ^ k % 64) &&& 192) 0 < 2 ^ k :=
        mtHgo_lt z k hk _
      simp only [htMgo]
      have hXs : ((lut3p (64 * s ||| z / 2 ^ k % 64) &&& 63) * 2 ^ k +
            mtHgo z k (lut3p (64 * s ||| z / 2 ^ k % 64) &&& 192) 0) >>> k &&& 63 =
          lut3p (64 * s ||| z / 2 ^ k % 64) &&& 63 := by
        rw [Nat.shiftRight_eq_div_pow, Nat.add_comm,
          Nat.add_mul_div_right _ _ (pow_pos (by norm_num : (0:Nat) < 2) k),
          Nat.div_eq_of_lt htlt, Nat.zero_add, and63_of_lt (by omega)]
      rw [hXs, ilut3_getD (or64_lt hs (by omega)),
        (lutp_fwdinv s hs _ hb).1, (lutp_fwdinv s hs _ hb).2, htMgo_acc _ k hk]
      simp only [Nat.zero_shiftLeft, Nat.zero_or]
      have hlow : htMgo ((lut3p (64 * s ||| z / 2 ^ k % 64) &&& 63) * 2 ^ k +
            mtHgo z k (lut3p (64 * s ||| z / 2 ^ k % 64) &&& 192) 0) k
            (lut3p (64 * s ||| z / 2 ^ k % 64) &&& 192) 0 =
          htMgo (mtHgo z k (lut3p (64 * s ||| z / 2 ^ k % 64) &&& 192) 0) k
            (lut3p (64 * s ||| z / 2 ^ k % 64) &&& 192) 0 :=
        htMgo_low _ _ k hk _ (by rw [Nat.add_comm, Nat.add_mul_mod_self_right])
      rw [hlow]
      have hs2 : lut3p (64 * s ||| z / 2 ^ k % 64) / 64 % 4 < 4 := Nat.mod_lt _ (by norm_num)
      have h192 : lut3p (64 * s ||| z / 2 ^ k % 64) &&& 192 =
          64 * (lut3p (64 * s ||| z / 2 ^ k % 64) / 64 % 4) := by
        rw [and192_eq]
        ring
      rw [h192, ih k (by omega) hk _ hs2]
      have hsplit : z % 2 ^ (k + 6) = z % 2 ^ k + 2 ^ k * (z / 2 ^ k % 64) := by
        rw [pow_add, show (2:Nat) ^ 6 = 64 from rfl, Nat.mod_mul]
      rw [hsplit]
      ring

theorem hilbert_rt2 (z : Nat) : ∀ n, 2 ∣ n → ∀ s, s < 4 →
    mtHgo (htMgo z n (64 * s) 0) n (64 * s) 0 = z % 2 ^ n := by
  intro n
  induction n using Nat.strong_induction_on with
  | _ n ih =>
    intro hdvd s hs
    rcases Nat.lt_or_ge n 6 with h6 | h6
    · have hn : n = 0 ∨ n = 2 ∨ n = 4 := by omega
      rcases hn with rfl | rfl | rfl
      · have e1 : ∀ (w i : Nat), htMgo w 0 i 0 = 0 := fun w i => rfl
        have e2 : ∀ (w i : Nat), mtHgo w 0 i 0 = 0 := fun w i => rfl
        rw [e1, e2, Nat.pow_zero, Nat.mod_one]
      · have e1 : ∀ (w i : Nat), htMgo w 2 i 0 =
            (0:Nat) <<< 2 ||| (HILBERT_INVERSE_LUT_3.getD (i ||| w <<< 4 &&& 63) 0 &&& 63) >>> 4 :=
          fun w i => rfl
        have e2 : ∀ (w i : Nat), mtHgo w 2 i 0 =
            (0:Nat) <<< 2 |||
              (HILBERT_LUT_3.getD (i ||| w <<< 4 &&& 63) 0 &&& 63) >>> 4 :=
          fun w i => rfl
        have hz4 : z % 4 < 4 := Nat.mod_lt z (by norm_num)
        have hzw : z <<< 4 &&& 63 = z % 4 * 16 := by
          rw [shiftl_and63 z (by omega)]
          norm_num
        rw [e1, e2]
        simp only [Nat.zero_shiftLeft, Nat.zero_or]
        rw [hzw, ilut3_getD (or64_lt hs (by omega))]
        have hclt : (ilut3p (64 * s ||| z % 4 * 16) &&& 63) >>> 4 < 4 := by
          have h1 := and_63_lt (ilut3p (64 * s ||| z % 4 * 16))
          rw [Nat.shiftRight_eq_div_pow]
          omega
        have hcw : (ilut3p (64 * s ||| z % 4 * 16) &&& 63) >>> 4 <<< 4 &&& 63 =
            (ilut3p (64 * s ||| z % 4 * 16) &&& 63) >>> 4 * 16 := by
          rw [Nat.shiftLeft_eq, show (2:Nat) ^ 4 = 16 from rfl, and63_of_lt (by omega)]
        rw [hcw, lut3_getD (or64_lt hs (by omega)),
          (lutp_partial2 s hs (z % 4) hz4).2, show (2:Nat) ^ 2 = 4 from rfl]
      · have e1 : ∀ (w i : Nat), htMgo w 4 i 0 =
            (0:Nat) <<< 4 ||| (HILBERT_INVERSE_LUT_3.getD (i ||| w <<< 2 &&& 63) 0 &&& 63) >>> 2 :=
          fun w i => rfl
        have e2 : ∀ (w i : Nat), mtHgo w 4 i 0 =
            (0:Nat) <<< 4 |||
              (HILBERT_LUT_3.getD (i ||| w <<< 2 &&& 63) 0 &&& 63) >>> 2 :=
          fun w i => rfl
        have hz16 : z % 16 < 16 := Nat.mod_lt z (by norm_num)
        have hzw : z <<< 2 &&& 63 = z % 16 * 4 := by
          rw [shiftl_and63 z (by omega)]
          norm_num
        rw [e1, e2]
        simp only [Nat.zero_shiftLeft, Nat.zero_or]
        rw [hzw, ilut3_getD (or64_lt hs (by omega))]
        have hclt : (ilut3p (64 * s ||| z % 16 * 4) &&& 63) >>> 2 < 16 := by
          have h1 := and_63_lt (ilut3p (64 * s ||| z % 16 * 4))
          rw [Nat.shiftRight_eq_div_pow]
          omega
        have hcw : (ilut3p (64 * s ||| z % 16 * 4) &&& 63) >>> 2 <<< 2 &&& 63 =
            (ilut3p (64 * s ||| z % 16 * 4) &&& 63) >>> 2 * 4 := by
          rw [Nat.shiftLeft_eq, show (2:Nat) ^ 2 = 4 from rfl, and63_of_lt (by omega)]
        rw [hcw, lut3_getD (or64_lt hs (by omega)),
          (lutp_partial4 s hs (z % 16) hz16).2, show (2:Nat) ^ 4 = 16 from rfl]
    · obtain ⟨k, rfl⟩ : ∃ k, n = k + 6 := ⟨n - 6, by omega⟩
      have hk : 2 ∣ k := by omega
      have hb : z / 2 ^ k % 64 < 64 := Nat.mod_lt _ (by norm_num)
      simp only [htMgo]
      rw [shiftr_and63 z k, ilut3_getD (or64_lt hs (by omega)), htMgo_acc z k hk]
      simp only [Nat.zero_shiftLeft, Nat.zero_or]
      have hAlt : ilut3p (64 * s ||| z / 2 ^ k % 64) &&& 63 < 64 := and_63_lt _
      have htlt : htMgo z k (ilut3p (64 * s ||| z / 2 ^ k % 64) &&& 192) 0 < 2 ^ k :=
        htMgo_lt z k hk _
      simp only [mtHgo]
      have hXs : ((ilut3p (64 * s ||| z / 2 ^ k % 64) &&& 63) * 2 ^ k +
            htMgo z k (ilut3p (64 * s ||| z / 2 ^ k % 64) &&& 192) 0) >>> k &&& 63 =
          ilut3p (64 * s ||| z / 2 ^ k % 64) &&& 63 := by
        rw [Nat.shiftRight_eq_div_pow, Nat.add_comm,
          Nat.add_mul_div_right _ _ (pow_pos (by norm_num : (0:Nat) < 2) k),
          Nat.div_eq_of_lt htlt, Nat.zero_add, and63_of_lt (by omega)]
      rw [hXs, lut3_getD (or64_lt hs (by omega)),
        (lutp_invfwd s hs _ hb).1, (lutp_invfwd s hs _ hb).2, mtHgo_acc _ k hk]
      simp only [Nat.zero_shiftLeft, Nat.zero_or]
      have hlow : mtHgo ((ilut3p (64 * s ||| z / 2 ^ k % 64) &&& 63) * 2 ^ k +
            htMgo z k (ilut3p (64 * s ||| z / 2 ^ k % 64) &&& 192) 0) k
            (ilut3p (64 * s ||| z / 2 ^ k % 64) &&& 192) 0 =
          mtHgo (htMgo z k (ilut3p (64 * s ||| z / 2 ^ k % 64) &&& 192) 0) k
            (ilut3p (64 * s ||| z / 2 ^ k % 64) &&& 192) 0 :=
        mtHgo_low _ _ k hk _ (by rw [Nat.add_comm, Nat.add_mul_mod_self_right])
      rw [hlow]
      have hs2 : ilut3p (64 * s ||| z / 2 ^ k % 64) / 64 % 4 < 4 := Nat.mod_lt _ (by norm_num)
      have h192 : ilut3p (64 * s ||| z / 2 ^ k % 64) &&& 192 =
          64 * (ilut3p (64 * s ||| z / 2 ^ k % 64) / 64 % 4) := by
        rw [and192_eq]
        ring
      rw [h192, ih k (by omega) hk _ hs2]
      have hsplit : z % 2 ^ (k + 6) = z % 2 ^ k + 2 ^ k * (z / 2 ^ k % 64) := by
        rw [pow_add, show (2:Nat) ^ 6 = 64 from rfl, Nat.mod_mul]
      rw [hsplit]
      ring

theorem refGo_step (z n i h : Nat) : refGo z (n + 2) i h =
    refGo z n (lut1step i (z >>> n &&& 3))
      (h <<< 2 ||| (lut1step i (z >>> n &&& 3) &&& 3)) := rfl

theorem refGo_zero (z i h : Nat) : refGo z 0 i h = h := rfl

theorem inv2go_step (h n i z : Nat) : inv2go h (n + 2) i z =
    inv2go h n (inv1step i (h >>> n &&& 3))
      (z <<< 2 ||| (inv1step i (h >>> n &&& 3) &&& 3)) := rfl

theorem inv2go_zero (h i z : Nat) : inv2go h 0 i z = z := rfl

theorem refGo_mask (z : Nat) : ∀ n i h, refGo z n i h = refGo z n (i &&& 12) h
  | 0, _, _ => rfl
  | 1, _, _ => rfl
  | n + 2, i, h => by rw [refGo_step, refGo_step, lut1step_mask i]

theorem inv2go_mask (h : Nat) : ∀ n i z, inv2go h n i z = inv2go h n (i &&& 12) z
  | 0, _, _ => rfl
  | 1, _, _ => rfl
  | n + 2, i, z => by rw [inv2go_step, inv2go_step, inv1step_mask i]

theorem refGo_acc (z : Nat) : ∀ n, 2 ∣ n → ∀ i h,
    refGo z n i h = h * 2 ^ n + refGo z n i 0 := by
  intro n
  induction n using Nat.strong_induction_on with
  | _ n ih =>
    intro hdvd i h
    rcases Nat.lt_or_ge n 2 with h2 | h2
    · have hn0 : n = 0 := by omega
      subst hn0
      rw [refGo_zero, refGo_zero, Nat.pow_zero]
      omega
    · obtain ⟨k, rfl⟩ : ∃ k, n = k + 2 := ⟨n - 2, by omega⟩
      have hk : 2 ∣ k := by omega
      have h3 : lut1step i (z >>> k &&& 3) &&& 3 < 2 ^ 2 := and_3_lt _
      rw [refGo_step, refGo_step,
        ih k (by omega) hk (lut1step i (z >>> k &&& 3))
          (h <<< 2 ||| (lut1step i (z >>> k &&& 3) &&& 3)),
        ih k (by omega) hk (lut1step i (z >>> k &&& 3))
          ((0:Nat) <<< 2 ||| (lut1step i (z >>> k &&& 3) &&& 3)),
        or_shift_acc h3, or_shift_acc h3, pow_add]
      ring

theorem inv2go_acc (h : Nat) : ∀ n, 2 ∣ n → ∀ i z,
    inv2go h n i z = z * 2 ^ n + inv2go h n i 0 := by
  intro n
  induction n using Nat.strong_induction_on with
  | _ n ih =>
    intro hdvd i z
    rcases Nat.lt_or_ge n 2 with h2 | h2
    · have hn0 : n = 0 := by omega
      subst hn0
      rw [inv2go_zero, inv2go_zero, Nat.pow_zero]
      omega
    · obtain ⟨k, rfl⟩ : ∃ k, n = k + 2 := ⟨n - 2, by omega⟩
      have hk : 2 ∣ k := by omega
      have h3 : inv1step i (h >>> k &&& 3) &&& 3 < 2 ^ 2 := and_3_lt _
      rw [inv2go_step, inv2go_step,
        ih k (by omega) hk (inv1step i (h >>> k &&& 3))
          (z <<< 2 ||| (inv1step i (h >>> k &&& 3) &&& 3)),
        ih k (by omega) hk (inv1step i (h >>> k &&& 3))
          ((0:Nat) <<< 2 ||| (inv1step i (h >>> k &&& 3) &&& 3)),
        or_shift_acc h3, or_shift_acc h3, pow_add]
      ring

theorem ref_equiv (z : Nat) : ∀ n, 2 ∣ n → ∀ s, s < 4 →
    refGo z n (4 * s) 0 = mtHgo z n (64 * s) 0 := by
  intro n
  induction n using Nat.strong_induction_on with
  | _ n ih =>
    intro hdvd s hs
    rcases Nat.lt_or_ge n 6 with h6 | h6
    · have hn : n = 0 ∨ n = 2 ∨ n = 4 := by omega
      rcases hn with rfl | rfl | rfl
      · have e1 : ∀ (w i : Nat), mtHgo w 0 i 0 = 0 := fun w i => rfl
        rw [refGo_zero, e1]
      · have e1 : ∀ (w i : Nat), mtHgo w 2 i 0 =
            (0:Nat) <<< 2 ||| (HILBERT_LUT_3.getD (i ||| w <<< 4 &&& 63) 0 &&& 63) >>> 4 :=
          fun w i => rfl
        have hz4 : z % 4 < 4 := Nat.mod_lt z (by norm_num)
        have hb0 : z >>> 0 &&& 3 = z % 4 := by
          rw [shiftr_and3, Nat.pow_zero, Nat.div_one]
        have hzw : z <<< 4 &&& 63 = z % 4 * 16 := by
          rw [shiftl_and63 z (by omega)]
          norm_num
        rw [refGo_step, refGo_zero, e1]
        simp only [Nat.zero_shiftLeft, Nat.zero_or]
        rw [hb0, hzw, lut3_getD (or64_lt hs (by omega)), (lutp_c2 s hs (z % 4) hz4).1]
      · have e1 : ∀ (w i : Nat), mtHgo w 4 i 0 =
            (0:Nat) <<< 4 ||| (HILBERT_LUT_3.getD (i ||| w <<< 2 &&& 63) 0 &&& 63) >>> 2 :=
          fun w i => rfl
        have hb1 : z >>> 2 &&& 3 = z / 4 % 4 := by
          rw [shiftr_and3, show (2:Nat) ^ 2 = 4 from rfl]
        have hb0 : z >>> 0 &&& 3 = z % 4 := by
          rw [shiftr_and3, Nat.pow_zero, Nat.div_one]
        have hzw : z <<< 2 &&& 63 = z % 16 * 4 := by
          rw [shiftl_and63 z (by omega)]
          norm_num
        have hdec : z % 16 = z / 4 % 4 * 4 + z % 4 := by omega
        have hq1 : z / 4 % 4 < 4 := Nat.mod_lt _ (by norm_num)
        have hq0 : z % 4 < 4 := Nat.mod_lt z (by norm_num)
        rw [refGo_step, refGo_step, refGo_zero, e1]
        simp only [Nat.zero_shiftLeft, Nat.zero_or]
        rw [hb1, hb0, hzw, lut3_getD (or64_lt hs (by omega)), hdec,
          (lutp_c4 s hs (z / 4 % 4) hq1 (z % 4) hq0).1,
          or_shift_acc (and_3_lt (lut1step (lut1step (4 * s) (z / 4 % 4)) (z % 4))),
          show (2:Nat) ^ 2 = 4 from rfl]
    · obtain ⟨k, rfl⟩ : ∃ k, n = k + 6 := ⟨n - 6, by omega⟩
      have hk : 2 ∣ k := by omega
      have hb2 : z / 2 ^ (k + 4) % 4 < 4 := Nat.mod_lt _ (by norm_num)
      have hb1 : z / 2 ^ (k + 2) % 4 < 4 := Nat.mod_lt _ (by norm_num)
      have hb0 : z / 2 ^ k % 4 < 4 := Nat.mod_lt _ (by norm_num)
      have hdec : z / 2 ^ k % 64 =
          z / 2 ^ (k + 4) % 4 * 16 + z / 2 ^ (k + 2) % 4 * 4 + z / 2 ^ k % 4 := by
        have e2 : z / 2 ^ (k + 2) = z / 2 ^ k / 4 := by
          rw [Nat.div_div_eq_div_mul, show (4:Nat) = 2 ^ 2 from rfl, ← pow_add]
        have e4 : z / 2 ^ (k + 4) = z / 2 ^ k / 16 := by
          rw [Nat.div_div_eq_div_mul, show (16:Nat) = 2 ^ 4 from rfl, ← pow_add]
        rw [e2, e4]
        omega
      simp only [mtHgo]
      rw [shiftr_and63 z k, lut3_getD (or64_lt hs (by omega)), mtHgo_acc z k hk]
      simp only [Nat.zero_shiftLeft, Nat.zero_or]
      rw [hdec, (lutp_comp3 s hs _ hb2 _ hb1 _ hb0).1, (lutp_comp3 s hs _ hb2 _ hb1 _ hb0).2]
      rw [refGo_step z (k + 4), refGo_step z (k + 2), refGo_step z k]
      simp only [Nat.zero_shiftLeft, Nat.zero_or]
      rw [shiftr_and3 z (k + 4), shiftr_and3 z (k + 2), shiftr_and3 z k,
        or_shift_acc (and_3_lt (lut1step (lut1step (4 * s) (z / 2 ^ (k + 4) % 4))
          (z / 2 ^ (k + 2) % 4))),
        or_shift_acc (and_3_lt (lut1step (lut1step (lut1step (4 * s) (z / 2 ^ (k + 4) % 4))
          (z / 2 ^ (k + 2) % 4)) (z / 2 ^ k % 4))),
        refGo_acc z k hk, refGo_mask]
      have hst : lut1step (lut1step (lut1step (4 * s) (z / 2 ^ (k + 4) % 4))
          (z / 2 ^ (k + 2) % 4)) (z / 2 ^ k % 4) &&& 12 =
          4 * (lut1step (lut1step (lut1step (4 * s) (z / 2 ^ (k + 4) % 4))
            (z / 2 ^ (k + 2) % 4)) (z / 2 ^ k % 4) / 4 % 4) := by
        rw [and12_eq]
        ring
      have hst2 : (lut1step (lut1step (lut1step (4 * s) (z / 2 ^ (k + 4) % 4))
          (z / 2 ^ (k + 2) % 4)) (z / 2 ^ k % 4) &&& 12) * 16 =
          64 * (lut1step (lut1step (lut1step (4 * s) (z / 2 ^ (k + 4) % 4))
            (z / 2 ^ (k + 2) % 4)) (z / 2 ^ k % 4) / 4 % 4) := by
        rw [and12_eq]
        ring
      have hs2 : lut1step (lut1step (lut1step (4 * s) (z / 2 ^ (k + 4) % 4))
          (z / 2 ^ (k + 2) % 4)) (z / 2 ^ k % 4) / 4 % 4 < 4 := Nat.mod_lt _ (by norm_num)
      rw [hst2, hst, ih k (by omega) hk _ hs2, show (2:Nat) ^ 2 = 4 from rfl]
      ring

theorem inv_equiv (z : Nat) : ∀ n, 2 ∣ n → ∀ s, s < 4 →
    inv2go z n (4 * s) 0 = htMgo z n (64 * s) 0 := by
  intro n
  induction n using Nat.strong_induction_on with
  | _ n ih =>
    intro hdvd s hs
    rcases Nat.lt_or_ge n 6 with h6 | h6
    · have hn : n = 0 ∨ n = 2 ∨ n = 4 := by omega
      rcases hn with rfl | rfl | rfl
      · have e1 : ∀ (w i : Nat), htMgo w 0 i 0 = 0 := fun w i => rfl
        rw [inv2go_zero, e1]
      · have e1 : ∀ (w i : Nat), htMgo w 2 i 0 =
            (0:Nat) <<< 2 ||| (HILBERT_INVERSE_LUT_3.getD (i ||| w <<< 4 &&& 63) 0 &&& 63) >>> 4 :=
          fun w i => rfl
        have hz4 : z % 4 < 4 := Nat.mod_lt z (by norm_num)
        have hb0 : z >>> 0 &&& 3 = z % 4 := by
          rw [shiftr_and3, Nat.pow_zero, Nat.div_one]
        have hzw : z <<< 4 &&& 63 = z % 4 * 16 := by
          rw [shiftl_and63 z (by omega)]
          norm_num
        rw [inv2go_step, inv2go_zero, e1]
        simp only [Nat.zero_shiftLeft, Nat.zero_or]
        rw [hb0, hzw, ilut3_getD (or64_lt hs (by omega)), (lutp_c2 s hs (z % 4) hz4).2]
      · have e1 : ∀ (w i : Nat), htMgo w 4 i 0 =
            (0:Nat) <<< 4 ||| (HILBERT_INVERSE_LUT_3.getD (i ||| w <<< 2 &&& 63) 0 &&& 63) >>> 2 :=
          fun w i => rfl
        have hb1 : z >>> 2 &&& 3 = z / 4 % 4 := by
          rw [shiftr_and3, show (2:Nat) ^ 2 = 4 from rfl]
        have hb0 : z >>> 0 &&& 3 = z % 4 := by
          rw [shiftr_and3, Nat.pow_zero, Nat.div_one]
        have hzw : z <<< 2 &&& 63 = z % 16 * 4 := by
          rw [shiftl_and63 z (by omega)]
          norm_num
        have hdec : z % 16 = z / 4 % 4 * 4 + z % 4 := by omega
        have hq1 : z / 4 % 4 < 4 := Nat.mod_lt _ (by norm_num)
        have hq0 : z % 4 < 4 := Nat.mod_lt z (by norm_num)
        rw [inv2go_step, inv2go_step, inv2go_zero, e1]
        simp only [Nat.zero_shiftLeft, Nat.zero_or]
        rw [hb1, hb0, hzw, ilut3_getD (or64_lt hs (by omega)), hdec,
          (lutp_c4 s hs (z / 4 % 4) hq1 (z % 4) hq0).2,
          or_shift_acc (and_3_lt (inv1step (inv1step (4 * s) (z / 4 % 4)) (z % 4))),
          show (2:Nat) ^ 2 = 4 from rfl]
    · obtain ⟨k, rfl⟩ : ∃ k, n = k + 6 := ⟨n - 6, by omega⟩
      have hk : 2 ∣ k := by omega
      have hb2 : z / 2 ^ (k + 4) % 4 < 4 := Nat.mod_lt _ (by norm_num)
      have hb1 : z / 2 ^ (k + 2) % 4 < 4 := Nat.mod_lt _ (by norm_num)
      have hb0 : z / 2 ^ k % 4 < 4 := Nat.mod_lt _ (by norm_num)
      have hdec : z / 2 ^ k % 64 =
          z / 2 ^ (k + 4) % 4 * 16 + z / 2 ^ (k + 2) % 4 * 4 + z / 2 ^ k % 4 := by
        have e2 : z / 2 ^ (k + 2) = z / 2 ^ k / 4 := by
          rw [Nat.div_div_eq_div_mul, show (4:Nat) = 2 ^ 2 from rfl, ← pow_add]
        have e4 : z / 2 ^ (k + 4) = z / 2 ^ k / 16 := by
          rw [Nat.div_div_eq_div_mul, show (16:Nat) = 2 ^ 4 from rfl, ← pow_add]
        rw [e2, e4]
        omega
      simp only [htMgo]
      rw [shiftr_and63 z k, ilut3_getD (or64_lt hs (by omega)), htMgo_acc z k hk]
      simp only [Nat.zero_shiftLeft, Nat.zero_or]
      rw [hdec, (lutp_icomp3 s hs _ hb2 _ hb1 _ hb0).1, (lutp_icomp3 s hs _ hb2 _ hb1 _ hb0).2]
      rw [inv2go_step z (k + 4), inv2go_step z (k + 2), inv2go_step z k]
      simp only [Nat.zero_shiftLeft, Nat.zero_or]
      rw [shiftr_and3 z (k + 4), shiftr_and3 z (k + 2), shiftr_and3 z k,
        or_shift_acc (and_3_lt (inv1step (inv1step (4 * s) (z / 2 ^ (k + 4) % 4))
          (z / 2 ^ (k + 2) % 4))),
        or_shift_acc (and_3_lt (inv1step (inv1step (inv1step (4 * s) (z / 2 ^ (k + 4) % 4))
          (z / 2 ^ (k + 2) % 4)) (z / 2 ^ k % 4))),
        inv2go_acc z k hk, inv2go_mask]
      have hst : inv1step (inv1step (inv1step (4 * s) (z / 2 ^ (k + 4) % 4))
          (z / 2 ^ (k + 2) % 4)) (z / 2 ^ k % 4) &&& 12 =
          4 * (inv1step (inv1step (inv1step (4 * s) (z / 2 ^ (k + 4) % 4))
            (z / 2 ^ (k + 2) % 4)) (z / 2 ^ k % 4) / 4 % 4) := by
        rw [and12_eq]
        ring
      have hst2 : (inv1step (inv1step (inv1step (4 * s) (z / 2 ^ (k + 4) % 4))
          (z / 2 ^ (k + 2) % 4)) (z / 2 ^ k % 4) &&& 12) * 16 =
          64 * (inv1step (inv1step (inv1step (4 * s) (z / 2 ^ (k + 4) % 4))
            (z / 2 ^ (k + 2) % 4)) (z / 2 ^ k % 4) / 4 % 4) := by
        rw [and12_eq]
        ring
      have hs2 : inv1step (inv1step (inv1step (4 * s) (z / 2 ^ (k + 4) % 4))
          (z / 2 ^ (k + 2) % 4)) (z / 2 ^ k % 4) / 4 % 4 < 4 := Nat.mod_lt _ (by norm_num)
      rw [hst2, hst, ih k (by omega) hk _ hs2, show (2:Nat) ^ 2 = 4 from rfl]
      ring

theorem cheb1_translate {p q : Nat × Nat} (a b : Nat) (h : cheb1 p q) :
    cheb1 (a + p.1, b + p.2) (a + q.1, b + q.2) := by
  simp only [cheb1] at h ⊢
  omega

theorem hilbertPt_low : ∀ m i h h', h % 2 ^ (2 * m) = h' % 2 ^ (2 * m) →
    hilbertPt m i h = hilbertPt m i h'
  | 0, _, _, _, _ => rfl
  | m + 1, i, h, h', he => by
    have he' : h % 2 ^ (2 * m + 2) = h' % 2 ^ (2 * m + 2) := by
      rw [show 2 * m + 2 = 2 * (m + 1) from by ring]
      exact he
    have hb : h >>> (2 * m) &&& 3 = h' >>> (2 * m) &&& 3 := by
      rw [shiftr_and3, shiftr_and3]
      exact div_mod_of_mod_eq (k := 2 * m) (g := 2) he'
    have hlow : h % 2 ^ (2 * m) = h' % 2 ^ (2 * m) := by
      have d : (2:Nat) ^ (2 * m) ∣ 2 ^ (2 * m + 2) := pow_dvd_pow 2 (by omega)
      rw [← Nat.mod_mod_of_dvd h d, ← Nat.mod_mod_of_dvd h' d, he']
    have hrec : hilbertPt m (inv1step i (h' >>> (2 * m) &&& 3) &&& 12) h =
        hilbertPt m (inv1step i (h' >>> (2 * m) &&& 3) &&& 12) h' :=
      hilbertPt_low m _ h h' hlow
    simp only [hilbertPt]
    rw [hb, hrec]

theorem morton_split {g a b : Nat} (hg : g ≤ 31) (ha : a < 4) (hb : b < 2 ^ (2 * g)) :
    mortonIndexInverse (a * 2 ^ (2 * g) + b) =
      (a % 2 * 2 ^ g + (mortonIndexInverse b).1,
       a / 2 % 2 * 2 ^ g + (mortonIndexInverse b).2) := by
  have hE2 : (2:Nat) ^ (2 * g + 2) = 4 * 2 ^ (2 * g) := by
    rw [pow_add]
    ring
  have haE : a * 2 ^ (2 * g) ≤ 3 * 2 ^ (2 * g) :=
    Nat.mul_le_mul_right _ (by omega)
  have hzlt : a * 2 ^ (2 * g) + b < 2 ^ (2 * g + 2) := by omega
  have hz64 : a * 2 ^ (2 * g) + b < 2 ^ 64 :=
    lt_of_lt_of_le hzlt (Nat.pow_le_pow_right (by norm_num) (by omega))
  have hb64 : b < 2 ^ 64 :=
    lt_of_lt_of_le hb (Nat.pow_le_pow_right (by norm_num) (by omega))
  have hsplit : ∀ i, i < g → (a * 2 ^ (2 * g) + b) / 2 ^ (2 * i) =
      b / 2 ^ (2 * i) + a * 2 ^ (2 * g - 2 * i) := by
    intro i hi
    have h2i : (2:Nat) ^ (2 * g) = 2 ^ (2 * g - 2 * i) * 2 ^ (2 * i) := by
      rw [← pow_add]
      congr 1
      omega
    have hz : a * 2 ^ (2 * g) + b = b + a * 2 ^ (2 * g - 2 * i) * 2 ^ (2 * i) := by
      rw [h2i]
      ring
    rw [hz, Nat.add_mul_div_right _ _ (pow_pos (by norm_num) _)]
  have hdigg : (a * 2 ^ (2 * g) + b) / 2 ^ (2 * g) = a := by
    rw [show a * 2 ^ (2 * g) + b = b + a * 2 ^ (2 * g) from by ring,
      Nat.add_mul_div_right _ _ (pow_pos (by norm_num) _), Nat.div_eq_of_lt hb,
      Nat.zero_add]
  have hdig0 : ∀ i, g + 1 ≤ i → i < 32 → (a * 2 ^ (2 * g) + b) / 2 ^ (2 * i) % 2 = 0 := by
    intro i hgi _
    rw [Nat.div_eq_of_lt (lt_of_lt_of_le hzlt
      (Nat.pow_le_pow_right (by norm_num) (by omega)))]
  have hdig0' : ∀ i, g + 1 ≤ i → i < 32 →
      (a * 2 ^ (2 * g) + b) / 2 ^ (2 * i) / 2 % 2 = 0 := by
    intro i hgi hi
    rw [Nat.div_eq_of_lt (lt_of_lt_of_le hzlt
      (Nat.pow_le_pow_right (by norm_num) (by omega)))]
  have hbdig : ∀ i, g ≤ i → i < 32 → b / 2 ^ (2 * i) % 2 = 0 := by
    intro i hgi _
    rw [Nat.div_eq_of_lt (lt_of_lt_of_le hb
      (Nat.pow_le_pow_right (by norm_num) (by omega)))]
  have hbdig' : ∀ i, g ≤ i → i < 32 → b / 2 ^ (2 * i) / 2 % 2 = 0 := by
    intro i hgi _
    rw [Nat.div_eq_of_lt (lt_of_lt_of_le hb
      (Nat.pow_le_pow_right (by norm_num) (by omega)))]
  have hf1 : ∀ i, i < g →
      (a * 2 ^ (2 * g) + b) / 2 ^ (2 * i) % 2 = b / 2 ^ (2 * i) % 2 := by
    intro i hi
    have h21 : (2:Nat) ^ (2 * g - 2 * i) = 2 ^ (2 * g - 2 * i - 1) * 2 := by
      rw [← pow_succ]
      congr 1
      omega
    rw [hsplit i hi, h21, ← Nat.mul_assoc, Nat.add_mul_mod_self_right]
  have hf1' : ∀ i, i < g →
      (a * 2 ^ (2 * g) + b) / 2 ^ (2 * i) / 2 % 2 = b / 2 ^ (2 * i) / 2 % 2 := by
    intro i hi
    have h22 : (2:Nat) ^ (2 * g - 2 * i) = 2 ^ (2 * g - 2 * i - 2) * 2 * 2 := by
      rw [← pow_succ, ← pow_succ]
      congr 1
      omega
    rw [hsplit i hi, h22, ← Nat.mul_assoc,
      Nat.add_mul_div_right _ _ (by norm_num : (0:Nat) < 2),
      ← Nat.mul_assoc, Nat.add_mul_mod_self_right]
  refine Prod.ext ?_ ?_
  · rw [mortonIndexInverse_eq _ hz64, mortonIndexInverse_eq b hb64]
    show csum 1 (fun i => (a * 2 ^ (2 * g) + b) / 2 ^ (2 * i) % 2) 32 =
      a % 2 * 2 ^ g + csum 1 (fun i => b / 2 ^ (2 * i) % 2) 32
    rw [csum_dropHigh hdig0 (by omega), csum_dropHigh hbdig (by omega)]
    simp only [csum]
    rw [csum_congr (fun i hi => hf1 i hi), hdigg, Nat.one_mul]
    ring
  · rw [mortonIndexInverse_eq _ hz64, mortonIndexInverse_eq b hb64]
    show csum 1 (fun i => (a * 2 ^ (2 * g) + b) / 2 ^ (2 * i) / 2 % 2) 32 =
      a / 2 % 2 * 2 ^ g + csum 1 (fun i => b / 2 ^ (2 * i) / 2 % 2) 32
    rw [csum_dropHigh hdig0' (by omega), csum_dropHigh hbdig' (by omega)]
    simp only [csum]
    rw [csum_congr (fun i hi => hf1' i hi), hdigg, Nat.one_mul]
    ring

theorem hilbertPt_start : ∀ m,
    hilbertPt m 0 0 = (0, 0) ∧ hilbertPt m 4 0 = (0, 0) ∧
    hilbertPt m 8 0 = (2 ^ m - 1, 2 ^ m - 1) ∧
    hilbertPt m 12 0 = (2 ^ m - 1, 2 ^ m - 1) := by
  intro m
  induction m with
  | zero => exact ⟨rfl, rfl, rfl, rfl⟩
  | succ m ih =>
    obtain ⟨i0, i4, i8, i12⟩ := ih
    have h1 : (1:Nat) ≤ 2 ^ m := Nat.one_le_two_pow
    have hP : (2:Nat) ^ (m + 1) = 2 ^ m * 2 := pow_succ 2 m
    refine ⟨?_, ?_, ?_, ?_⟩ <;> simp only [hilbertPt] <;>
      rw [Nat.zero_shiftRight, Nat.zero_and]
    · rw [show inv1step 0 0 &&& 12 = 4 from by decide, i4,
        show inv1step 0 0 &&& 1 = 0 from by decide,
        show inv1step 0 0 >>> 1 &&& 1 = 0 from by decide, Prod.mk.injEq]
      omega
    · rw [show inv1step 4 0 &&& 12 = 0 from by decide, i0,
        show inv1step 4 0 &&& 1 = 0 from by decide,
        show inv1step 4 0 >>> 1 &&& 1 = 0 from by decide, Prod.mk.injEq]
      omega
    · rw [show inv1step 8 0 &&& 12 = 12 from by decide, i12,
        show inv1step 8 0 &&& 1 = 1 from by decide,
        show inv1step 8 0 >>> 1 &&& 1 = 1 from by decide, Prod.mk.injEq]
      omega
    · rw [show inv1step 12 0 &&& 12 = 8 from by decide, i8,
        show inv1step 12 0 &&& 1 = 1 from by decide,
        show inv1step 12 0 >>> 1 &&& 1 = 1 from by decide, Prod.mk.injEq]
      omega

theorem hilbertPt_end : ∀ m,
    hilbertPt m 0 (2 ^ (2 * m) - 1) = (2 ^ m - 1, 0) ∧
    hilbertPt m 4 (2 ^ (2 * m) - 1) = (0, 2 ^ m - 1) ∧
    hilbertPt m 8 (2 ^ (2 * m) - 1) = (0, 2 ^ m - 1) ∧
    hilbertPt m 12 (2 ^ (2 * m) - 1) = (2 ^ m - 1, 0) := by
  intro m
  induction m with
  | zero => exact ⟨rfl, rfl, rfl, rfl⟩
  | succ m ih =>
    obtain ⟨i0, i4, i8, i12⟩ := ih
    have h1 : (1:Nat) ≤ 2 ^ m := Nat.one_le_two_pow
    have hE : (1:Nat) ≤ 2 ^ (2 * m) := Nat.one_le_two_pow
    have hP : (2:Nat) ^ (m + 1) = 2 ^ m * 2 := pow_succ 2 m
    have hE2 : (2:Nat) ^ (2 * (m + 1)) = 4 * 2 ^ (2 * m) := by
      rw [show 2 * (m + 1) = 2 * m + 2 from by ring, pow_add]
      ring
    have hread : (2 ^ (2 * (m + 1)) - 1) >>> (2 * m) &&& 3 = 3 := by
      rw [shiftr_and3]
      have hdiv : (2 ^ (2 * (m + 1)) - 1) / 2 ^ (2 * m) = 3 := by
        rw [hE2]
        exact Nat.div_eq_of_lt_le (by omega) (by omega)
      rw [hdiv]
    have hmod : (2 ^ (2 * (m + 1)) - 1) % 2 ^ (2 * m) =
        (2 ^ (2 * m) - 1) % 2 ^ (2 * m) := by
      rw [show (2:Nat) ^ (2 * (m + 1)) - 1 = 2 ^ (2 * m) - 1 + 3 * 2 ^ (2 * m) from by omega,
        Nat.add_mul_mod_self_right]
    have hlow : ∀ i, hilbertPt m i (2 ^ (2 * (m + 1)) - 1) =
        hilbertPt m i (2 ^ (2 * m) - 1) := fun i => hilbertPt_low m i _ _ hmod
    refine ⟨?_, ?_, ?_, ?_⟩ <;> simp only [hilbertPt] <;> rw [hread]
    · rw [show inv1step 0 3 &&& 12 = 12 from by decide, hlow, i12,
        show inv1step 0 3 &&& 1 = 1 from by decide,
        show inv1step 0 3 >>> 1 &&& 1 = 0 from by decide, Prod.mk.injEq]
      omega
    · rw [show inv1step 4 3 &&& 12 = 8 from by decide, hlow, i8,
        show inv1step 4 3 &&& 1 = 0 from by decide,
        show inv1step 4 3 >>> 1 &&& 1 = 1 from by decide, Prod.mk.injEq]
      omega
    · rw [show inv1step 8 3 &&& 12 = 4 from by decide, hlow, i4,
        show inv1step 8 3 &&& 1 = 0 from by decide,
        show inv1step 8 3 >>> 1 &&& 1 = 1 from by decide, Prod.mk.injEq]
      omega
    · rw [show inv1step 12 3 &&& 12 = 0 from by decide, hlow, i0,
        show inv1step 12 3 &&& 1 = 1 from by decide,
        show inv1step 12 3 >>> 1 &&& 1 = 0 from by decide, Prod.mk.injEq]
      omega

theorem and1_eq (x : Nat) : x &&& 1 = x % 2 := by
  rw [show (1:Nat) = 2 ^ 1 - 1 from rfl, Nat.and_pow_two_sub_one_eq_mod, Nat.pow_one]

theorem and3_eq (x : Nat) : x &&& 3 = x % 4 := by
  rw [show (3:Nat) = 2 ^ 2 - 1 from rfl, Nat.and_pow_two_sub_one_eq_mod]

theorem shiftr1_and1 (x : Nat) : x >>> 1 &&& 1 = x / 2 % 2 := by
  rw [and1_eq, Nat.shiftRight_eq_div_pow, Nat.pow_one]

theorem inv2go_pt : ∀ m, m ≤ 32 → ∀ s, s < 4 → ∀ h, h < 2 ^ (2 * m) →
    mortonIndexInverse (inv2go h (2 * m) (4 * s) 0) = hilbertPt m (4 * s) h := by
  intro m
  induction m with
  | zero =>
    intro _ s hs h hh
    have e : inv2go h (2 * 0) (4 * s) 0 = 0 := rfl
    rw [e, show mortonIndexInverse 0 = (0, 0) from by decide]
    rfl
  | succ m ih =>
    intro hm s hs h hh
    have hm' : m ≤ 32 := by omega
    have hg : m ≤ 31 := by omega
    have hdm : 2 ∣ 2 * m := ⟨m, rfl⟩
    have hEpos : (0:Nat) < 2 ^ (2 * m) := pow_pos (by norm_num) _
    simp only [hilbertPt]
    rw [show 2 * (m + 1) = 2 * m + 2 from by ring, inv2go_step]
    simp only [Nat.zero_shiftLeft, Nat.zero_or]
    rw [inv2go_acc h (2 * m) hdm, inv2go_mask h (2 * m)]
    have hst : inv1step (4 * s) (h >>> (2 * m) &&& 3) &&& 12 =
        4 * (inv1step (4 * s) (h >>> (2 * m) &&& 3) / 4 % 4) := by
      rw [and12_eq]
      ring
    have hs' : inv1step (4 * s) (h >>> (2 * m) &&& 3) / 4 % 4 < 4 :=
      Nat.mod_lt _ (by norm_num)
    rw [hst]
    have hlow2 : inv2go h (2 * m)
        (4 * (inv1step (4 * s) (h >>> (2 * m) &&& 3) / 4 % 4)) 0 =
        inv2go (h % 2 ^ (2 * m)) (2 * m)
          (4 * (inv1step (4 * s) (h >>> (2 * m) &&& 3) / 4 % 4)) 0 := by
      rw [inv_equiv h (2 * m) hdm _ hs', inv_equiv (h % 2 ^ (2 * m)) (2 * m) hdm _ hs']
      exact htMgo_low h (h % 2 ^ (2 * m)) (2 * m) hdm _
        (by rw [Nat.mod_mod_of_dvd h (dvd_refl _)])
    have hptlow : hilbertPt m
        (4 * (inv1step (4 * s) (h >>> (2 * m) &&& 3) / 4 % 4)) h =
        hilbertPt m (4 * (inv1step (4 * s) (h >>> (2 * m) &&& 3) / 4 % 4))
          (h % 2 ^ (2 * m)) :=
      hilbertPt_low m _ h _ (by rw [Nat.mod_mod_of_dvd h (dvd_refl _)])
    rw [hlow2, hptlow]
    have hb : inv2go (h % 2 ^ (2 * m)) (2 * m)
        (4 * (inv1step (4 * s) (h >>> (2 * m) &&& 3) / 4 % 4)) 0 < 2 ^ (2 * m) := by
      rw [inv_equiv _ (2 * m) hdm _ hs']
      exact htMgo_lt _ (2 * m) hdm _
    rw [morton_split hg (and_3_lt _) hb,
      ih hm' _ hs' _ (Nat.mod_lt h hEpos)]
    have hc1 : ∀ w : Nat, (w &&& 3) % 2 = w &&& 1 := fun w => by
      rw [and3_eq, and1_eq]
      omega
    have hc2 : ∀ w : Nat, (w &&& 3) / 2 % 2 = w >>> 1 &&& 1 := fun w => by
      rw [and3_eq, shiftr1_and1]
      omega
    rw [hc1, hc2]

theorem hilbertPt_adj_base : ∀ s, s < 4 → ∀ h, h < 3 →
    cheb1 (hilbertPt 1 (4 * s) h) (hilbertPt 1 (4 * s) (h + 1)) := by decide

theorem hilbertPt_adj : ∀ m, 1 ≤ m → ∀ s, s < 4 → ∀ h, h + 1 < 2 ^ (2 * m) →
    cheb1 (hilbertPt m (4 * s) h) (hilbertPt m (4 * s) (h + 1)) := by
  intro m
  induction m with
  | zero => omega
  | succ m ih =>
    intro _ s hs h hh
    rcases Nat.eq_zero_or_pos m with rfl | hm1
    · refine hilbertPt_adj_base s hs h ?_
      have he : (2:Nat) ^ (2 * (0 + 1)) = 4 := by norm_num
      omega
    · have hEpos : (0:Nat) < 2 ^ (2 * m) := pow_pos (by norm_num) _
      have hE1 : (1:Nat) ≤ 2 ^ (2 * m) := hEpos
      have h1m : (1:Nat) ≤ 2 ^ m := Nat.one_le_two_pow
      have hE2' : (2:Nat) ^ (2 * (m + 1)) = 4 * 2 ^ (2 * m) := by
        rw [show 2 * (m + 1) = 2 * m + 2 from by ring, pow_add]
        ring
      have h4E : h + 1 < 4 * 2 ^ (2 * m) := by omega
      have hQR : 2 ^ (2 * m) * (h / 2 ^ (2 * m)) + h % 2 ^ (2 * m) = h :=
        Nat.div_add_mod h _
      have hRlt : h % 2 ^ (2 * m) < 2 ^ (2 * m) := Nat.mod_lt _ hEpos
      simp only [hilbertPt]
      rcases Nat.lt_or_ge (h % 2 ^ (2 * m)) (2 ^ (2 * m) - 1) with hrlt | hrge
      · -- interior step: both indices share the top quadrant
        have hsucc1 : h + 1 = h % 2 ^ (2 * m) + 1 + h / 2 ^ (2 * m) * 2 ^ (2 * m) := by
          have hc : h / 2 ^ (2 * m) * 2 ^ (2 * m) =
              2 ^ (2 * m) * (h / 2 ^ (2 * m)) := Nat.mul_comm _ _
          omega
        have hdiv1 : (h + 1) / 2 ^ (2 * m) = h / 2 ^ (2 * m) := by
          rw [hsucc1, Nat.add_mul_div_right _ _ hEpos,
            Nat.div_eq_of_lt (by omega), Nat.zero_add]
        have hmod1 : (h + 1) % 2 ^ (2 * m) = h % 2 ^ (2 * m) + 1 := by
          rw [hsucc1, Nat.add_mul_mod_self_right, Nat.mod_eq_of_lt (by omega)]
        have top2' : (h + 1) >>> (2 * m) &&& 3 = h >>> (2 * m) &&& 3 := by
          rw [shiftr_and3, shiftr_and3, hdiv1]
        rw [top2']
        have hst : inv1step (4 * s) (h >>> (2 * m) &&& 3) &&& 12 =
            4 * (inv1step (4 * s) (h >>> (2 * m) &&& 3) / 4 % 4) := by
          rw [and12_eq]
          ring
        rw [hst]
        have hsl1 : hilbertPt m
            (4 * (inv1step (4 * s) (h >>> (2 * m) &&& 3) / 4 % 4)) h =
            hilbertPt m (4 * (inv1step (4 * s) (h >>> (2 * m) &&& 3) / 4 % 4))
              (h % 2 ^ (2 * m)) :=
          hilbertPt_low m _ h _ (by rw [Nat.mod_mod_of_dvd h (dvd_refl _)])
        have hsl2 : hilbertPt m
            (4 * (inv1step (4 * s) (h >>> (2 * m) &&& 3) / 4 % 4)) (h + 1) =
            hilbertPt m (4 * (inv1step (4 * s) (h >>> (2 * m) &&& 3) / 4 % 4))
              (h % 2 ^ (2 * m) + 1) :=
          hilbertPt_low m _ (h + 1) _
            (by rw [hmod1]; exact (Nat.mod_eq_of_lt (by omega)).symm)
        rw [hsl1, hsl2]
        exact cheb1_translate _ _
          (ih hm1 _ (Nat.mod_lt _ (by norm_num)) _ (by omega))
      · -- boundary step: crossing into the next quadrant
        have hr : h % 2 ^ (2 * m) = 2 ^ (2 * m) - 1 := by omega
        have hsucc : h + 1 = 2 ^ (2 * m) * (h / 2 ^ (2 * m) + 1) := by
          have hmm : 2 ^ (2 * m) * (h / 2 ^ (2 * m) + 1) =
              2 ^ (2 * m) * (h / 2 ^ (2 * m)) + 2 ^ (2 * m) := by ring
          omega
        have hdiv2 : (h + 1) / 2 ^ (2 * m) = h / 2 ^ (2 * m) + 1 := by
          rw [hsucc, Nat.mul_div_cancel_left _ hEpos]
        have hmod2 : (h + 1) % 2 ^ (2 * m) = 0 := by
          rw [hsucc, Nat.mul_mod_right]
        have hqlt : h / 2 ^ (2 * m) + 1 < 4 := by
          refine Nat.lt_of_mul_lt_mul_left (a := 2 ^ (2 * m)) ?_
          omega
        have top1 : h >>> (2 * m) &&& 3 = h / 2 ^ (2 * m) := by
          rw [shiftr_and3, Nat.mod_eq_of_lt (by omega)]
        have top2 : (h + 1) >>> (2 * m) &&& 3 = h / 2 ^ (2 * m) + 1 := by
          rw [shiftr_and3, hdiv2, Nat.mod_eq_of_lt hqlt]
        have hl1 : ∀ i, hilbertPt m i h = hilbertPt m i (2 ^ (2 * m) - 1) :=
          fun i => hilbertPt_low m i h _
            (by rw [hr, Nat.mod_eq_of_lt (by omega)])
        have hl2 : ∀ i, hilbertPt m i (h + 1) = hilbertPt m i 0 :=
          fun i => hilbertPt_low m i (h + 1) 0 (by rw [hmod2, Nat.zero_mod])
        have hq3 : h / 2 ^ (2 * m) = 0 ∨ h / 2 ^ (2 * m) = 1 ∨
            h / 2 ^ (2 * m) = 2 := by omega
        interval_cases s
        · rcases hq3 with hq | hq | hq
          · have t1 : h >>> (2 * m) &&& 3 = 0 := by rw [top1, hq]
            have t2 : (h + 1) >>> (2 * m) &&& 3 = 1 := by rw [top2, hq]
            rw [t1, t2, hl1, hl2,
              show inv1step (4 * 0) 0 &&& 12 = 4 from by decide,
              show inv1step (4 * 0) 1 &&& 12 = 0 from by decide,
              (hilbertPt_end m).2.1, (hilbertPt_start m).1,
              show inv1step (4 * 0) 0 &&& 1 = 0 from by decide,
              show inv1step (4 * 0) 0 >>> 1 &&& 1 = 0 from by decide,
              show inv1step (4 * 0) 1 &&& 1 = 0 from by decide,
              show inv1step (4 * 0) 1 >>> 1 &&& 1 = 1 from by decide]
            simp only [cheb1, true_and, and_true]
            omega
          · have t1 : h >>> (2 * m) &&& 3 = 1 := by rw [top1, hq]
            have t2 : (h + 1) >>> (2 * m) &&& 3 = 2 := by rw [top2, hq]
            rw [t1, t2, hl1, hl2,
              show inv1step (4 * 0) 1 &&& 12 = 0 from by decide,
              show inv1step (4 * 0) 2 &&& 12 = 0 from by decide,
              (hilbertPt_end m).1, (hilbertPt_start m).1,
              show inv1step (4 * 0) 1 &&& 1 = 0 from by decide,
              show inv1step (4 * 0) 1 >>> 1 &&& 1 = 1 from by decide,
              show inv1step (4 * 0) 2 &&& 1 = 1 from by decide,
              show inv1step (4 * 0) 2 >>> 1 &&& 1 = 1 from by decide]
            simp only [cheb1, true_and, and_true]
            omega
          · have t1 : h >>> (2 * m) &&& 3 = 2 := by rw [top1, hq]
            have t2 : (h + 1) >>> (2 * m) &&& 3 = 3 := by rw [top2, hq]
            rw [t1, t2, hl1, hl2,
              show inv1step (4 * 0) 2 &&& 12 = 0 from by decide,
              show inv1step (4 * 0) 3 &&& 12 = 12 from by decide,
              (hilbertPt_end m).1, (hilbertPt_start m).2.2.2,
              show inv1step (4 * 0) 2 &&& 1 = 1 from by decide,
              show inv1step (4 * 0) 2 >>> 1 &&& 1 = 1 from by decide,
              show inv1step (4 * 0) 3 &&& 1 = 1 from by decide,
              show inv1step (4 * 0) 3 >>> 1 &&& 1 = 0 from by decide]
            simp only [cheb1, true_and, and_true]
            omega
        · rcases hq3 with hq | hq | hq
          · have t1 : h >>> (2 * m) &&& 3 = 0 := by rw [top1, hq]
            have t2 : (h + 1) >>> (2 * m) &&& 3 = 1 := by rw [top2, hq]
            rw [t1, t2, hl1, hl2,
              show inv1step (4 * 1) 0 &&& 12 = 0 from by decide,
              show inv1step (4 * 1) 1 &&& 12 = 4 from by decide,
              (hilbertPt_end m).1, (hilbertPt_start m).2.1,
              show inv1step (4 * 1) 0 &&& 1 = 0 from by decide,
              show inv1step (4 * 1) 0 >>> 1 &&& 1 = 0 from by decide,
              show inv1step (4 * 1) 1 &&& 1 = 1 from by decide,
              show inv1step (4 * 1) 1 >>> 1 &&& 1 = 0 from by decide]
            simp only [cheb1, true_and, and_true]
            omega
          · have t1 : h >>> (2 * m) &&& 3 = 1 := by rw [top1, hq]
            have t2 : (h + 1) >>> (2 * m) &&& 3 = 2 := by rw [top2, hq]
            rw [t1, t2, hl1, hl2,
              show inv1step (4 * 1) 1 &&& 12 = 4 from by decide,
              show inv1step (4 * 1) 2 &&& 12 = 4 from by decide,
              (hilbertPt_end m).2.1, (hilbertPt_start m).2.1,
              show inv1step (4 * 1) 1 &&& 1 = 1 from by decide,
              show inv1step (4 * 1) 1 >>> 1 &&& 1 = 0 from by decide,
              show inv1step (4 * 1) 2 &&& 1 = 1 from by decide,
              show inv1step (4 * 1) 2 >>> 1 &&& 1 = 1 from by decide]
            simp only [cheb1, true_and, and_true]
            omega
          · have t1 : h >>> (2 * m) &&& 3 = 2 := by rw [top1, hq]
            have t2 : (h + 1) >>> (2 * m) &&& 3 = 3 := by rw [top2, hq]
            rw [t1, t2, hl1, hl2,
              show inv1step (4 * 1) 2 &&& 12 = 4 from by decide,
              show inv1step (4 * 1) 3 &&& 12 = 8 from by decide,
              (hilbertPt_end m).2.1, (hilbertPt_start m).2.2.1,
              show inv1step (4 * 1) 2 &&& 1 = 1 from by decide,
              show inv1step (4 * 1) 2 >>> 1 &&& 1 = 1 from by decide,
              show inv1step (4 * 1) 3 &&& 1 = 0 from by decide,
              show inv1step (4 * 1) 3 >>> 1 &&& 1 = 1 from by decide]
            simp only [cheb1, true_and, and_true]
            omega
        · rcases hq3 with hq | hq | hq
          · have t1 : h >>> (2 * m) &&& 3 = 0 := by rw [top1, hq]
            have t2 : (h + 1) >>> (2 * m) &&& 3 = 1 := by rw [top2, hq]
            rw [t1, t2, hl1, hl2,
              show inv1step (4 * 2) 0 &&& 12 = 12 from by decide,
              show inv1step (4 * 2) 1 &&& 12 = 8 from by decide,
              (hilbertPt_end m).2.2.2, (hilbertPt_start m).2.2.1,
              show inv1step (4 * 2) 0 &&& 1 = 1 from by decide,
              show inv1step (4 * 2) 0 >>> 1 &&& 1 = 1 from by decide,
              show inv1step (4 * 2) 1 &&& 1 = 1 from by decide,
              show inv1step (4 * 2) 1 >>> 1 &&& 1 = 0 from by decide]
            simp only [cheb1, true_and, and_true]
            omega
          · have t1 : h >>> (2 * m) &&& 3 = 1 := by rw [top1, hq]
            have t2 : (h + 1) >>> (2 * m) &&& 3 = 2 := by rw [top2, hq]
            rw [t1, t2, hl1, hl2,
              show inv1step (4 * 2) 1 &&& 12 = 8 from by decide,
              show inv1step (4 * 2) 2 &&& 12 = 8 from by decide,
              (hilbertPt_end m).2.2.1, (hilbertPt_start m).2.2.1,
              show inv1step (4 * 2) 1 &&& 1 = 1 from by decide,
              show inv1step (4 * 2) 1 >>> 1 &&& 1 = 0 from by decide,
              show inv1step (4 * 2) 2 &&& 1 = 0 from by decide,
              show inv1step (4 * 2) 2 >>> 1 &&& 1 = 0 from by decide]
            simp only [cheb1, true_and, and_true]
            omega
          · have t1 : h >>> (2 * m) &&& 3 = 2 := by rw [top1, hq]
            have t2 : (h + 1) >>> (2 * m) &&& 3 = 3 := by rw [top2, hq]
            rw [t1, t2, hl1, hl2,
              show inv1step (4 * 2) 2 &&& 12 = 8 from by decide,
              show inv1step (4 * 2) 3 &&& 12 = 4 from by decide,
              (hilbertPt_end m).2.2.1, (hilbertPt_start m).2.1,
              show inv1step (4 * 2) 2 &&& 1 = 0 from by decide,
              show inv1step (4 * 2) 2 >>> 1 &&& 1 = 0 from by decide,
              show inv1step (4 * 2) 3 &&& 1 = 0 from by decide,
              show inv1step (4 * 2) 3 >>> 1 &&& 1 = 1 from by decide]
            simp only [cheb1, true_and, and_true]
            omega
        · rcases hq3 with hq | hq | hq
          · have t1 : h >>> (2 * m) &&& 3 = 0 := by rw [top1, hq]
            have t2 : (h + 1) >>> (2 * m) &&& 3 = 1 := by rw [top2, hq]
            rw [t1, t2, hl1, hl2,
              show inv1step (4 * 3) 0 &&& 12 = 8 from by decide,
              show inv1step (4 * 3) 1 &&& 12 = 12 from by decide,
              (hilbertPt_end m).2.2.1, (hilbertPt_start m).2.2.2,
              show inv1step (4 * 3) 0 &&& 1 = 1 from by decide,
              show inv1step (4 * 3) 0 >>> 1 &&& 1 = 1 from by decide,
              show inv1step (4 * 3) 1 &&& 1 = 0 from by decide,
              show inv1step (4 * 3) 1 >>> 1 &&& 1 = 1 from by decide]
            simp only [cheb1, true_and, and_true]
            omega
          · have t1 : h >>> (2 * m) &&& 3 = 1 := by rw [top1, hq]
            have t2 : (h + 1) >>> (2 * m) &&& 3 = 2 := by rw [top2, hq]
            rw [t1, t2, hl1, hl2,
              show inv1step (4 * 3) 1 &&& 12 = 12 from by decide,
              show inv1step (4 * 3) 2 &&& 12 = 12 from by decide,
              (hilbertPt_end m).2.2.2, (hilbertPt_start m).2.2.2,
              show inv1step (4 * 3) 1 &&& 1 = 0 from by decide,
              show inv1step (4 * 3) 1 >>> 1 &&& 1 = 1 from by decide,
              show inv1step (4 * 3) 2 &&& 1 = 0 from by decide,
              show inv1step (4 * 3) 2 >>> 1 &&& 1 = 0 from by decide]
            simp only [cheb1, true_and, and_true]
            omega
          · have t1 : h >>> (2 * m) &&& 3 = 2 := by rw [top1, hq]
            have t2 : (h + 1) >>> (2 * m) &&& 3 = 3 := by rw [top2, hq]
            rw [t1, t2, hl1, hl2,
              show inv1step (4 * 3) 2 &&& 12 = 12 from by decide,
              show inv1step (4 * 3) 3 &&& 12 = 0 from by decide,
              (hilbertPt_end m).2.2.2, (hilbertPt_start m).1,
              show inv1step (4 * 3) 2 &&& 1 = 0 from by decide,
              show inv1step (4 * 3) 2 >>> 1 &&& 1 = 0 from by decide,
              show inv1step (4 * 3) 3 &&& 1 = 1 from by decide,
              show inv1step (4 * 3) 3 >>> 1 &&& 1 = 0 from by decide]
            simp only [cheb1, true_and, and_true]
            omega

set_option maxRecDepth 4000 in
theorem deb64 : ∀ k, k < 64 → (DE_BRUIJN_SEQUENCE_64 * 2 ^ k % 2 ^ 64) >>> 58 < 64 ∧
    PERFECT_HASH_TABLE_64P >>> (8 * ((DE_BRUIJN_SEQUENCE_64 * 2 ^ k % 2 ^ 64) >>> 58)) &&&
      255 = k := by decide

set_option maxRecDepth 4000 in
theorem deb32 : ∀ k, k < 32 →
    (DE_BRUIJN_SEQUENCE_32 * (2 ^ (k + 1) - 1) % 2 ^ 32) >>> 27 < 32 ∧
    PERFECT_HASH_TABLE_32P >>>
      (8 * ((DE_BRUIJN_SEQUENCE_32 * (2 ^ (k + 1) - 1) % 2 ^ 32) >>> 27)) &&& 255 = k := by
  decide

theorem smear_step {y q : Nat} (c : Nat) (hq : Nat.testBit y q = true) :
    ∀ j, j = q ∨ j + c = q → Nat.testBit (y ||| y >>> c) j = true := by
  intro j hj
  rcases hj with rfl | hj
  · rw [Nat.testBit_or, hq]
    rfl
  · rw [Nat.testBit_or, Nat.testBit_shiftRight, show c + j = q from by omega, hq,
      Bool.or_true]

theorem or_shiftRight_lt {y n : Nat} (c : Nat) (hy : y < 2 ^ n) :
    y ||| y >>> c < 2 ^ n :=
  Nat.or_lt_two_pow hy (lt_of_le_of_lt
    (by rw [Nat.shiftRight_eq_div_pow]; exact Nat.div_le_self _ _) hy)

theorem testBit_of_msb {x k : Nat} (hlo : 2 ^ k ≤ x) (hhi : x < 2 ^ (k + 1)) :
    Nat.testBit x k = true := by
  have hp : (2:Nat) ^ (k + 1) = 2 ^ k * 2 := pow_succ 2 k
  have hdx : x / 2 ^ k = 1 := Nat.div_eq_of_lt_le (by omega) (by omega)
  rw [Nat.testBit_to_div_mod, hdx]
  rfl

theorem log2u64_pow (k : Nat) (hk : k < 64) (x : Nat) (hlo : 2 ^ k ≤ x)
    (hhi : x < 2 ^ (k + 1)) : log2u64 x = k := by
  simp only [log2u64]
  set a := x ||| x >>> 1 with ha
  set b := a ||| a >>> 2 with hb
  set c := b ||| b >>> 4 with hc
  set d := c ||| c >>> 8 with hd
  set e := d ||| d >>> 16 with he
  set f := e ||| e >>> 32 with hf
  have hflt : f < 2 ^ (k + 1) :=
    or_shiftRight_lt 32 (or_shiftRight_lt 16 (or_shiftRight_lt 8
      (or_shiftRight_lt 4 (or_shiftRight_lt 2 (or_shiftRight_lt 1 hhi)))))
  have hbit : ∀ j, j ≤ k → Nat.testBit f j = true := by
    intro j hj
    have t0 : Nat.testBit x (j + (k - j)) = true := by
      rw [show j + (k - j) = k from by omega]
      exact testBit_of_msb hlo hhi
    have t1 : Nat.testBit a (j + 2 * ((k - j) / 2)) = true :=
      smear_step 1 t0 _ (by omega)
    have t2 : Nat.testBit b (j + 4 * ((k - j) / 4)) = true :=
      smear_step 2 t1 _ (by omega)
    have t3 : Nat.testBit c (j + 8 * ((k - j) / 8)) = true :=
      smear_step 4 t2 _ (by omega)
    have t4 : Nat.testBit d (j + 16 * ((k - j) / 16)) = true :=
      smear_step 8 t3 _ (by omega)
    have t5 : Nat.testBit e (j + 32 * ((k - j) / 32)) = true :=
      smear_step 16 t4 _ (by omega)
    have t6 : Nat.testBit f (j + 64 * ((k - j) / 64)) = true :=
      smear_step 32 t5 _ (by omega)
    rwa [show j + 64 * ((k - j) / 64) = j from by omega] at t6
  have hfval : f = 2 ^ (k + 1) - 1 := by
    apply Nat.eq_of_testBit_eq
    intro j
    rw [Nat.testBit_two_pow_sub_one]
    rcases le_or_lt j k with hjk | hjk
    · rw [hbit j hjk]
      have : j < k + 1 := by omega
      simp [this]
    · have hfj : Nat.testBit f j = false := Nat.testBit_lt_two_pow
        (lt_of_lt_of_le hflt (Nat.pow_le_pow_right (by norm_num) (by omega)))
      rw [hfj]
      have : ¬ (j < k + 1) := by omega
      simp [this]
  rw [hfval]
  have hsub : 2 ^ (k + 1) - 1 - (2 ^ (k + 1) - 1) >>> 1 = 2 ^ k := by
    rw [Nat.shiftRight_eq_div_pow, pow_one]
    have h2 : (2:Nat) ^ (k + 1) = 2 ^ k * 2 := pow_succ 2 k
    omega
  rw [hsub, pht64_getD (deb64 k hk).1, (deb64 k hk).2]

theorem log2u32_pow (k : Nat) (hk : k < 32) (x : Nat) (hlo : 2 ^ k ≤ x)
    (hhi : x < 2 ^ (k + 1)) : log2u32 x = k := by
  simp only [log2u32]
  set a := x ||| x >>> 1 with ha
  set b := a ||| a >>> 2 with hb
  set c := b ||| b >>> 4 with hc
  set d := c ||| c >>> 8 with hd
  set e := d ||| d >>> 16 with he
  have helt : e < 2 ^ (k + 1) :=
    or_shiftRight_lt 16 (or_shiftRight_lt 8
      (or_shiftRight_lt 4 (or_shiftRight_lt 2 (or_shiftRight_lt 1 hhi))))
  have hbit : ∀ j, j ≤ k → Nat.testBit e j = true := by
    intro j hj
    have t0 : Nat.testBit x (j + (k - j)) = true := by
      rw [show j + (k - j) = k from by omega]
      exact testBit_of_msb hlo hhi
    have t1 : Nat.testBit a (j + 2 * ((k - j) / 2)) = true :=
      smear_step 1 t0 _ (by omega)
    have t2 : Nat.testBit b (j + 4 * ((k - j) / 4)) = true :=
      smear_step 2 t1 _ (by omega)
    have t3 : Nat.testBit c (j + 8 * ((k - j) / 8)) = true :=
      smear_step 4 t2 _ (by omega)
    have t4 : Nat.testBit d (j + 16 * ((k - j) / 16)) = true :=
      smear_step 8 t3 _ (by omega)
    have t5 : Nat.testBit e (j + 32 * ((k - j) / 32)) = true :=
      smear_step 16 t4 _ (by omega)
    rwa [show j + 32 * ((k - j) / 32) = j from by omega] at t5
  have heval : e = 2 ^ (k + 1) - 1 := by
    apply Nat.eq_of_testBit_eq
    intro j
    rw [Nat.testBit_two_pow_sub_one]
    rcases le_or_lt j k with hjk | hjk
    · rw [hbit j hjk]
      have : j < k + 1 := by omega
      simp [this]
    · have hej : Nat.testBit e j = false := Nat.testBit_lt_two_pow
        (lt_of_lt_of_le helt (Nat.pow_le_pow_right (by norm_num) (by omega)))
      rw [hej]
      have : ¬ (j < k + 1) := by omega
      simp [this]
  rw [heval, pht32_getD (deb32 k hk).1, (deb32 k hk).2]

theorem bytesLE_length : ∀ w v, (bytesLE w v).length = w
  | 0, _ => rfl
  | w + 1, v => by simp [bytesLE, bytesLE_length w]

theorem ofBytes_bytesLE : ∀ w v, v < 2 ^ (8 * w) → ofBytes (bytesLE w v) = v
  | 0, v, hv => by
    simp only [Nat.mul_zero, Nat.pow_zero] at hv
    simp [bytesLE, ofBytes]
    omega
  | w + 1, v, hv => by
    simp only [bytesLE, ofBytes]
    rw [ofBytes_bytesLE w (v / 256) (by
      have h8 : (2:Nat) ^ (8 * (w + 1)) = 2 ^ (8 * w) * 256 := by
        rw [show 8 * (w + 1) = 8 * w + 8 from by ring, pow_add]
        norm_num
      rw [h8] at hv
      omega)]
    omega

theorem take_app {n : Nat} (l r : List Nat) (h : l.length = n) :
    (l ++ r).take n = l := by
  subst h
  exact List.take_left l r

theorem drop_app {n : Nat} (l r : List Nat) (h : l.length = n) :
    (l ++ r).drop n = r := by
  subst h
  exact List.drop_left l r

theorem encodeVertex_length (v : UnitVector3d) : (encodeVertex v).length = 24 := by
  simp [encodeVertex, bytesLE_length]

theorem encodeVertices_length : ∀ l : List UnitVector3d,
    (encodeVertices l).length = 24 * l.length
  | [] => rfl
  | v :: t => by
    simp [encodeVertices, encodeVertex_length, encodeVertices_length t]
    ring

theorem parse_encodeVertices : ∀ l : List UnitVector3d,
    (∀ v ∈ l, v.x < 2 ^ 64 ∧ v.y < 2 ^ 64 ∧ v.z < 2 ^ 64) → ∀ r : List Nat,
    parseVertices l.length (encodeVertices l ++ r) = l
  | [], _, r => rfl
  | v :: t, hb, r => by
    obtain ⟨hvx, hvy, hvz⟩ := hb v (by simp)
    have hx8 : (bytesLE 8 v.x).length = 8 := bytesLE_length 8 v.x
    have hy8 : (bytesLE 8 v.y).length = 8 := bytesLE_length 8 v.y
    have hz8 : (bytesLE 8 v.z).length = 8 := bytesLE_length 8 v.z
    simp only [List.length_cons, parseVertices, encodeVertices, encodeVertex,
      List.append_assoc]
    rw [take_app _ _ hx8, drop_app _ _ hx8, take_app _ _ hy8]
    rw [show ((16:Nat)) = 8 + 8 from rfl, ← List.drop_drop,
      drop_app _ _ hx8, drop_app _ _ hy8, take_app _ _ hz8]
    rw [show ((24:Nat)) = 8 + (8 + 8) from rfl, ← List.drop_drop, ← List.drop_drop,
      drop_app _ _ hx8, drop_app _ _ hy8, drop_app _ _ hz8]
    rw [ofBytes_bytesLE 8 v.x hvx, ofBytes_bytesLE 8 v.y hvy,
      ofBytes_bytesLE 8 v.z hvz]
    rw [parse_encodeVertices t (fun u hu => hb u (by simp [hu])) r]

theorem decode_wf (n : Nat) (L : List Nat) (hn : n < 2 ^ 32)
    (hL : L.length = 24 * n) :
    ConvexPolygon.decode (TYPE_CODE :: (bytesLE 4 n ++ L)) =
      .ok ⟨parseVertices n L⟩ := by
  have h4 : (bytesLE 4 n).length = 4 := bytesLE_length _ _
  have hlen : (TYPE_CODE :: (bytesLE 4 n ++ L)).length = 5 + 24 * n := by
    simp only [List.length_cons, List.length_append, h4, hL]
    omega
  simp only [ConvexPolygon.decode]
  rw [hlen, if_neg (by omega), List.getD_cons_zero,
    if_neg (show ¬ (TYPE_CODE ≠ TYPE_CODE) from fun hne => hne rfl)]
  simp only [List.drop_succ_cons, List.drop_zero]
  rw [take_app _ _ h4, ofBytes_bytesLE 4 n hn, if_pos rfl, drop_app _ _ h4]

theorem decode_wrong (n : Nat) (L : List Nat) (hn : n < 2 ^ 32)
    (hL : L.length = 24 * n + 1) :
    ConvexPolygon.decode (TYPE_CODE :: (bytesLE 4 n ++ L)) =
      .error .countMismatch := by
  have h4 : (bytesLE 4 n).length = 4 := bytesLE_length _ _
  have hlen : (TYPE_CODE :: (bytesLE 4 n ++ L)).length = 5 + 24 * n + 1 := by
    simp only [List.length_cons, List.length_append, h4, hL]
    omega
  simp only [ConvexPolygon.decode]
  rw [hlen, if_neg (by omega), List.getD_cons_zero,
    if_neg (show ¬ (TYPE_CODE ≠ TYPE_CODE) from fun hne => hne rfl)]
  simp only [List.drop_succ_cons, List.drop_zero]
  rw [take_app _ _ h4, ofBytes_bytesLE 4 n hn, if_neg (by omega)]

theorem decode_encode (p : ConvexPolygon) (hc : p.vertices.length < 2 ^ 32)
    (hv : ∀ v ∈ p.vertices, v.x < 2 ^ 64 ∧ v.y < 2 ^ 64 ∧ v.z < 2 ^ 64) :
    ConvexPolygon.decode (ConvexPolygon.encode p) = .ok p := by
  have hL : (encodeVertices p.vertices).length = 24 * p.vertices.length :=
    encodeVertices_length _
  show ConvexPolygon.decode
      (TYPE_CODE :: (bytesLE 4 p.vertices.length ++ encodeVertices p.vertices)) =
    .ok p
  rw [decode_wf p.vertices.length (encodeVertices p.vertices) hc hL]
  rw [show encodeVertices p.vertices = encodeVertices p.vertices ++ [] from
    (List.append_nil _).symm, parse_encodeVertices p.vertices hv []]

theorem decode_truncated (bs : List Nat) (h : bs.length < 5) :
    ConvexPolygon.decode bs = .error .truncated := by
  simp only [ConvexPolygon.decode]
  rw [if_pos h]

theorem decode_badcode (c : Nat) (rest : List Nat) (hne : c ≠ TYPE_CODE)
    (hlen : 5 ≤ (c :: rest).length) :
    ConvexPolygon.decode (c :: rest) = .error .typeCodeMismatch := by
  simp only [ConvexPolygon.decode]
  rw [if_neg (by omega), List.getD_cons_zero, if_pos hne]

theorem decode_badlen (p : ConvexPolygon) (hc : p.vertices.length < 2 ^ 32)
    (extra : Nat) :
    ConvexPolygon.decode (ConvexPolygon.encode p ++ [extra]) =
      .error .countMismatch := by
  have hL : (encodeVertices p.vertices ++ [extra]).length =
      24 * p.vertices.length + 1 := by
    simp [encodeVertices_length]
  show ConvexPolygon.decode (TYPE_CODE :: (bytesLE 4 p.vertices.length ++
      encodeVertices p.vertices) ++ [extra]) = .error .countMismatch
  rw [List.cons_append, List.append_assoc]
  exact decode_wrong p.vertices.length (encodeVertices p.vertices ++ [extra]) hc hL

/-- C1: for every m in [0,32], hilbertIndex is a bijection from the grid
[0,2^m) x [0,2^m) onto [0,4^m), and hilbertIndexInverse is its two-sided
inverse: it round-trips every grid point and every index. -/
theorem claim_C1 (m : Nat) (hm : m ≤ 32) :
    (∀ x, x < 2 ^ m → ∀ y, y < 2 ^ m →
      hilbertIndex x y m < 4 ^ m ∧
      hilbertIndexInverse (hilbertIndex x y m) m = (x, y)) ∧
    (∀ h, h < 4 ^ m →
      (hilbertIndexInverse h m).1 < 2 ^ m ∧ (hilbertIndexInverse h m).2 < 2 ^ m ∧
      hilbertIndex (hilbertIndexInverse h m).1 (hilbertIndexInverse h m).2 m = h) := by
  have hdm : 2 ∣ 2 * m := ⟨m, rfl⟩
  have h4 : (4:Nat) ^ m = 2 ^ (2 * m) := by
    rw [show (4:Nat) = 2 ^ 2 from rfl, ← pow_mul]
  constructor
  · intro x hx y hy
    have hx32 : x < 2 ^ 32 := lt_of_lt_of_le hx (Nat.pow_le_pow_right (by norm_num) hm)
    have hy32 : y < 2 ^ 32 := lt_of_lt_of_le hy (Nat.pow_le_pow_right (by norm_num) hm)
    have hM : mortonIndex x y < 2 ^ (2 * m) := morton_lt_pow hm hx hy
    constructor
    · simp only [hilbertIndex, mortonToHilbert, h4]
      exact mtHgo_lt _ (2 * m) hdm 0
    · simp only [hilbertIndex, mortonToHilbert, hilbertIndexInverse, hilbertToMorton]
      have hrt := hilbert_rt1 (mortonIndex x y) (2 * m) hdm 0 (by norm_num)
      simp only [Nat.mul_zero] at hrt
      rw [hrt, Nat.mod_eq_of_lt hM, morton_roundtrip x y hx32 hy32]
  · intro h hh
    rw [h4] at hh
    have hW : htMgo h (2 * m) 0 0 < 2 ^ (2 * m) := htMgo_lt h (2 * m) hdm 0
    have hW64 : htMgo h (2 * m) 0 0 < 2 ^ 64 :=
      lt_of_lt_of_le hW (Nat.pow_le_pow_right (by norm_num) (by omega))
    have hcomp := mortonInverse_comp_lt hm hW
    refine ⟨?_, ?_, ?_⟩
    · simp only [hilbertIndexInverse, hilbertToMorton]
      exact hcomp.1
    · simp only [hilbertIndexInverse, hilbertToMorton]
      exact hcomp.2
    · simp only [hilbertIndexInverse, hilbertToMorton, hilbertIndex, mortonToHilbert]
      rw [morton_of_inverse _ hW64]
      have hrt := hilbert_rt2 h (2 * m) hdm 0 (by norm_num)
      simp only [Nat.mul_zero] at hrt
      rw [hrt, Nat.mod_eq_of_lt hh]

/-- C1 witness at m = 2, (x, y) = (3, 1) and h = 11. -/
theorem claim_C1_witness :
    hilbertIndexInverse (hilbertIndex 3 1 2) 2 = (3, 1) ∧
    hilbertIndex (hilbertIndexInverse 11 2).1 (hilbertIndexInverse 11 2).2 2 = 11 :=
  ⟨((claim_C1 2 (by norm_num)).1 3 (by norm_num) 1 (by norm_num)).2,
   ((claim_C1 2 (by norm_num)).2 11 (by norm_num)).2.2⟩

/-- C2: mortonIndexInverse inverts mortonIndex on every pair of 32-bit
inputs. -/
theorem claim_C2 (x y : Nat) (hx : x < 2 ^ 32) (hy : y < 2 ^ 32) :
    mortonIndexInverse (mortonIndex x y) = (x, y) :=
  morton_roundtrip x y hx hy

/-- C2 witness at (x, y) = (123456, 654321). -/
theorem claim_C2_witness :
    mortonIndexInverse (mortonIndex 123456 654321) = (123456, 654321) :=
  claim_C2 123456 654321 (by norm_num) (by norm_num)

/-- C3: on the documented domain m in [1,32], consecutive Hilbert indices
decode to grid cells at Chebyshev distance exactly 1 (one coordinate changes
by exactly 1). -/
theorem claim_C3 (m : Nat) (hm1 : 1 ≤ m) (hm : m ≤ 32) (h : Nat)
    (hh : h ≤ 4 ^ m - 2) :
    cheb1 (hilbertIndexInverse h m) (hilbertIndexInverse (h + 1) m) := by
  have hdm : 2 ∣ 2 * m := ⟨m, rfl⟩
  have h4 : (4:Nat) ^ m = 2 ^ (2 * m) := by
    rw [show (4:Nat) = 2 ^ 2 from rfl, ← pow_mul]
  have h4m : 4 ≤ 4 ^ m := by
    calc (4:Nat) = 4 ^ 1 := by norm_num
    _ ≤ 4 ^ m := Nat.pow_le_pow_right (by norm_num) hm1
  have hb : h + 1 < 2 ^ (2 * m) := by
    rw [← h4]
    omega
  have hb0 : h < 2 ^ (2 * m) := by omega
  have he1 := inv_equiv h (2 * m) hdm 0 (by norm_num)
  have he2 := inv_equiv (h + 1) (2 * m) hdm 0 (by norm_num)
  simp only [Nat.mul_zero] at he1 he2
  have hp1 := inv2go_pt m hm 0 (by norm_num) h hb0
  have hp2 := inv2go_pt m hm 0 (by norm_num) (h + 1) hb
  simp only [Nat.mul_zero] at hp1 hp2
  have hadj := hilbertPt_adj m hm1 0 (by norm_num) h hb
  simp only [Nat.mul_zero] at hadj
  simp only [hilbertIndexInverse, hilbertToMorton]
  rw [← he1, ← he2, hp1, hp2]
  exact hadj

/-- C3 witness at m = 3, h = 7. -/
theorem claim_C3_witness :
    cheb1 (hilbertIndexInverse 7 3) (hilbertIndexInverse 8 3) :=
  claim_C3 3 (by norm_num) (by norm_num) 7 (by norm_num)

/-- C4: the unrolled 6-bits-per-step table-driven mortonToHilbert agrees with
the one-bit-pair-per-step HILBERT_LUT_1 reference loop from the file's
header comment, for every m in [0,32] and every 64-bit input. -/
theorem claim_C4 (m : Nat) (hm : m ≤ 32) (z : Nat) (hz : z < 2 ^ 64) :
    mortonToHilbert z m = refMortonToHilbert z m := by
  have he := ref_equiv z (2 * m) ⟨m, rfl⟩ 0 (by norm_num)
  simp only [Nat.mul_zero] at he
  simp only [mortonToHilbert, refMortonToHilbert]
  exact he.symm

/-- C4 witness at m = 5, z = 123456789. -/
theorem claim_C4_witness :
    mortonToHilbert 123456789 5 = refMortonToHilbert 123456789 5 :=
  claim_C4 5 (by norm_num) 123456789 (by norm_num)

/-- C5: decode inverts encode bit-for-bit on every polygon (with at least 3
vertices, a representable count, and 8-byte coordinate patterns), and a
truncated buffer, a corrupted leading type code, or an inconsistent
count/length each fail with the corresponding DecodeError, returning no
polygon. -/
theorem claim_C5 :
    (∀ p : ConvexPolygon, 3 ≤ p.vertices.length → p.vertices.length < 2 ^ 32 →
      (∀ v ∈ p.vertices, v.x < 2 ^ 64 ∧ v.y < 2 ^ 64 ∧ v.z < 2 ^ 64) →
      ConvexPolygon.decode (ConvexPolygon.encode p) = .ok p) ∧
    (∀ bs : List Nat, bs.length < 5 →
      ConvexPolygon.decode bs = .error .truncated) ∧
    (∀ c : Nat, c ≠ TYPE_CODE → ∀ rest : List Nat, 5 ≤ (c :: rest).length →
      ConvexPolygon.decode (c :: rest) = .error .typeCodeMismatch) ∧
    (∀ p : ConvexPolygon, p.vertices.length < 2 ^ 32 → ∀ extra : Nat,
      ConvexPolygon.decode (ConvexPolygon.encode p ++ [extra]) =
        .error .countMismatch) :=
  ⟨fun p _ hc hv => decode_encode p hc hv,
   decode_truncated,
   fun c hne rest hlen => decode_badcode c rest hne hlen,
   fun p hc extra => decode_badlen p hc extra⟩

/-- C5 witness: a concrete triangle round-trips, and the three failure modes
fire on concrete buffers. -/
theorem claim_C5_witness :
    ConvexPolygon.decode
        (ConvexPolygon.encode ⟨[⟨1, 2, 3⟩, ⟨4, 5, 6⟩, ⟨7, 8, 9⟩]⟩) =
      .ok ⟨[⟨1, 2, 3⟩, ⟨4, 5, 6⟩, ⟨7, 8, 9⟩]⟩ ∧
    ConvexPolygon.decode [] = .error .truncated ∧
    ConvexPolygon.decode
        (113 :: (ConvexPolygon.encode ⟨[⟨1, 2, 3⟩, ⟨4, 5, 6⟩, ⟨7, 8, 9⟩]⟩).tail) =
      .error .typeCodeMismatch ∧
    ConvexPolygon.decode
        (ConvexPolygon.encode ⟨[⟨1, 2, 3⟩, ⟨4, 5, 6⟩, ⟨7, 8, 9⟩]⟩ ++ [0]) =
      .error .countMismatch :=
  ⟨claim_C5.1 _ (by decide) (by decide) (by decide),
   claim_C5.2.1 [] (by decide),
   claim_C5.2.2.1 113 (by decide) _ (by decide),
   claim_C5.2.2.2 _ (by decide) 0⟩

/-- C6: on nonzero inputs both log2 variants return the index of the most
significant set bit (the unique k with 2^k ≤ x < 2^(k+1)); on 0 both return
0. -/
theorem claim_C6 (x : Nat) :
    (x < 2 ^ 64 → x ≠ 0 → 2 ^ log2u64 x ≤ x ∧ x < 2 ^ (log2u64 x + 1)) ∧
    (x < 2 ^ 32 → x ≠ 0 → 2 ^ log2u32 x ≤ x ∧ x < 2 ^ (log2u32 x + 1)) ∧
    log2u64 0 = 0 ∧ log2u32 0 = 0 := by
  refine ⟨?_, ?_, by decide, by decide⟩
  · intro hx h0
    have hlo := Nat.log2_self_le h0
    have hhi := Nat.lt_log2_self (n := x)
    have hk : Nat.log2 x < 64 := by
      by_contra hge
      have h1 : (2:Nat) ^ 64 ≤ 2 ^ Nat.log2 x :=
        Nat.pow_le_pow_right (by norm_num) (by omega)
      omega
    rw [log2u64_pow (Nat.log2 x) hk x hlo hhi]
    exact ⟨hlo, hhi⟩
  · intro hx h0
    have hlo := Nat.log2_self_le h0
    have hhi := Nat.lt_log2_self (n := x)
    have hk : Nat.log2 x < 32 := by
      by_contra hge
      have h1 : (2:Nat) ^ 32 ≤ 2 ^ Nat.log2 x :=
        Nat.pow_le_pow_right (by norm_num) (by omega)
      omega
    rw [log2u32_pow (Nat.log2 x) hk x hlo hhi]
    exact ⟨hlo, hhi⟩

/-- C6 witness at x = 12345 (64-bit) and x = 777 (32-bit). -/
theorem claim_C6_witness :
    (2 ^ log2u64 12345 ≤ 12345 ∧ 12345 < 2 ^ (log2u64 12345 + 1)) ∧
    (2 ^ log2u32 777 ≤ 777 ∧ 777 < 2 ^ (log2u32 777 + 1)) :=
  ⟨(claim_C6 12345).1 (by norm_num) (by norm_num),
   (claim_C6 777).2.1 (by norm_num) (by norm_num)⟩

/-- C7: mortonIndex places the bits of x on the even bit positions and the
bits of y on the odd bit positions. -/
theorem claim_C7 (x y : Nat) (hx : x < 2 ^ 32) (hy : y < 2 ^ 32) (i : Nat) :
    Nat.testBit (mortonIndex x y) (2 * i) = Nat.testBit x i ∧
    Nat.testBit (mortonIndex x y) (2 * i + 1) = Nat.testBit y i := by
  have hM64 : mortonIndex x y < 2 ^ 64 := morton_lt_pow (le_refl 32) hx hy
  rcases Nat.lt_or_ge i 32 with hi | hi
  · have hdig : mortonIndex x y / 2 ^ (2 * i) % 2 ^ 2 =
        x / 2 ^ i % 2 + 2 * (y / 2 ^ i % 2) := by
      rw [mortonIndex_eq x y hx hy]
      exact csum_digit (fun j _ => by
        have h1 : x / 2 ^ j % 2 < 2 := Nat.mod_lt _ (by norm_num)
        have h2 : y / 2 ^ j % 2 < 2 := Nat.mod_lt _ (by norm_num)
        omega) hi
    have h1 : x / 2 ^ i % 2 < 2 := Nat.mod_lt _ (by norm_num)
    have h2 : y / 2 ^ i % 2 < 2 := Nat.mod_lt _ (by norm_num)
    constructor
    · have hval : mortonIndex x y / 2 ^ (2 * i) % 2 = x / 2 ^ i % 2 := by
        rw [(Nat.mod_mod_of_dvd _ (by norm_num : (2:Nat) ∣ 2 ^ 2)).symm, hdig]
        omega
      rw [Nat.testBit_to_div_mod, Nat.testBit_to_div_mod, hval]
    · have hdd : mortonIndex x y / 2 ^ (2 * i + 1) =
          mortonIndex x y / 2 ^ (2 * i) / 2 := by
        rw [pow_succ, ← Nat.div_div_eq_div_mul]
      have hval : mortonIndex x y / 2 ^ (2 * i) / 2 % 2 = y / 2 ^ i % 2 := by
        rw [show mortonIndex x y / 2 ^ (2 * i) / 2 % 2 =
            mortonIndex x y / 2 ^ (2 * i) % (2 * 2) / 2 from
          (Nat.mod_mul_right_div_self _ 2 2).symm,
          show (2:Nat) * 2 = 2 ^ 2 from rfl, hdig]
        omega
      rw [Nat.testBit_to_div_mod, Nat.testBit_to_div_mod, hdd, hval]
  · have hx0 : Nat.testBit x i = false := Nat.testBit_lt_two_pow
      (lt_of_lt_of_le hx (Nat.pow_le_pow_right (by norm_num) hi))
    have hy0 : Nat.testBit y i = false := Nat.testBit_lt_two_pow
      (lt_of_lt_of_le hy (Nat.pow_le_pow_right (by norm_num) hi))
    have hM1 : Nat.testBit (mortonIndex x y) (2 * i) = false :=
      Nat.testBit_lt_two_pow
        (lt_of_lt_of_le hM64 (Nat.pow_le_pow_right (by norm_num) (by omega)))
    have hM2 : Nat.testBit (mortonIndex x y) (2 * i + 1) = false :=
      Nat.testBit_lt_two_pow
        (lt_of_lt_of_le hM64 (Nat.pow_le_pow_right (by norm_num) (by omega)))
    rw [hx0, hy0, hM1, hM2]
    exact ⟨rfl, rfl⟩

/-- C7 witness at (x, y) = (5, 2), bit pair i = 1. -/
theorem claim_C7_witness :
    Nat.testBit (mortonIndex 5 2) (2 * 1) = Nat.testBit 5 1 ∧
    Nat.testBit (mortonIndex 5 2) (2 * 1 + 1) = Nat.testBit 2 1 :=
  claim_C7 5 2 (by norm_num) (by norm_num) 1

/-- C8 (corrected): the spec's worked example is wrong. Interleaving x = 5
(alternating with y = 2 on the odd bits) gives 25 (binary 011001), not 21;
and deinterleaving 21 gives (7, 0). The corrected example: mortonIndex 5 2 =
25 and mortonIndexInverse 25 = (5, 2). -/
theorem claim_C8 : mortonIndex 5 2 = 25 ∧ mortonIndexInverse 25 = (5, 2) ∧
    mortonIndexInverse 21 = (7, 0) := by decide

/-- C8 counterexample: the literal example of the spec does not hold. -/
theorem claim_C8_counterexample :
    ¬ (mortonIndex 5 2 = 21 ∧ mortonIndexInverse 21 = (5, 2)) := by decide

/-- C9: the generic relate overload answers by asking the other region and
inverting, and invert is the spec's table (an involution fixing DISJOINT and
INTERSECTS and swapping CONTAINS and WITHIN). -/
theorem claim_C9 :
    (∀ (p : ConvexPolygon) (r : Region),
      ConvexPolygon.relate p r = invert (r.relateToPolygon p)) ∧
    invert .disjoint = .disjoint ∧ invert .intersects = .intersects ∧
    invert .contains = .within ∧ invert .within = .contains ∧
    (∀ a : Relationship, invert (invert a) = a) :=
  ⟨fun _ _ => rfl, rfl, rfl, rfl, rfl, fun a => by cases a <;> rfl⟩

/-- C10: hilbertIndex depends only on the low m bits of each coordinate,
hilbertIndexInverse only on the low 2m bits of the index, and at m = 0
everything collapses to 0. -/
theorem claim_C10 (m : Nat) (hm : m ≤ 32) :
    (∀ x, x < 2 ^ 32 → ∀ y, y < 2 ^ 32 →
      hilbertIndex x y m = hilbertIndex (x % 2 ^ m) (y % 2 ^ m) m) ∧
    (∀ h, h < 2 ^ 64 →
      hilbertIndexInverse h m = hilbertIndexInverse (h % 4 ^ m) m) ∧
    (∀ x y, hilbertIndex x y 0 = 0) ∧
    (∀ h, hilbertIndexInverse h 0 = (0, 0)) := by
  have hdm : 2 ∣ 2 * m := ⟨m, rfl⟩
  have h4 : (4:Nat) ^ m = 2 ^ (2 * m) := by
    rw [show (4:Nat) = 2 ^ 2 from rfl, ← pow_mul]
  refine ⟨?_, ?_, ?_, ?_⟩
  · intro x hx y hy
    have hxm : x % 2 ^ m < 2 ^ 32 :=
      lt_of_lt_of_le (Nat.mod_lt x (Nat.two_pow_pos m))
        (Nat.pow_le_pow_right (by norm_num) hm)
    have hym : y % 2 ^ m < 2 ^ 32 :=
      lt_of_lt_of_le (Nat.mod_lt y (Nat.two_pow_pos m))
        (Nat.pow_le_pow_right (by norm_num) hm)
    simp only [hilbertIndex, mortonToHilbert]
    refine mtHgo_low _ _ (2 * m) hdm 0 ?_
    rw [morton_mod hm hx hy, morton_mod hm hxm hym,
      Nat.mod_mod_of_dvd x (dvd_refl _), Nat.mod_mod_of_dvd y (dvd_refl _)]
  · intro h hh
    simp only [hilbertIndexInverse, hilbertToMorton]
    have hlow : htMgo h (2 * m) 0 0 = htMgo (h % 4 ^ m) (2 * m) 0 0 := by
      refine htMgo_low h (h % 4 ^ m) (2 * m) hdm 0 ?_
      rw [h4, Nat.mod_mod_of_dvd h (dvd_refl _)]
    rw [hlow]
  · intro x y
    rfl
  · intro h
    have e : htMgo h (2 * 0) 0 0 = 0 := rfl
    simp only [hilbertIndexInverse, hilbertToMorton, e]
    decide

/-- C10 witness at m = 4, (x, y) = (100, 200) and h = 2^50 + 3. -/
theorem claim_C10_witness :
    hilbertIndex 100 200 4 = hilbertIndex (100 % 2 ^ 4) (200 % 2 ^ 4) 4 ∧
    hilbertIndexInverse (2 ^ 50 + 3) 4 =
      hilbertIndexInverse ((2 ^ 50 + 3) % 4 ^ 4) 4 :=
  ⟨(claim_C10 4 (by norm_num)).1 100 (by norm_num) 200 (by norm_num),
   (claim_C10 4 (by norm_num)).2.1 (2 ^ 50 + 3) (by norm_num)⟩
